import Mathlib

/-! viewcore objref: object reference trees, retained sizes and the report.

A shallow embedding of `cmd/viewcore/objref.go` and of the byte-size codec of
`internal/util/util.go`.

`*ObjNode` pointers are indices into a node store (`State.mem`); allocation
appends to the store, so two pointers are the same Go object exactly when the
indices are equal.  The package-level maps and slices of the Go file are the
fields of `State`.  Sizes are Go `int64` byte counts of objects of one core
file; they are kept as `Int`, and the sums of `calcTreeSize` and of the grand
total are cut to 64 bits (`wrap64`).
-/

set_option autoImplicit false

namespace Objref

/-! ## Data model (objref.go 17-36) -/

/-- An outgoing edge: `type ObjRef struct { link string; node *ObjNode }`. -/
structure ObjRef where
  link : String
  node : Nat
deriving DecidableEq, Repr

/-- One vertex: `type ObjNode struct { addr; name; size; refs }`. -/
structure ObjNode where
  addr : Nat
  name : String
  size : Int
  refs : List ObjRef
deriving DecidableEq, Repr

/-- The package-level variables of objref.go together with the node store that
gives the `*ObjNode` pointers their meaning, and the diagnostics that
`findOrCreateObjNode` writes to stderr.
`visitedNodes` lists the keys of the Go map; `allNodes` is an association list
from address to pointer.  (`rootNodesMap` is declared in the source and never
used.) -/
structure State where
  mem : List ObjNode
  visitedNodes : List Nat
  allNodes : List (Nat × Nat)
  rootObjNodes : List Nat
  globalVarNodes : List Nat
  goroutineNodes : List Nat
  stderr : List String
deriving DecidableEq, Repr

/-- The state at program start: empty maps and slices. -/
def State.init : State :=
  { mem := [], visitedNodes := [], allNodes := [], rootObjNodes := [],
    globalVarNodes := [], goroutineNodes := [], stderr := [] }

/-- What stops a run: the explicit panic of `genUniqueRefTree`, a dereference
of a pointer that is not in the store (a Go nil dereference), or the recursion
budget of the model being used up. -/
inductive Fault where
  | notVisited
  | nilPointer
  | outOfFuel
deriving DecidableEq, Repr

/-! ## Ingestion (objref.go 70-128) -/

/-- `nodeCopy`: a shallow copy with an empty child list. -/
def nodeCopy (node : ObjNode) : ObjNode :=
  { node with refs := [] }

/-- `strings.HasPrefix(s, "unk")`. -/
def hasPrefixUnk (s : String) : Bool :=
  "unk".toList.isPrefixOf s.toList

/-- `findOrCreateObjNode`: returns the new state, the canonical node of the
address and whether it existed already. -/
def findOrCreateObjNode (st : State) (name : String) (addr : Nat) (size : Int) :
    State × Nat × Bool :=
  match st.allNodes.lookup addr with
  | some p =>
    match st.mem[p]? with
    | some node =>
      let err :=
        if node.size ≠ size then
          st.stderr ++ ["same address: " ++ toString addr ++ ", old size: " ++ toString node.size ++
            ", new size: " ++ toString size ++ "\n"]
        else st.stderr
      let node1 :=
        if node.name ≠ name ∧ hasPrefixUnk node.name = true ∧ hasPrefixUnk name = false then
          { node with name := name }
        else node
      ({ st with mem := st.mem.set p node1, stderr := err }, p, true)
    | none => (st, p, true)
  | none =>
    let node : ObjNode := { name := name, addr := addr, size := size, refs := [] }
    ({ st with mem := st.mem ++ [node], allNodes := (addr, st.mem.length) :: st.allNodes },
      st.mem.length, false)

/-- `(node *ObjNode) appendChild(cNode, link)`. -/
def appendChild (st : State) (node cNode : Nat) (link : String) : State :=
  match st.mem[node]? with
  | some n =>
    { st with mem := st.mem.set node { n with refs := n.refs ++ [{ link := link, node := cNode }] } }
  | none => st

/-- `addGlobalVarNodes`: the copy goes to `globalVarNodes` and to `rootObjNodes`. -/
def addGlobalVarNodes (st : State) (node : Nat) : State :=
  match st.mem[node]? with
  | some nd =>
    let n := st.mem.length
    { st with
      mem := st.mem ++ [nodeCopy nd]
      globalVarNodes := st.globalVarNodes ++ [n]
      rootObjNodes := st.rootObjNodes ++ [n]
      visitedNodes := nd.addr :: st.visitedNodes }
  | none => st

/-- `addGoroutines`: the copy goes to `rootObjNodes`, the node itself (not the
copy) to `goroutineNodes`, as in the source. -/
def addGoroutines (st : State) (node : Nat) : State :=
  match st.mem[node]? with
  | some nd =>
    let n := st.mem.length
    { st with
      mem := st.mem ++ [nodeCopy nd]
      goroutineNodes := st.goroutineNodes ++ [node]
      rootObjNodes := st.rootObjNodes ++ [n]
      visitedNodes := nd.addr :: st.visitedNodes }
  | none => st

/-! ## Tree building (objref.go 38-68) -/

/-- The inner loop of `genUniqueRefTree` (lines 49-63) for the frontier node
`node`, over the child list `refs` read at line 48. -/
def attachRefs (node : Nat) : List ObjRef → State → List Nat → Except Fault (State × List Nat)
  | [], st, cnodes => .ok (st, cnodes)
  | ref :: rest, st, cnodes =>
    match st.mem[ref.node]? with
    | none => .error .nilPointer
    | some target =>
      if target.addr ∈ st.visitedNodes then attachRefs node rest st cnodes
      else
        match st.mem[node]? with
        | none => .error .nilPointer
        | some parent =>
          let newNode := st.mem.length
          let mem1 := st.mem ++ [nodeCopy target]
          let mem2 := mem1.set node
            { parent with refs := parent.refs ++ [{ link := ref.link, node := newNode }] }
          attachRefs node rest
            { st with mem := mem2, visitedNodes := target.addr :: st.visitedNodes }
            (cnodes ++ [newNode])

/-- The outer loop of `genUniqueRefTree` (lines 42-64) over the frontier. -/
def expandNodes : List Nat → State → List Nat → Except Fault (State × List Nat)
  | [], st, cnodes => .ok (st, cnodes)
  | node :: rest, st, cnodes =>
    match st.mem[node]? with
    | none => .error .nilPointer
    | some n =>
      if n.addr ∈ st.visitedNodes then
        match st.allNodes.lookup n.addr with
        | none => .error .nilPointer
        | some c =>
          match st.mem[c]? with
          | none => .error .nilPointer
          | some cn =>
            match attachRefs node cn.refs st cnodes with
            | .error e => .error e
            | .ok (st1, cnodes1) => expandNodes rest st1 cnodes1
      else .error .notVisited

/-- `genUniqueRefTree`: one frontier is expanded, then the function calls
itself on the nodes it created.  The first argument bounds the recursion
depth. -/
def genUniqueRefTree : Nat → State → List Nat → Except Fault State
  | 0, _, _ => .error .outOfFuel
  | fuel + 1, st, nodes =>
    match expandNodes nodes st [] with
    | .error e => .error e
    | .ok (st1, cnodes) =>
      if cnodes.length > 0 then genUniqueRefTree fuel st1 cnodes else .ok st1

/-- Lines 261-264 of `runObjref`: first the global variables, next the
goroutines. -/
def buildForest (fuel : Nat) (st : State) : Except Fault State :=
  match genUniqueRefTree fuel st st.globalVarNodes with
  | .error e => .error e
  | .ok st1 => genUniqueRefTree fuel st1 st1.goroutineNodes

/-! ## The graph provider and the ingestion loops of `runObjref` (lines 228-259) -/

/-- What the provider reports for one heap object: `typeName`, `c.Addr`, `c.Size`. -/
structure Obj where
  name : String
  addr : Nat
  size : Int
deriving DecidableEq, Repr

/-- The enumerations of the graph provider that `runObjref` consumes:
`ForEachObject` with the `ForEachPtr` edges of each object (field name and
target), `Globals` with name, address and `ForEachRootPtr` edges, and
`Goroutines` with address and the size the provider reports at that address. -/
structure Core where
  objects : List (Obj × List (String × Obj))
  globals : List (String × Nat × List (String × Obj))
  goroutines : List (Nat × Int)
deriving Repr

/-- Lowercase hexadecimal, the `%x` verb on an address. -/
def hex (n : Nat) : String :=
  String.mk (Nat.toDigits 16 n)

/-- The pointer callback (lines 232-236 and 249-253): register the target and
append an edge from `x` to it. -/
def ingestPtrs (x : Nat) : List (String × Obj) → State → State
  | [], st => st
  | (field, y) :: rest, st =>
    let r := findOrCreateObjNode st y.name y.addr y.size
    ingestPtrs x rest (appendChild r.1 x r.2.1 field)

/-- The object loop, lines 229-238. -/
def ingestObjects : List (Obj × List (String × Obj)) → State → State
  | [], st => st
  | (x, ptrs) :: rest, st =>
    let r := findOrCreateObjNode st x.name x.addr x.size
    ingestObjects rest (ingestPtrs r.2.1 ptrs r.1)

/-- The loop over the global variables, lines 241-254: size 0, a root only
when the address was not registered before. -/
def ingestGlobals : List (String × Nat × List (String × Obj)) → State → State
  | [], st => st
  | (name, addr, ptrs) :: rest, st =>
    let r := findOrCreateObjNode st name addr 0
    let st1 := if r.2.2 = false then addGlobalVarNodes r.1 r.2.1 else r.1
    ingestGlobals rest (ingestPtrs r.2.1 ptrs st1)

/-- The loop over the goroutines, lines 255-259. -/
def ingestGoroutines : List (Nat × Int) → State → State
  | [], st => st
  | (addr, size) :: rest, st =>
    let r := findOrCreateObjNode st ("go" ++ hex addr) addr size
    ingestGoroutines rest (addGoroutines r.1 r.2.1)

/-- Lines 228-259 of `runObjref` from the start state. -/
def ingest (c : Core) : State :=
  ingestGoroutines c.goroutines (ingestGlobals c.globals (ingestObjects c.objects State.init))

/-! ## The forest as a value

Tree building hangs fresh copies below the roots of `rootObjNodes`; a copy is
the child of the one node that allocated it (`Grows.parent`), it is in the
child list of that node once, and it lies after that node in the store
(`Shape`).  What `calcTreeSize` and `printRefPath` walk through is therefore a
tree, and it is read out of the store as a value of the type `Tree`. -/

/-- The nodes reached from a root of `rootObjNodes`, read as a value: a node
with its labelled children in order. -/
inductive Tree where
  | mk (addr : Nat) (name : String) (size : Int) (refs : List (String × Tree))
deriving Repr

/-- `node.addr`. -/
def Tree.addr : Tree → Nat
  | .mk a _ _ _ => a

/-- `node.name`. -/
def Tree.name : Tree → String
  | .mk _ n _ _ => n

/-- `node.size`. -/
def Tree.size : Tree → Int
  | .mk _ _ s _ => s

/-- `node.refs`. -/
def Tree.refs : Tree → List (String × Tree)
  | .mk _ _ _ r => r

/-- Apply a partial function to every element, failing when one fails. -/
def optMap {α β : Type} (f : α → Option β) : List α → Option (List β)
  | [] => some []
  | a :: rest =>
    match f a with
    | none => none
    | some b =>
      match optMap f rest with
      | none => none
      | some bs => some (b :: bs)

/-- Follow the pointers below `p` in the store and return the tree found
there; `none` when a pointer is not in the store or the depth bound is hit. -/
def loadTree : Nat → List ObjNode → Nat → Option Tree
  | 0, _, _ => none
  | fuel + 1, mem, p =>
    match mem[p]? with
    | none => none
    | some n =>
      match optMap (fun r => (loadTree fuel mem r.node).map (fun t => (r.link, t))) n.refs with
      | none => none
      | some ts => some (.mk n.addr n.name n.size ts)

/-- The trees under `rootObjNodes`, in order. -/
def loadForest (fuel : Nat) (st : State) : Option (List Tree) :=
  optMap (loadTree fuel st.mem) st.rootObjNodes

/-! ## Aggregation (objref.go 97-104)

Sizes are `int64`.  An `int64` addition keeps the low 64 bits of the sum, so
every addition of the code is followed by `wrap64`. -/

/-- The `int64` value of an integer: its low 64 bits, read in two's
complement. -/
def wrap64 (x : Int) : Int := (x + 2 ^ 63) % 2 ^ 64 - 2 ^ 63

mutual
/-- `calcTreeSize`: the node with the retained sizes written into its subtree,
and the returned size (`node.size = size + node.size`, line 102). -/
def calcTreeSize : Tree → Tree × Int
  | .mk addr name size refs =>
    let r := calcRefs refs
    (.mk addr name (wrap64 (r.2 + size)) r.1, wrap64 (r.2 + size))
/-- The loop of `calcTreeSize` over `node.refs` (lines 99-101): the children
after the call, and `size`.  The sum is taken from the right; `int64` addition
is associative and commutative, so this is the value the loop leaves in `size`
(`calcRefs_loop`). -/
def calcRefs : List (String × Tree) → List (String × Tree) × Int
  | [] => ([], 0)
  | (link, t) :: rest =>
    let r1 := calcTreeSize t
    let r2 := calcRefs rest
    ((link, r1.1) :: r2.1, wrap64 (r1.2 + r2.2))
end

/-- The loop of `runObjref` over `rootObjNodes` (lines 266-269): the sized
roots and the grand total, an `int64` sum (`calcForest_loop`). -/
def calcForest : List Tree → List Tree × Int
  | [] => ([], 0)
  | t :: rest =>
    let r1 := calcTreeSize t
    let r2 := calcForest rest
    (r1.1 :: r2.1, wrap64 (r1.2 + r2.2))

/-! ## float64 (the comparisons of `printRefPath`)

A float64 value is kept as the rational it denotes, or an infinity, or NaN.
Conversions and quotients round to the nearest binary64 value, ties to even,
with gradual underflow and overflow to an infinity.  The sign of zero is not
kept: it decides nothing in a comparison, and the only zero divisor that
`printRefPath` can form is `float64(total)` for `total = 0`, which is `+0`. -/

/-- A float64 value. -/
inductive F64 where
  | fin (q : ℚ)
  | posInf
  | negInf
  | nan
deriving DecidableEq

/-- Round to the nearest integer, ties to the even one. -/
def roundHalfEven (x : ℚ) : ℤ :=
  if x - ⌊x⌋ < 1 / 2 then ⌊x⌋
  else if 1 / 2 < x - ⌊x⌋ then ⌊x⌋ + 1
  else if ⌊x⌋ % 2 = 0 then ⌊x⌋ else ⌊x⌋ + 1

/-- The exponent of the last place of the binary64 values around `x`: 53
significant bits, least exponent -1022. -/
def f64Exp (x : ℚ) : ℤ :=
  max (Int.log 2 |x|) (-1022) - 52

/-- The multiple of `2 ^ f64Exp x` nearest to `x`, ties to even. -/
def f64Nearest (x : ℚ) : ℚ :=
  (roundHalfEven (x / 2 ^ f64Exp x) : ℚ) * 2 ^ f64Exp x

/-- The binary64 value nearest to the rational `x`; an infinity from 2^1024
on. -/
def f64Round (x : ℚ) : F64 :=
  if 2 ^ 1024 ≤ f64Nearest x then .posInf
  else if f64Nearest x ≤ -2 ^ 1024 then .negInf
  else .fin (f64Nearest x)

/-- The conversion `float64(i)` of an integer. -/
def F64.ofInt (i : Int) : F64 :=
  f64Round i

/-- The quotient `a / b` of two float64 values. -/
def F64.div : F64 → F64 → F64
  | .nan, _ => .nan
  | _, .nan => .nan
  | .fin a, .fin b =>
    if b = 0 then (if a = 0 then .nan else if 0 < a then .posInf else .negInf)
    else f64Round (a / b)
  | .fin _, .posInf => .fin 0
  | .fin _, .negInf => .fin 0
  | .posInf, .fin b => if 0 ≤ b then .posInf else .negInf
  | .negInf, .fin b => if 0 ≤ b then .negInf else .posInf
  | .posInf, .posInf => .nan
  | .posInf, .negInf => .nan
  | .negInf, .posInf => .nan
  | .negInf, .negInf => .nan

/-- The comparison `a < b` of two float64 values; false when one is NaN. -/
def F64.lt : F64 → F64 → Bool
  | .fin a, .fin b => decide (a < b)
  | .fin _, .posInf => true
  | .negInf, .fin _ => true
  | .negInf, .posInf => true
  | _, _ => false

/-- The comparison `a <= b` of two float64 values; false when one is NaN. -/
def F64.le : F64 → F64 → Bool
  | .fin a, .fin b => decide (a ≤ b)
  | .fin _, .posInf => true
  | .negInf, .fin _ => true
  | .negInf, .posInf => true
  | .negInf, .negInf => true
  | .posInf, .posInf => true
  | _, _ => false

/-- The test of lines 311 and 327:
`float64(x)/float64(total) < minWidth/100`. -/
def belowMinWidth (x total : Int) (minWidth : F64) : Bool :=
  F64.lt (F64.div (F64.ofInt x) (F64.ofInt total)) (F64.div minWidth (.fin 100))

/-! ## Rendering (objref.go 288-334) -/

/-- The mapping function of `strings.Map` in `genRefPath`; `isPrint` stands for
`unicode.IsPrint`. -/
def sanitizeRune (isPrint : Char → Bool) (r : Char) : Option Char :=
  if r = '+' ∨ r = '?' then some '.'
  else if isPrint r then some r
  else none

/-- `strings.Map` with the function above: dropped runes leave no trace. -/
def sanitize (isPrint : Char → Bool) (value : String) : String :=
  String.mk (value.toList.filterMap (sanitizeRune isPrint))

/-- `genRefPath`: every segment sanitised, written into the result slice from
the back, joined with newlines. -/
def genRefPath (isPrint : Char → Bool) (slice : List String) : String :=
  "\n".intercalate ((slice.map (sanitize isPrint)).reverse)

/-- The label appended at lines 315-319. -/
def nodeLabel (printAddr : Bool) (name : String) (addr : Nat) : String :=
  if printAddr then name ++ " 0x" ++ hex addr else name

/-- The record written at line 331: `"%v\n\t%d\n"`. -/
def record (isPrint : Char → Bool) (path : List String) (leftover : Int) : String :=
  genRefPath isPrint path ++ "\n\t" ++ toString leftover ++ "\n"

mutual
/-- `printRefPath`: the records written to `w`, in order, and the returned
printed size. -/
def printRefPath (isPrint : Char → Bool) (path : List String) (total : Int)
    (minWidth : F64) (printAddr : Bool) : Tree → List String × Int
  | .mk addr name size refs =>
    if belowMinWidth size total minWidth then ([], 0)
    else
      let r := printRefs isPrint (path ++ [nodeLabel printAddr name addr]) total minWidth
        printAddr refs
      if belowMinWidth (size - r.2) total minWidth then (r.1, r.2)
      else (r.1 ++ [record isPrint (path ++ [nodeLabel printAddr name addr]) (size - r.2)], size)
/-- The loop of `printRefPath` over `node.refs` (lines 320-326). -/
def printRefs (isPrint : Char → Bool) (path : List String) (total : Int)
    (minWidth : F64) (printAddr : Bool) : List (String × Tree) → List String × Int
  | [] => ([], 0)
  | (link, t) :: rest =>
    let r1 := printRefPath isPrint (if link ≠ "" then path ++ [link] else path) total
      minWidth printAddr t
    let r2 := printRefs isPrint path total minWidth printAddr rest
    (r1.1 ++ r2.1, r1.2 + r2.2)
end

/-- The loop of `runObjref` over `rootObjNodes` (lines 278-282), with the
empty path. -/
def printForest (isPrint : Char → Bool) (total : Int) (minWidth : F64) (printAddr : Bool) :
    List Tree → List String × Int
  | [] => ([], 0)
  | t :: rest =>
    let r1 := printRefPath isPrint [] total minWidth printAddr t
    let r2 := printForest isPrint total minWidth printAddr rest
    (r1.1 ++ r2.1, r1.2 + r2.2)

/-- What a run of `runObjref` produces: the grand total, the records written
to the output file and the printed size. -/
structure Report where
  total : Int
  records : List String
  printedSize : Int
deriving DecidableEq, Repr

/-- `runObjref` after the flags are read: ingestion, the two tree-building
passes, aggregation and the report.  `fuel` bounds the depth of the forest. -/
def runObjref (isPrint : Char → Bool) (fuel : Nat) (c : Core) (minWidth : F64)
    (printAddr : Bool) : Except Fault Report :=
  match buildForest fuel (ingest c) with
  | .error e => .error e
  | .ok st =>
    match loadForest fuel st with
    | none => .error .outOfFuel
    | some forest =>
      let sized := calcForest forest
      let out := printForest isPrint sized.2 minWidth printAddr sized.1
      .ok { total := sized.2, records := out.1, printedSize := out.2 }

/-! ## Notions used to state the properties -/

mutual
/-- The sum of the sizes stored in all nodes of a tree. -/
def Tree.sumSizes : Tree → Int
  | .mk _ _ size refs => size + Tree.sumSizesRefs refs
/-- The sum of the sizes stored in all nodes of the trees of a child list. -/
def Tree.sumSizesRefs : List (String × Tree) → Int
  | [] => 0
  | (_, t) :: rest => Tree.sumSizes t + Tree.sumSizesRefs rest
end

mutual
/-- The tree with every stored size replaced by the retained size of its
node: the sum of the sizes of the whole subtree. -/
def Tree.withRetained : Tree → Tree
  | .mk addr name size refs =>
    .mk addr name (size + Tree.sumSizesRefs refs) (Tree.withRetainedRefs refs)
/-- The same for a child list. -/
def Tree.withRetainedRefs : List (String × Tree) → List (String × Tree)
  | [] => []
  | (link, t) :: rest => (link, Tree.withRetained t) :: Tree.withRetainedRefs rest
end

/-- The sum of the sizes stored in the children of a node. -/
def childSizes : List (String × Tree) → Int
  | [] => 0
  | (_, t) :: rest => t.size + childSizes rest

mutual
/-- A sized tree with non-negative own sizes: no stored size is negative and
every node stores at least the sum of what its children store. -/
def wellSized : Tree → Bool
  | .mk _ _ size refs => decide (0 ≤ size) && decide (childSizes refs ≤ size) && wellSizedRefs refs
/-- The same for a child list. -/
def wellSizedRefs : List (String × Tree) → Bool
  | [] => true
  | (_, t) :: rest => wellSized t && wellSizedRefs rest
end

mutual
/-- No size stored in the tree is negative. -/
def nonnegSizes : Tree → Bool
  | .mk _ _ size refs => decide (0 ≤ size) && nonnegSizesRefs refs
/-- The same for a child list. -/
def nonnegSizesRefs : List (String × Tree) → Bool
  | [] => true
  | (_, t) :: rest => nonnegSizes t && nonnegSizesRefs rest
end

/-- `PathTo printAddr t segs target`: `target` is a node of the tree `t`, and
`segs` lists, from `t` down to `target`, the label of every node on the way
and, before each child, the edge label when it is not empty. -/
inductive PathTo (printAddr : Bool) : Tree → List String → Tree → Prop
  | here (t : Tree) : PathTo printAddr t [nodeLabel printAddr t.name t.addr] t
  | down (addr : Nat) (name : String) (size : Int) (refs : List (String × Tree))
      (link : String) (child : Tree) (segs : List String) (target : Tree) :
      (link, child) ∈ refs → PathTo printAddr child segs target →
      PathTo printAddr (.mk addr name size refs)
        (nodeLabel printAddr name addr :: ((if link ≠ "" then [link] else []) ++ segs)) target

/-- `unicode.IsPrint` on the ASCII range: the characters from space to tilde. -/
def isPrintAscii (c : Char) : Bool :=
  decide (32 ≤ c.toNat ∧ c.toNat ≤ 126)

/-! ### The ingested graph, by address -/

/-- The edges of the ingested graph that leave the address `a`: the edge label
and the address of the target, in the order of the child list of the canonical
node of `a`. -/
def edgesOf (st : State) (a : Nat) : List (String × Nat) :=
  match st.allNodes.lookup a with
  | none => []
  | some c =>
    match st.mem[c]? with
    | none => []
    | some cn => cn.refs.filterMap (fun r => (st.mem[r.node]?).map (fun t => (r.link, t.addr)))

/-- The own size registered for the address `a`. -/
def ownSize (st : State) (a : Nat) : Int :=
  match st.allNodes.lookup a with
  | none => 0
  | some c =>
    match st.mem[c]? with
    | none => 0
    | some cn => cn.size

/-- The addresses of a list of nodes. -/
def addrsOf (st : State) (nodes : List Nat) : List Nat :=
  nodes.filterMap (fun p => (st.mem[p]?).map (fun n => n.addr))

/-- The addresses reachable from the roots in at most `n` edges of the
ingested graph, each listed once. -/
def reachableAddrs (st : State) : Nat → List Nat
  | 0 => (addrsOf st st.rootObjNodes).dedup
  | n + 1 =>
    (reachableAddrs st n ++
      (reachableAddrs st n).flatMap (fun a => (edgesOf st a).map (fun e => e.2))).dedup

/-- The sum of the own sizes of the addresses reachable from the roots in at
most `n` edges, each address counted once. -/
def reachableOwnSizes (st : State) (n : Nat) : Int :=
  ((reachableAddrs st n).map (ownSize st)).sum

/-! ## Concrete inputs -/

/-- Scenario A of the specification as provider data: globals R1 and R2, in
that order, R1 -> A -> C and R2 -> B -> C. -/
def scenarioA : Core :=
  { objects :=
      [(⟨"A", 10, 10⟩, [("c", ⟨"C", 30, 100⟩)]),
       (⟨"B", 20, 5⟩, [("c", ⟨"C", 30, 100⟩)]),
       (⟨"C", 30, 100⟩, [])],
    globals := [("R1", 1, [("a", ⟨"A", 10, 10⟩)]), ("R2", 2, [("b", ⟨"B", 20, 5⟩)])],
    goroutines := [] }

/-- The forest of scenario A before aggregation. -/
def forestA : List Tree :=
  [.mk 1 "R1" 0 [("a", .mk 10 "A" 10 [("c", .mk 30 "C" 100 [])])],
   .mk 2 "R2" 0 [("b", .mk 20 "B" 5 [])]]

/-- Scenario B: one root of own size 0 with three leaves of 900, 90 and 10
bytes, before aggregation. -/
def treeB : Tree :=
  .mk 1 "R" 0 [("a", .mk 10 "x" 900 []), ("b", .mk 20 "y" 90 []), ("c", .mk 30 "z" 10 [])]

/-- Scenario B after aggregation. -/
def sizedB : Tree :=
  .mk 1 "R" 1000 [("a", .mk 10 "x" 900 []), ("b", .mk 20 "y" 90 []), ("c", .mk 30 "z" 10 [])]

/-- A root of own size 1 with one leaf of 3 bytes under the field `f`, after
aggregation: retained sizes 4 and 3. -/
def sizedGrow : Tree :=
  .mk 1 "R" 4 [("f", .mk 2 "A" 3 [])]

/-- One goroutine whose object points to a 10-byte object `A`; no globals. -/
def goroutineCore : Core :=
  { objects := [(⟨"G", 7, 8⟩, [("x", ⟨"A", 10, 10⟩)]), (⟨"A", 10, 10⟩, [])],
    globals := [],
    goroutines := [(7, 8)] }

/-- A global `R` that points to the object at the address of a goroutine,
which points to a 10-byte object `X`. -/
def sharedCore : Core :=
  { objects := [(⟨"G", 7, 8⟩, [("x", ⟨"X", 10, 10⟩)]), (⟨"X", 10, 10⟩, [])],
    globals := [("R", 1, [("g", ⟨"G", 7, 8⟩)])],
    goroutines := [(7, 8)] }

/-- The state a run returned, or the start state when it stopped with a fault. -/
def okState (r : Except Fault State) : State :=
  match r with
  | .ok s => s
  | .error _ => State.init

/-- A graph with a cycle and a self-reference: the global `R` points to `A`,
`A` points to `B` and to itself, and `B` points back to `A`. -/
def cycleCore : Core :=
  { objects :=
      [(⟨"A", 10, 4⟩, [("b", ⟨"B", 20, 2⟩), ("self", ⟨"A", 10, 4⟩)]),
       (⟨"B", 20, 2⟩, [("a", ⟨"A", 10, 4⟩)])],
    globals := [("R", 1, [("a", ⟨"A", 10, 4⟩)])],
    goroutines := [] }

/-- The address of the node behind a pointer. -/
def addrAt (st : State) (p : Nat) : Option Nat :=
  (st.mem[p]?).map (fun n => n.addr)

/-- Every pointer held in `allNodes` or in a child list is in the store (no
pointer is nil or dangling). -/
structure Closed (st : State) : Prop where
  canon : ∀ (a c : Nat), st.allNodes.lookup a = some c → c < st.mem.length
  refs : ∀ (p : Nat) (n : ObjNode) (r : ObjRef), st.mem[p]? = some n → r ∈ n.refs →
    r.node < st.mem.length

/-- The states that the ingestion calls produce from the start state:
registrations, edges between registered nodes, and roots made from registered
nodes. -/
inductive Ingested : State → Prop
  | init : Ingested State.init
  | register (st : State) (name : String) (addr : Nat) (size : Int) :
      Ingested st → Ingested (findOrCreateObjNode st name addr size).1
  | edge (st : State) (a b node cNode : Nat) (link : String) :
      Ingested st → st.allNodes.lookup a = some node → st.allNodes.lookup b = some cNode →
      Ingested (appendChild st node cNode link)
  | globalVar (st : State) (a node : Nat) :
      Ingested st → st.allNodes.lookup a = some node → Ingested (addGlobalVarNodes st node)
  | goroutine (st : State) (a node : Nat) :
      Ingested st → st.allNodes.lookup a = some node → Ingested (addGoroutines st node)

/-- `Layer st0 nodes d s f`: the call of `genUniqueRefTree` at recursion depth
`d`, counted from the call on the state `st0` and the frontier `nodes`, is made
on the state `s` and the frontier `f`. -/
inductive Layer (st0 : State) (nodes : List Nat) : Nat → State → List Nat → Prop
  | zero : Layer st0 nodes 0 st0 nodes
  | succ {d : Nat} {s s1 : State} {f f1 : List Nat} :
      Layer st0 nodes d s f → expandNodes f s [] = .ok (s1, f1) → f1 ≠ [] →
      Layer st0 nodes (d + 1) s1 f1

/-- `PathLen st avoid k a b`: the ingested graph of `st` has a path of `k`
edges from the address `a` to the address `b` on which no address after `a`
is in `avoid`. -/
inductive PathLen (st : State) (avoid : List Nat) : Nat → Nat → Nat → Prop
  | zero (a : Nat) : PathLen st avoid 0 a a
  | snoc {k a m b : Nat} {link : String} :
      PathLen st avoid k a m → (link, b) ∈ edgesOf st m → b ∉ avoid →
      PathLen st avoid (k + 1) a b

/-- The address `b` is reached in `k` edges from the address of one of the
nodes `nodes`. -/
def ReachIn (st : State) (avoid : List Nat) (nodes : List Nat) (k b : Nat) : Prop :=
  ∃ q ∈ nodes, ∃ a, addrAt st q = some a ∧ PathLen st avoid k a b

/-- The first edge to the address `b` in an edge list carries the label `link`. -/
def FirstEdge (edges : List (String × Nat)) (link : String) (b : Nat) : Prop :=
  ∃ pre post, edges = pre ++ (link, b) :: post ∧ ∀ e ∈ pre, e.2 ≠ b

/-- `InTree st q p`: the node `p` is `q` or is reached from `q` through child
lists. -/
inductive InTree (st : State) : Nat → Nat → Prop
  | self (q : Nat) : InTree st q q
  | child {q p : Nat} {n : ObjNode} {r : ObjRef} :
      InTree st q p → st.mem[p]? = some n → r ∈ n.refs → InTree st q r.node

/-- The node `p` belongs to the forest rooted at `rootObjNodes`. -/
def InForest (st : State) (p : Nat) : Prop :=
  ∃ q ∈ st.rootObjNodes, InTree st q p

/-- `Grows s s1`: what tree building changes between two states.  The maps and
root lists stay, the visited set and the store grow; a node of `s` keeps its
address, name and size and gets children appended that are new nodes; a new
node has an address that `s` had not visited, children that are new nodes, and
the address of a node of `s`; no two new nodes share an address; and when
the store of `s` is closed, a new node is the child of one node only. -/
structure Grows (s s1 : State) : Prop where
  allNodes : s1.allNodes = s.allNodes
  roots : s1.rootObjNodes = s.rootObjNodes
  globals : s1.globalVarNodes = s.globalVarNodes
  goroutines : s1.goroutineNodes = s.goroutineNodes
  visited : ∀ (a : Nat), a ∈ s.visitedNodes → a ∈ s1.visitedNodes
  len : s.mem.length ≤ s1.mem.length
  old : ∀ (p : Nat) (n : ObjNode), s.mem[p]? = some n →
    ∃ n1, s1.mem[p]? = some n1 ∧ n1.addr = n.addr ∧ n1.name = n.name ∧ n1.size = n.size ∧
      ∃ ex, n1.refs = n.refs ++ ex ∧
        ∀ (r : ObjRef), r ∈ ex → s.mem.length ≤ r.node ∧ r.node < s1.mem.length
  fresh : ∀ (p : Nat) (n1 : ObjNode), s.mem.length ≤ p → s1.mem[p]? = some n1 →
    n1.addr ∈ s1.visitedNodes ∧ n1.addr ∉ s.visitedNodes ∧
      ∀ (r : ObjRef), r ∈ n1.refs → s.mem.length ≤ r.node ∧ r.node < s1.mem.length
  inj : ∀ (p q : Nat) (n m : ObjNode), s.mem.length ≤ p → s.mem.length ≤ q →
    s1.mem[p]? = some n → s1.mem[q]? = some m → n.addr = m.addr → p = q
  copy : ∀ (p : Nat) (n1 : ObjNode), s.mem.length ≤ p → s1.mem[p]? = some n1 →
    ∃ (q : Nat) (n : ObjNode), s.mem[q]? = some n ∧ n.addr = n1.addr
  parent : Closed s → ∀ (p q1 q2 : Nat) (n1 n2 : ObjNode) (r1 r2 : ObjRef),
    s.mem.length ≤ p → s1.mem[q1]? = some n1 → r1 ∈ n1.refs → r1.node = p →
    s1.mem[q2]? = some n2 → r2 ∈ n2.refs → r2.node = p → q1 = q2

/-- The state after lines 53-62: the copy of `target` is allocated and
appended to the children of the frontier node, whose current value is
`parent`, and the address is marked visited. -/
def attachOne (st : State) (node : Nat) (parent target : ObjNode) (link : String) : State :=
  { st with
    mem := (st.mem ++ [nodeCopy target]).set node
      { parent with refs := parent.refs ++ [{ link := link, node := st.mem.length }] }
    visitedNodes := target.addr :: st.visitedNodes }

/-- `TreeDepth s base nodes d p`: the node `p` is reached from one of the roots
`nodes` through `d` child edges, each to a node that the pass allocated (a
pointer from `base` on). -/
inductive TreeDepth (s : State) (base : Nat) (nodes : List Nat) : Nat → Nat → Prop
  | root {q : Nat} : q ∈ nodes → TreeDepth s base nodes 0 q
  | child {d q p : Nat} {nq : ObjNode} {link : String} :
      TreeDepth s base nodes d q → s.mem[q]? = some nq →
      ({ link := link, node := p } : ObjRef) ∈ nq.refs → base ≤ p →
      TreeDepth s base nodes (d + 1) p

/-- `AttachedAt st0 nodes s p`: in the pass started on the state `st0` with the
frontier `nodes`, the node `p` of the state `s` was allocated while the
frontier `f1` of recursion depth `d` was expanded.  It is in the next frontier
`f2` and sits at the depth `d + 1` of the forest; it is a child, under the
label `link`, of the frontier node `q`; its address `b` is reached from a root
in `d + 1` edges and not in fewer, on paths that avoid the addresses visited
before the pass; no frontier node before `q` has an edge to `b`; and `link` is
the label of the first edge from the address of `q` to `b`. -/
def AttachedAt (st0 : State) (nodes : List Nat) (s : State) (p : Nat) : Prop :=
  ∃ (d : Nat) (s1 s2 : State) (f1 f2 pre post : List Nat) (q b aq : Nat) (link : String)
    (nq : ObjNode),
    Layer st0 nodes d s1 f1 ∧ expandNodes f1 s1 [] = .ok (s2, f2) ∧ p ∈ f2 ∧
    TreeDepth s st0.mem.length nodes (d + 1) p ∧
    f1 = pre ++ q :: post ∧
    s.mem[q]? = some nq ∧ ({ link := link, node := p } : ObjRef) ∈ nq.refs ∧
    addrAt s p = some b ∧ addrAt s1 q = some aq ∧
    ReachIn st0 st0.visitedNodes nodes (d + 1) b ∧
    (∀ k, ReachIn st0 st0.visitedNodes nodes k b → d + 1 ≤ k) ∧
    (∀ q1 ∈ pre, ∀ a1, addrAt s1 q1 = some a1 → ∀ e ∈ edgesOf st0 a1, e.2 ≠ b) ∧
    FirstEdge (edgesOf st0 aq) link b

/-- What holds when `genUniqueRefTree` is called at recursion depth `d` on the
state `s` and the frontier `f`, in the pass started on `st0` and `nodes`. -/
structure LayerInv (st0 : State) (nodes : List Nat) (d : Nat) (s : State) (f : List Nat) :
    Prop where
  grows : Grows st0 s
  valid : ∀ q ∈ f, q < s.mem.length
  reach : ∀ p ∈ f, ∃ b, addrAt s p = some b ∧ ReachIn st0 st0.visitedNodes nodes d b
  depth : ∀ p ∈ f, TreeDepth s st0.mem.length nodes d p
  near : ∀ k, k ≤ d → ∀ b, ReachIn st0 st0.visitedNodes nodes k b → b ∈ s.visitedNodes
  expanded : ∀ a, ((∃ q ∈ nodes, addrAt st0 q = some a) ∨
      (a ∈ s.visitedNodes ∧ a ∉ st0.visitedNodes)) →
    (∃ q ∈ f, addrAt s q = some a) ∨ (∀ e ∈ edgesOf st0 a, e.2 ∈ s.visitedNodes)
  node : ∀ a ∈ s.visitedNodes, a ∉ st0.visitedNodes →
    ∃ c, st0.mem.length ≤ c ∧ addrAt s c = some a
  attached : ∀ p, st0.mem.length ≤ p → p < s.mem.length → AttachedAt st0 nodes s p
  tree : ∀ p, (p ∈ f ∨ (st0.mem.length ≤ p ∧ p < s.mem.length)) → ∃ q ∈ nodes, InTree s q p

/-- What holds of every ingested state: the store is closed; every root of
`rootObjNodes` is a copy with an empty child list and a visited address, and
is not a canonical node; the global-variable work list holds roots; and every
visited address is the address of a root. -/
structure IngestWF (st : State) : Prop where
  closed : Closed st
  roots : ∀ p ∈ st.rootObjNodes, ∃ n, st.mem[p]? = some n ∧ n.refs = [] ∧
    n.addr ∈ st.visitedNodes ∧ ∀ a, st.allNodes.lookup a ≠ some p
  globals : ∀ p ∈ st.globalVarNodes, p ∈ st.rootObjNodes
  visited : ∀ a ∈ st.visitedNodes, ∃ p ∈ st.rootObjNodes, addrAt st p = some a

/-- What the passes need besides a closed store: every node has an address
that is registered in `allNodes` and that lies in the address list `u`. -/
structure PassSafe (u : List Nat) (s : State) : Prop where
  closed : Closed s
  registered : ∀ (p : Nat) (n : ObjNode), s.mem[p]? = some n →
    ∃ c, s.allNodes.lookup n.addr = some c
  addrs : ∀ (p : Nat) (n : ObjNode), s.mem[p]? = some n → n.addr ∈ u

/-- The number of addresses of `u` that are not visited yet. -/
def unvisitedCount (u : List Nat) (s : State) : Nat :=
  (u.toFinset.filter (fun a => a ∉ s.visitedNodes)).card

/-- The addresses of all nodes of the store. -/
def storeAddrs (s : State) : List Nat :=
  s.mem.map (fun n => n.addr)

/-- More of what holds of every ingested state: every node has a registered
address, and every node of the goroutine work list is in the store with a
visited address. -/
structure IngestReg (st : State) : Prop where
  registered : ∀ (p : Nat) (n : ObjNode), st.mem[p]? = some n →
    ∃ c, st.allNodes.lookup n.addr = some c
  goroutines : ∀ p ∈ st.goroutineNodes, ∃ n, st.mem[p]? = some n ∧ n.addr ∈ st.visitedNodes

/-! ### Notions about registration -/

/-- A sequence of `findOrCreateObjNode` calls, each with its name, address and
size, made one after the other. -/
def registerAll : List (String × Nat × Int) → State → State
  | [], st => st
  | (name, addr, size) :: rest, st =>
    registerAll rest (findOrCreateObjNode st name addr size).1

/-- The canonical node of every registered address is in the store and carries
that address. -/
def Canon (st : State) : Prop :=
  ∀ (a p : Nat), st.allNodes.lookup a = some p → ∃ n, st.mem[p]? = some n ∧ n.addr = a

/-- `Registered hist st`: the node map of `st` is what the calls `hist` leave
behind.  Its keys are the addresses of the calls, each once; the node of an
address carries the address and the size of the first call for it; and the
store holds the nodes of the map and no others. -/
structure Registered (hist : List (String × Nat × Int)) (st : State) : Prop where
  keys : ∀ (a : Nat), a ∈ st.allNodes.map Prod.fst ↔ a ∈ hist.map (fun c => c.2.1)
  nodup : (st.allNodes.map Prod.fst).Nodup
  node : ∀ (a p : Nat), st.allNodes.lookup a = some p →
    ∃ n c, st.mem[p]? = some n ∧ n.addr = a ∧
      hist.find? (fun c => decide (c.2.1 = a)) = some c ∧ n.size = c.2.2
  count : st.mem.length = st.allNodes.length

/-! ### Notions about the forest as a value -/

mutual
/-- The addresses of the nodes of a tree in the order in which `calcTreeSize`
and `printRefPath` come to them, each as often as the tree holds a node with
it. -/
def Tree.addrs : Tree → List Nat
  | .mk addr _ _ refs => addr :: Tree.addrsRefs refs
/-- The addresses of the nodes below a child list. -/
def Tree.addrsRefs : List (String × Tree) → List Nat
  | [] => []
  | (_, t) :: rest => Tree.addrs t ++ Tree.addrsRefs rest
end

/-- The addresses of the nodes of a forest, each as often as the forest holds a
node with it. -/
def forestAddrs : List Tree → List Nat
  | [] => []
  | t :: rest => t.addrs ++ forestAddrs rest

/-- `Shape base s`: how the nodes that tree building allocated (the pointers
from `base` on) hang in the store.  A child list points to an allocated node
at most once, and an allocated child was allocated after its parent. -/
structure Shape (base : Nat) (s : State) : Prop where
  le : base ≤ s.mem.length
  order : ∀ (p : Nat) (n : ObjNode) (r : ObjRef), s.mem[p]? = some n → r ∈ n.refs →
    base ≤ r.node → p < r.node ∧ r.node < s.mem.length
  nodup : ∀ (p : Nat) (n : ObjNode), s.mem[p]? = some n →
    ((n.refs.map (fun r => r.node)).filter (fun c => decide (base ≤ c))).Nodup

/-- What holds of the forest below the roots `R` once tree building has
returned; `base` is the length of the store before tree building. -/
structure ForestFacts (base : Nat) (R : List Nat) (s : State) : Prop where
  shape : Shape base s
  rootLt : ∀ q ∈ R, q < base
  rootsNodup : R.Nodup
  kids : ∀ (p : Nat) (n : ObjNode), (p ∈ R ∨ base ≤ p) → s.mem[p]? = some n →
    ∀ r ∈ n.refs, base ≤ r.node
  parent : ∀ (p q1 q2 : Nat) (n1 n2 : ObjNode) (r1 r2 : ObjRef), base ≤ p →
    s.mem[q1]? = some n1 → r1 ∈ n1.refs → r1.node = p →
    s.mem[q2]? = some n2 → r2 ∈ n2.refs → r2.node = p → q1 = q2
  addrInj : ∀ (x y a : Nat), (x ∈ R ∨ base ≤ x) → (y ∈ R ∨ base ≤ y) →
    addrAt s x = some a → addrAt s y = some a → x = y

/-! ## Byte sizes (internal/util/util.go) -/

/-- `type ByteSize float64`. -/
abbrev ByteSize := F64

/-- The constant of the unit number `k` of the ladder, `1 << (10 * k)`: `KB` for
1 up to `YB` for 8.  As a float64 it is exact. -/
def unitValue (k : Nat) : ByteSize :=
  .fin ((2 : ℚ) ^ (10 * k))

/-- `KB ByteSize = 1 << (10 * iota)` with `iota = 1`. -/
def KB : ByteSize := unitValue 1
/-- `MB`. -/
def MB : ByteSize := unitValue 2
/-- `GB`. -/
def GB : ByteSize := unitValue 3
/-- `TB`. -/
def TB : ByteSize := unitValue 4
/-- `PB`. -/
def PB : ByteSize := unitValue 5
/-- `EB`. -/
def EB : ByteSize := unitValue 6
/-- `ZB`. -/
def ZB : ByteSize := unitValue 7
/-- `YB`. -/
def YB : ByteSize := unitValue 8

/-- The product `a * b` of two float64 values. -/
def F64.mul : F64 → F64 → F64
  | .nan, _ => .nan
  | _, .nan => .nan
  | .fin a, .fin b => f64Round (a * b)
  | .fin a, .posInf => if a = 0 then .nan else if 0 < a then .posInf else .negInf
  | .fin a, .negInf => if a = 0 then .nan else if 0 < a then .negInf else .posInf
  | .posInf, .fin b => if b = 0 then .nan else if 0 < b then .posInf else .negInf
  | .negInf, .fin b => if b = 0 then .nan else if 0 < b then .negInf else .posInf
  | .posInf, .posInf => .posInf
  | .posInf, .negInf => .negInf
  | .negInf, .posInf => .negInf
  | .negInf, .negInf => .posInf

/-- The two decimal digits of a number below 100. -/
def twoDigits (n : Nat) : List Char :=
  [Nat.digitChar (n / 10), Nat.digitChar (n % 10)]

/-- The verb `%.2f` of `fmt.Sprintf`: the value rounded to two decimals, ties
to even, with all digits of the integer part. -/
def fmtF2 : F64 → String
  | .nan => "NaN"
  | .posInf => "+Inf"
  | .negInf => "-Inf"
  | .fin q =>
    (if q < 0 then "-" else "") ++
      String.mk (Nat.toDigits 10 ((roundHalfEven (|q| * 100)).toNat / 100) ++ '.' ::
        twoDigits ((roundHalfEven (|q| * 100)).toNat % 100))

/-- `func (b ByteSize) String() string`. -/
def ByteSize.String (b : ByteSize) : String :=
  if F64.le YB b then fmtF2 (F64.div b YB) ++ "YB"
  else if F64.le ZB b then fmtF2 (F64.div b ZB) ++ "ZB"
  else if F64.le EB b then fmtF2 (F64.div b EB) ++ "EB"
  else if F64.le PB b then fmtF2 (F64.div b PB) ++ "PB"
  else if F64.le TB b then fmtF2 (F64.div b TB) ++ "TB"
  else if F64.le GB b then fmtF2 (F64.div b GB) ++ "GB"
  else if F64.le MB b then fmtF2 (F64.div b MB) ++ "MB"
  else if F64.le KB b then fmtF2 (F64.div b KB) ++ "KB"
  else fmtF2 b ++ "B"

/-- `FormatBytes`. -/
def FormatBytes (bytes : Int) : String :=
  ByteSize.String (F64.ofInt bytes)

/-- `unicode.IsSpace`: the characters with the property White_Space. -/
def isSpace (c : Char) : Bool :=
  (9 ≤ c.toNat && c.toNat ≤ 13) || c.toNat = 0x20 || c.toNat = 0x85 || c.toNat = 0xA0 ||
    c.toNat = 0x1680 || (0x2000 ≤ c.toNat && c.toNat ≤ 0x200A) || c.toNat = 0x2028 ||
    c.toNat = 0x2029 || c.toNat = 0x202F || c.toNat = 0x205F || c.toNat = 0x3000

/-- `strings.TrimSpace` on the characters of a string. -/
def trimSpace (s : List Char) : List Char :=
  ((s.dropWhile isSpace).reverse.dropWhile isSpace).reverse

/-- The function literal of line 55: `r >= '0' && r <= '9'`. -/
def isDigit (r : Char) : Bool :=
  decide ('0' ≤ r) && decide (r ≤ '9')

/-- The scan of `strings.LastIndexFunc` from position `i` on, `last` being the
last position found so far. -/
def lastIndexFrom (f : Char → Bool) : List Char → Int → Int → Int
  | [], _, last => last
  | c :: rest, i, last => lastIndexFrom f rest (i + 1) (if f c then i else last)

/-- `strings.LastIndexFunc`: the position of the last character that satisfies
`f`, or -1.  Positions count characters; line 61 cuts right after an ASCII
digit, where a position in characters and the position in bytes give the same
two parts. -/
def lastIndexFunc (f : Char → Bool) (s : List Char) : Int :=
  lastIndexFrom f s 0 (-1)

/-- The slice expression `s[:hi]`; `none` stands for the run-time panic of an
index out of range. -/
def sliceTo (s : List Char) (hi : Int) : Option (List Char) :=
  if 0 ≤ hi ∧ hi ≤ s.length then some (s.take hi.toNat) else none

/-- The slice expression `s[lo:]`; `none` stands for the run-time panic. -/
def sliceFrom (s : List Char) (lo : Int) : Option (List Char) :=
  if 0 ≤ lo ∧ lo ≤ s.length then some (s.drop lo.toNat) else none

/-- What `ParseByteSize` takes from the Go library and from the platform:
`unicode.ToUpper`, by which `strings.ToUpper` maps every character;
`strconv.ParseFloat(s, 64)`, `none` standing for a returned error; and the
value that the conversion `int64(x)` gives for an `x` that `int64` cannot
represent, which the language leaves to the implementation. -/
structure GoLib where
  toUpper : Char → Char
  parseFloat : String → Option F64
  int64OutOfRange : F64 → Int

/-- A rational truncated toward zero. -/
def truncate (q : ℚ) : Int :=
  if 0 ≤ q then ⌊q⌋ else ⌈q⌉

/-- The conversion `int64(x)` of a float64. -/
def toInt64 (lib : GoLib) : F64 → Int
  | .fin q =>
    if -(2 : Int) ^ 63 ≤ truncate q ∧ truncate q < (2 : Int) ^ 63 then truncate q
    else lib.int64OutOfRange (.fin q)
  | x => lib.int64OutOfRange x

/-- What a call of `ParseByteSize` does: it returns a byte count with a nil
error, or an error with its message, or it stops with a run-time panic. -/
inductive ParseResult where
  | ok (bytes : Int)
  | error (msg : String)
  | panics
deriving DecidableEq, Repr

/-- `ParseByteSize`. -/
def ParseByteSize (lib : GoLib) (s : String) : ParseResult :=
  let s1 := trimSpace s.toList
  let lastDigitIndex := lastIndexFunc isDigit s1
  if lastDigitIndex = -1 then .error ("invalid size: " ++ String.mk s1)
  else
    match sliceTo s1 (lastDigitIndex + 1), sliceFrom s1 (lastDigitIndex + 1) with
    | some numberPart, some unitText =>
      let unitPart := unitText.map lib.toUpper
      match lib.parseFloat (String.mk numberPart) with
      | none => .error ("invalid number: " ++ String.mk numberPart)
      | some number =>
        if unitPart = "B".toList then .ok (toInt64 lib number)
        else if unitPart = "KB".toList then .ok (toInt64 lib (F64.mul number KB))
        else if unitPart = "MB".toList then .ok (toInt64 lib (F64.mul number MB))
        else if unitPart = "GB".toList then .ok (toInt64 lib (F64.mul number GB))
        else if unitPart = "TB".toList then .ok (toInt64 lib (F64.mul number TB))
        else if unitPart = "PB".toList then .ok (toInt64 lib (F64.mul number PB))
        else if unitPart = "EB".toList then .ok (toInt64 lib (F64.mul number EB))
        else .error ("unrecognized unit: " ++ String.mk unitPart)
    | _, _ => .panics

/-! ### A library for the concrete cases -/

/-- The number that a list of decimal digits denotes. -/
def decValue (ds : List Char) : Nat :=
  ds.foldl (fun a c => 10 * a + (c.toNat - 48)) 0

/-- What `strconv.ParseFloat` returns for a numeral that denotes the rational
`q`: the nearest float64, or the range error when that is an infinity. -/
def parsedValue (q : ℚ) : Option F64 :=
  match f64Round q with
  | .fin x => some (.fin x)
  | _ => none

/-- `strconv.ParseFloat` on the plain decimal numerals: an optional sign,
digits, and optionally a point with digits after it.  Every other text is
taken as an error here. -/
def parseDecimal (s : String) : Option F64 :=
  let cs := s.toList
  let neg := cs.head? = some '-'
  let body := if cs.head? = some '-' ∨ cs.head? = some '+' then cs.drop 1 else cs
  let ip := body.takeWhile isDigit
  let rest := body.dropWhile isDigit
  let fp := if rest.head? = some '.' then rest.drop 1 else []
  if (rest = [] ∨ rest.head? = some '.') ∧ fp.all isDigit = true ∧ (ip ≠ [] ∨ fp ≠ []) then
    parsedValue ((if neg then -1 else 1) *
      ((decValue ip : ℚ) + (decValue fp : ℚ) / 10 ^ fp.length))
  else none

/-- The library on the x86-64 port, for plain decimal numerals and unit texts
of ASCII characters: a conversion out of the range of `int64` gives the least
`int64`. -/
def goLib : GoLib :=
  { toUpper := Char.toUpper
    parseFloat := parseDecimal
    int64OutOfRange := fun _ => -(2 : Int) ^ 63 }

/-- What the properties below take for granted of the library: on ASCII
characters `unicode.ToUpper` maps the letters `a` to `z` to `A` to `Z` and
nothing else; and for a numeral of decimal digits, with or without a point
followed by more digits, `strconv.ParseFloat` returns the nearest float64 of
the number the numeral denotes, or an error when that is out of range. -/
structure GoLib.Standard (lib : GoLib) : Prop where
  upper : ∀ c : Char, c.toNat < 128 → lib.toUpper c = c.toUpper
  integer : ∀ ip : List Char, ip ≠ [] → (∀ c ∈ ip, isDigit c = true) →
    lib.parseFloat (String.mk ip) = parsedValue (decValue ip : ℚ)
  decimal : ∀ ip fp : List Char, ip ≠ [] → (∀ c ∈ ip, isDigit c = true) → fp ≠ [] →
    (∀ c ∈ fp, isDigit c = true) →
    lib.parseFloat (String.mk (ip ++ '.' :: fp)) =
      parsedValue ((decValue ip : ℚ) + (decValue fp : ℚ) / 10 ^ fp.length)

/-- The unit texts that the switch of `ParseByteSize` knows. -/
def knownUnits : List (List Char) :=
  ["B".toList, "KB".toList, "MB".toList, "GB".toList, "TB".toList, "PB".toList, "EB".toList]

/-- The text of the unit number `k` of the ladder: `B` for 0 up to `EB` for 6. -/
def unitName : Nat → String
  | 0 => "B"
  | 1 => "KB"
  | 2 => "MB"
  | 3 => "GB"
  | 4 => "TB"
  | 5 => "PB"
  | 6 => "EB"
  | _ => ""

/-- The number of the unit that `String` picks for a value below `ZB`: the
largest unit that is not above the value, 0 when the value is below `KB`. -/
def unitIndex (b : ℚ) : Nat :=
  if (2 : ℚ) ^ 60 ≤ b then 6
  else if (2 : ℚ) ^ 50 ≤ b then 5
  else if (2 : ℚ) ^ 40 ≤ b then 4
  else if (2 : ℚ) ^ 30 ≤ b then 3
  else if (2 : ℚ) ^ 20 ≤ b then 2
  else if (2 : ℚ) ^ 10 ≤ b then 1
  else 0

/-! ### Reading a record back -/

/-- A decimal integer read from its digits, with a minus sign in front when it
is negative; `none` for any other text. -/
def readInt (cs : List Char) : Option Int :=
  if cs.head? = some '-' then
    (if cs.tail ≠ [] ∧ cs.tail.all isDigit = true then some (-(decValue cs.tail : Int)) else none)
  else if cs ≠ [] ∧ cs.all isDigit = true then some (decValue cs : Int)
  else none

/-- The byte count that a record carries: the text between the last tab of the
record and the newline that ends it, read as a decimal integer. -/
def recordCount (r : String) : Option Int :=
  let tail := (r.toList.reverse.takeWhile (fun c => c != '\t')).reverse
  if tail.getLast? = some '\n' then readInt tail.dropLast else none

/-! ## Facts about the float64 comparisons -/

theorem roundHalfEven_intCast (n : ℤ) : roundHalfEven (n : ℚ) = n := by
  simp [roundHalfEven]

theorem floor_le_roundHalfEven (x : ℚ) : ⌊x⌋ ≤ roundHalfEven x := by
  unfold roundHalfEven
  split_ifs <;> omega

theorem roundHalfEven_le_succ_floor (x : ℚ) : roundHalfEven x ≤ ⌊x⌋ + 1 := by
  unfold roundHalfEven
  split_ifs <;> omega

theorem roundHalfEven_mono {x y : ℚ} (h : x ≤ y) : roundHalfEven x ≤ roundHalfEven y := by
  have hf : ⌊x⌋ ≤ ⌊y⌋ := Int.floor_mono h
  rcases hf.lt_or_eq with hlt | heq
  · calc roundHalfEven x ≤ ⌊x⌋ + 1 := roundHalfEven_le_succ_floor x
      _ ≤ ⌊y⌋ := hlt
      _ ≤ roundHalfEven y := floor_le_roundHalfEven y
  · unfold roundHalfEven
    rw [heq]
    have hxy : x - (⌊y⌋ : ℚ) ≤ y - (⌊y⌋ : ℚ) := by linarith
    split_ifs <;> first | omega | (exfalso; linarith)

theorem roundHalfEven_nonneg {x : ℚ} (h : 0 ≤ x) : 0 ≤ roundHalfEven x :=
  le_trans (Int.floor_nonneg.mpr h) (floor_le_roundHalfEven x)

theorem f64Nearest_zero : f64Nearest 0 = 0 := by
  simp [f64Nearest, roundHalfEven]

theorem f64Nearest_nonneg {x : ℚ} (h : 0 ≤ x) : 0 ≤ f64Nearest x := by
  unfold f64Nearest
  have h2 : (0 : ℚ) < 2 ^ f64Exp x := by positivity
  have h3 : 0 ≤ x / 2 ^ f64Exp x := div_nonneg h h2.le
  have h4 : (0 : ℚ) ≤ (roundHalfEven (x / 2 ^ f64Exp x) : ℚ) := by
    exact_mod_cast roundHalfEven_nonneg h3
  positivity

theorem f64Exp_mono {x y : ℚ} (hx : 0 < x) (h : x ≤ y) : f64Exp x ≤ f64Exp y := by
  unfold f64Exp
  have h1 : Int.log 2 |x| ≤ Int.log 2 |y| := by
    rw [abs_of_pos hx, abs_of_pos (lt_of_lt_of_le hx h)]
    exact Int.log_mono_right hx h
  have : max (Int.log 2 |x|) (-1022) ≤ max (Int.log 2 |y|) (-1022) := max_le_max h1 le_rfl
  omega

/-- A power of two at or above the last place of `x` is a multiple of it and
is kept by the rounding. -/
theorem roundHalfEven_two_zpow {k : ℤ} (hk : 0 ≤ k) :
    ((roundHalfEven ((2 : ℚ) ^ k) : ℤ) : ℚ) = (2 : ℚ) ^ k := by
  obtain ⟨n, rfl⟩ := Int.eq_ofNat_of_zero_le hk
  have : ((2 : ℚ) ^ (n : ℤ)) = (((2 ^ n : ℕ) : ℤ) : ℚ) := by
    rw [zpow_natCast]; push_cast; rfl
  rw [this, roundHalfEven_intCast]

theorem f64Nearest_mono_pos {x y : ℚ} (hx : 0 < x) (h : x ≤ y) :
    f64Nearest x ≤ f64Nearest y := by
  have hy : 0 < y := lt_of_lt_of_le hx h
  have he := f64Exp_mono hx h
  have px : (0 : ℚ) < 2 ^ f64Exp x := by positivity
  have py : (0 : ℚ) < 2 ^ f64Exp y := by positivity
  rcases he.lt_or_eq with hlt | heq
  · -- different binades: the power of two between them separates the results
    have hLy : f64Exp y = Int.log 2 y - 52 := by
      have h1 : f64Exp y = max (Int.log 2 y) (-1022) - 52 := by
        unfold f64Exp; rw [abs_of_pos hy]
      have h2 : f64Exp x = max (Int.log 2 x) (-1022) - 52 := by
        unfold f64Exp; rw [abs_of_pos hx]
      have h3 : (-1022 : ℤ) ≤ max (Int.log 2 x) (-1022) := le_max_right _ _
      rcases max_cases (Int.log 2 y) (-1022) with ⟨e1, _⟩ | ⟨e1, _⟩
      · rw [h1, e1]
      · rw [h1, e1] at hlt; omega
    have hLx : Int.log 2 x + 1 ≤ f64Exp x + 53 := by
      have h2 : f64Exp x = max (Int.log 2 x) (-1022) - 52 := by
        unfold f64Exp; rw [abs_of_pos hx]
      have h3 : Int.log 2 x ≤ max (Int.log 2 x) (-1022) := le_max_left _ _
      omega
    set L := Int.log 2 y with hL
    have hB : (2 : ℚ) ^ L ≤ y := by
      have := Int.zpow_log_le_self (b := 2) (r := y) (by norm_num) hy
      simpa using this
    have hxB : x ≤ (2 : ℚ) ^ L := by
      have h1 : x < (2 : ℚ) ^ (Int.log 2 x + 1) := by
        have := Int.lt_zpow_succ_log_self (b := 2) (by norm_num) x
        simpa using this
      have h2 : (2 : ℚ) ^ (Int.log 2 x + 1) ≤ (2 : ℚ) ^ L :=
        zpow_le_zpow_right₀ (by norm_num) (by omega)
      linarith
    have hyB : (2 : ℚ) ^ L ≤ f64Nearest y := by
      unfold f64Nearest
      have e1 : (2 : ℚ) ^ L = (2 : ℚ) ^ (52 : ℤ) * 2 ^ f64Exp y := by
        rw [← zpow_add₀ (by norm_num : (2 : ℚ) ≠ 0)]; congr 1; omega
      have e2 : (2 : ℚ) ^ (52 : ℤ) ≤ y / 2 ^ f64Exp y := by
        rw [le_div_iff₀ py, ← e1]; exact hB
      have e3 := roundHalfEven_mono e2
      have e4 : ((roundHalfEven ((2 : ℚ) ^ (52 : ℤ)) : ℤ) : ℚ)
          ≤ ((roundHalfEven (y / 2 ^ f64Exp y) : ℤ) : ℚ) := by exact_mod_cast e3
      rw [roundHalfEven_two_zpow (by norm_num)] at e4
      rw [e1]
      exact mul_le_mul_of_nonneg_right e4 py.le
    have hxB2 : f64Nearest x ≤ (2 : ℚ) ^ L := by
      unfold f64Nearest
      have e1 : (2 : ℚ) ^ L = (2 : ℚ) ^ (L - f64Exp x) * 2 ^ f64Exp x := by
        rw [← zpow_add₀ (by norm_num : (2 : ℚ) ≠ 0)]; congr 1; omega
      have e2 : x / 2 ^ f64Exp x ≤ (2 : ℚ) ^ (L - f64Exp x) := by
        rw [div_le_iff₀ px, ← e1]; exact hxB
      have e3 := roundHalfEven_mono e2
      have e4 : ((roundHalfEven (x / 2 ^ f64Exp x) : ℤ) : ℚ)
          ≤ ((roundHalfEven ((2 : ℚ) ^ (L - f64Exp x)) : ℤ) : ℚ) := by exact_mod_cast e3
      rw [roundHalfEven_two_zpow (by omega)] at e4
      rw [e1]
      exact mul_le_mul_of_nonneg_right e4 px.le
    linarith
  · unfold f64Nearest
    rw [heq]
    have e2 : x / 2 ^ f64Exp y ≤ y / 2 ^ f64Exp y := div_le_div_of_nonneg_right h py.le
    have e3 := roundHalfEven_mono e2
    have e4 : ((roundHalfEven (x / 2 ^ f64Exp y) : ℤ) : ℚ)
        ≤ ((roundHalfEven (y / 2 ^ f64Exp y) : ℤ) : ℚ) := by exact_mod_cast e3
    exact mul_le_mul_of_nonneg_right e4 py.le

theorem f64Nearest_mono {x y : ℚ} (hx : 0 ≤ x) (h : x ≤ y) : f64Nearest x ≤ f64Nearest y := by
  rcases hx.lt_or_eq with hpos | hzero
  · exact f64Nearest_mono_pos hpos h
  · rw [← hzero, f64Nearest_zero]; exact f64Nearest_nonneg (hzero ▸ h)

theorem int_log_two_eq {x : ℚ} {L : ℤ} (hx : 0 < x) (h1 : (2 : ℚ) ^ L ≤ x)
    (h2 : x < (2 : ℚ) ^ (L + 1)) : Int.log 2 x = L := by
  have a1 : L ≤ Int.log 2 x := by
    rw [← Int.zpow_le_iff_le_log (b := 2) (by norm_num) hx]; simpa using h1
  have a2 : Int.log 2 x < L + 1 := by
    rw [← Int.lt_zpow_iff_log_lt (b := 2) (by norm_num) hx]; simpa using h2
  omega

theorem f64Nearest_exact {x : ℚ} {L : ℤ} (hx : 0 < x) (h1 : (2 : ℚ) ^ L ≤ x)
    (h2 : x < (2 : ℚ) ^ (L + 1)) (hL : -1022 ≤ L) (m : ℤ) (hm : x = m * (2 : ℚ) ^ (L - 52)) :
    f64Nearest x = x := by
  have hlog := int_log_two_eq hx h1 h2
  have he : f64Exp x = L - 52 := by
    unfold f64Exp; rw [abs_of_pos hx, hlog, max_eq_left hL]
  unfold f64Nearest
  rw [he]
  have p : (0 : ℚ) < 2 ^ (L - 52) := by positivity
  have : x / 2 ^ (L - 52) = (m : ℚ) := by
    rw [div_eq_iff p.ne']; exact hm
  rw [this, roundHalfEven_intCast, ← hm]

theorem f64Nearest_dyadic (n k : ℕ) (hn : n < 2 ^ 53) (hk : k ≤ 1022) :
    f64Nearest ((n : ℚ) / 2 ^ k) = (n : ℚ) / 2 ^ k := by
  rcases Nat.eq_zero_or_pos n with h0 | hpos
  · subst h0; simp [f64Nearest_zero]
  have hne : n ≠ 0 := hpos.ne'
  have l1 : 2 ^ Nat.log 2 n ≤ n := Nat.pow_log_le_self 2 hne
  have l2 : n < 2 ^ (Nat.log 2 n + 1) := Nat.lt_pow_succ_log_self (by norm_num) n
  have l3 : Nat.log 2 n < 53 := Nat.log_lt_of_lt_pow hne hn
  have two : (2 : ℚ) ≠ 0 := by norm_num
  have pk : (0 : ℚ) < 2 ^ k := by positivity
  have q1 : ((2 : ℚ) ^ (Nat.log 2 n)) ≤ (n : ℚ) := by exact_mod_cast l1
  have q2 : (n : ℚ) < (2 : ℚ) ^ (Nat.log 2 n + 1) := by exact_mod_cast l2
  refine f64Nearest_exact (L := (Nat.log 2 n : ℤ) - k) (by positivity) ?_ ?_ (by omega)
    ((n : ℤ) * 2 ^ (52 - Nat.log 2 n)) ?_
  · rw [zpow_sub₀ two, zpow_natCast, zpow_natCast]
    exact div_le_div_of_nonneg_right q1 pk.le
  · have : ((Nat.log 2 n : ℤ) - k + 1) = ((Nat.log 2 n + 1 : ℕ) : ℤ) - k := by push_cast; ring
    rw [this, zpow_sub₀ two, zpow_natCast, zpow_natCast]
    exact div_lt_div_of_pos_right q2 pk
  · have e : ((Nat.log 2 n : ℤ) - k - 52) = -((52 - Nat.log 2 n : ℕ) : ℤ) - k := by
      omega
    rw [e, zpow_sub₀ two, zpow_neg, zpow_natCast, zpow_natCast]
    push_cast
    field_simp
    ring

theorem f64Round_dyadic (n k : ℕ) (hn : n < 2 ^ 53) (hk : k ≤ 1022) :
    f64Round ((n : ℚ) / 2 ^ k) = .fin ((n : ℚ) / 2 ^ k) := by
  have hle : (n : ℚ) / 2 ^ k < 2 ^ 1024 := by
    have h1 : (n : ℚ) / 2 ^ k ≤ n := div_le_self (by positivity) (one_le_pow₀ (by norm_num))
    have h2 : (n : ℚ) < 2 ^ 53 := by exact_mod_cast hn
    have h3 : (2 : ℚ) ^ 53 ≤ 2 ^ 1024 := by
      apply pow_le_pow_right₀
      · norm_num
      · omega
    linarith
  have hge : (0 : ℚ) ≤ (n : ℚ) / 2 ^ k :=
    div_nonneg (Nat.cast_nonneg n) (pow_nonneg (by norm_num) k)
  unfold f64Round
  rw [f64Nearest_dyadic n k hn hk]
  rw [if_neg (not_le.mpr hle), if_neg]
  have : (0 : ℚ) < 2 ^ 1024 := by positivity
  linarith

theorem f64Round_natCast (n : ℕ) (hn : n < 2 ^ 53) : f64Round (n : ℚ) = .fin n := by
  have := f64Round_dyadic n 0 hn (by norm_num)
  simpa using this

theorem f64Round_cases {x : ℚ} (hx : 0 ≤ x) :
    (f64Round x = .posInf ∧ (2 : ℚ) ^ 1024 ≤ f64Nearest x) ∨
    (f64Round x = .fin (f64Nearest x) ∧ f64Nearest x < (2 : ℚ) ^ 1024) := by
  have h0 := f64Nearest_nonneg hx
  have hp : (0 : ℚ) < 2 ^ 1024 := pow_pos (by norm_num) 1024
  unfold f64Round
  by_cases h : (2 : ℚ) ^ 1024 ≤ f64Nearest x
  · left; simp [h]
  · right
    have h2 : ¬ f64Nearest x ≤ -(2 : ℚ) ^ 1024 := by
      intro hh; linarith
    simp [h, h2]
    exact not_le.mp h

theorem f64Round_mono {x y : ℚ} (hx : 0 ≤ x) (h : x ≤ y) :
    F64.le (f64Round x) (f64Round y) = true := by
  have hm := f64Nearest_mono hx h
  rcases f64Round_cases hx with ⟨e1, b1⟩ | ⟨e1, b1⟩ <;>
    rcases f64Round_cases (le_trans hx h) with ⟨e2, b2⟩ | ⟨e2, b2⟩ <;>
    rw [e1, e2] <;> simp [F64.le]
  · linarith
  · exact hm

theorem f64_lt_of_le_of_lt {a b c : F64} (h1 : F64.le a b = true) (h2 : F64.lt b c = true) :
    F64.lt a c = true := by
  cases a <;> cases b <;> cases c <;> simp_all [F64.le, F64.lt]
  exact lt_of_le_of_lt h1 h2

theorem f64_lt_of_lt_of_le {a b c : F64} (h1 : F64.lt a b = true) (h2 : F64.le b c = true) :
    F64.lt a c = true := by
  cases a <;> cases b <;> cases c <;> simp_all [F64.le, F64.lt]
  exact lt_of_lt_of_le h1 h2

theorem f64_lt_false_of_le {a b : F64} (h : F64.le a b = true) : F64.lt b a = false := by
  cases a <;> cases b <;> simp_all [F64.le, F64.lt]

theorem f64Round_zero : f64Round 0 = .fin 0 := by
  rcases f64Round_cases (le_refl (0 : ℚ)) with ⟨_, b1⟩ | ⟨e1, _⟩
  · rw [f64Nearest_zero] at b1
    have hp : (0 : ℚ) < 2 ^ 1024 := pow_pos (by norm_num) 1024
    linarith
  · rw [e1, f64Nearest_zero]

theorem f64Round_one : f64Round 1 = .fin 1 := by
  have := f64Round_natCast 1 (by norm_num)
  simpa using this

/-- The conversion of a positive integer is a finite value of at least one, or
the positive infinity. -/
theorem ofInt_pos_cases {t : Int} (ht : 0 < t) :
    F64.ofInt t = .posInf ∨ ∃ q : ℚ, 1 ≤ q ∧ F64.ofInt t = .fin q := by
  have h1 : (1 : ℚ) ≤ (t : ℚ) := by exact_mod_cast ht
  have hm := f64Round_mono (by norm_num : (0 : ℚ) ≤ 1) h1
  rw [f64Round_one] at hm
  unfold F64.ofInt
  rcases f64Round_cases (le_trans (by norm_num : (0 : ℚ) ≤ 1) h1) with ⟨e1, _⟩ | ⟨e1, _⟩
  · left; exact e1
  · right
    rw [e1] at hm ⊢
    refine ⟨_, ?_, rfl⟩
    simpa [F64.le] using hm

/-- The conversion of a non-negative integer is a non-negative finite value or
the positive infinity. -/
theorem ofInt_nonneg_cases {x : Int} (hx : 0 ≤ x) :
    F64.ofInt x = .posInf ∨ ∃ q : ℚ, 0 ≤ q ∧ F64.ofInt x = .fin q := by
  have h1 : (0 : ℚ) ≤ (x : ℚ) := by exact_mod_cast hx
  unfold F64.ofInt
  rcases f64Round_cases h1 with ⟨e1, _⟩ | ⟨e1, _⟩
  · left; exact e1
  · right; exact ⟨_, f64Nearest_nonneg h1, e1⟩

theorem ofInt_mono {x y : Int} (hx : 0 ≤ x) (h : x ≤ y) :
    F64.le (F64.ofInt x) (F64.ofInt y) = true := by
  unfold F64.ofInt
  exact f64Round_mono (by exact_mod_cast hx) (by exact_mod_cast h)

theorem le_posInf_f64Round (x : ℚ) : F64.le (f64Round x) .posInf = true := by
  unfold f64Round
  split_ifs <;> simp [F64.le]

/-- The quotient by a positive total grows with the size, unless it is NaN
(both conversions overflow). -/
theorem quot_mono {x y total : Int} (hx : 0 ≤ x) (hxy : x ≤ y) (ht : 0 < total) :
    F64.div (F64.ofInt y) (F64.ofInt total) = .nan ∨
    F64.le (F64.div (F64.ofInt x) (F64.ofInt total))
      (F64.div (F64.ofInt y) (F64.ofInt total)) = true := by
  have hm := ofInt_mono hx hxy
  rcases ofInt_pos_cases ht with et | ⟨t, ht1, et⟩ <;>
    rcases ofInt_nonneg_cases hx with ex | ⟨a, ha, ex⟩ <;>
    rcases ofInt_nonneg_cases (le_trans hx hxy) with ey | ⟨b, hb, ey⟩ <;>
    rw [ex, ey] at hm <;> rw [et, ex, ey] <;> simp [F64.div, F64.le] at hm ⊢
  · have t0 : t ≠ 0 := by linarith
    have t1 : 0 ≤ t := by linarith
    simp [t0, t1]
  · have t0 : t ≠ 0 := by linarith
    have t1 : 0 ≤ t := by linarith
    simp [t0, t1]
    exact le_posInf_f64Round _
  · have t0 : t ≠ 0 := by linarith
    simp [t0]
    right
    exact f64Round_mono (div_nonneg ha (by linarith)) (div_le_div_of_nonneg_right hm (by linarith))

/-- The quotient of a non-negative size by a positive total is not below zero. -/
theorem quot_not_neg {x total : Int} (hx : 0 ≤ x) (ht : 0 < total) :
    F64.lt (F64.div (F64.ofInt x) (F64.ofInt total)) (.fin 0) = false := by
  rcases ofInt_pos_cases ht with et | ⟨t, ht1, et⟩ <;>
    rcases ofInt_nonneg_cases hx with ex | ⟨a, ha, ex⟩ <;>
    rw [et, ex] <;> simp [F64.div, F64.lt]
  · have t1 : 0 ≤ t := by linarith
    simp [t1]
  · have t0 : t ≠ 0 := by linarith
    simp [t0]
    have h := f64Round_mono (le_refl (0 : ℚ)) (div_nonneg ha (by linarith : (0 : ℚ) ≤ t))
    rw [f64Round_zero] at h
    exact f64_lt_false_of_le h

theorem belowMinWidth_mono_size {x y total : Int} {mw : F64} (hx : 0 ≤ x) (hxy : x ≤ y)
    (ht : 0 < total) (h : belowMinWidth y total mw = true) :
    belowMinWidth x total mw = true := by
  unfold belowMinWidth at h ⊢
  rcases quot_mono hx hxy ht with hn | hle
  · rw [hn] at h; simp [F64.lt] at h
  · exact f64_lt_of_le_of_lt hle h

/-- The threshold `minWidth/100` grows with `minWidth`. -/
theorem threshold_mono {p q : F64} (hp : F64.le (.fin 0) p = true) (hpq : F64.le p q = true) :
    F64.le (F64.div p (.fin 100)) (F64.div q (.fin 100)) = true := by
  cases p <;> cases q <;> simp_all [F64.le, F64.div]
  · exact f64Round_mono (div_nonneg hp (by norm_num)) (div_le_div_of_nonneg_right hpq (by norm_num))
  · exact le_posInf_f64Round _

theorem belowMinWidth_mono_width {x total : Int} {p q : F64} (hp : F64.le (.fin 0) p = true)
    (hpq : F64.le p q = true) (h : belowMinWidth x total p = true) :
    belowMinWidth x total q = true := by
  unfold belowMinWidth at h ⊢
  exact f64_lt_of_lt_of_le h (threshold_mono hp hpq)

theorem belowMinWidth_zero {x total : Int} (hx : 0 ≤ x) (ht : 0 < total) :
    belowMinWidth x total (.fin 0) = false := by
  unfold belowMinWidth
  have : F64.div (.fin 0) (.fin 100) = .fin 0 := by
    simp [F64.div, f64Round_zero]
  rw [this]
  exact quot_not_neg hx ht


theorem ofInt_exact {i : Int} (h0 : 0 ≤ i) (h1 : i < 2 ^ 53) : F64.ofInt i = .fin i := by
  obtain ⟨n, rfl⟩ := Int.eq_ofNat_of_zero_le h0
  have hn : n < 2 ^ 53 := by exact_mod_cast h1
  unfold F64.ofInt
  have := f64Round_natCast n hn
  simpa using this

theorem belowMinWidth_false_of_le {x total : Int} {w : ℚ} (hx : 0 ≤ x) (hx2 : x < 2 ^ 53)
    (ht : 0 < total) (ht2 : total < 2 ^ 53) (hw : 0 ≤ w)
    (h : w / 100 ≤ (x : ℚ) / (total : ℚ)) : belowMinWidth x total (.fin w) = false := by
  unfold belowMinWidth
  rw [ofInt_exact hx hx2, ofInt_exact ht.le ht2]
  have t0 : (total : ℚ) ≠ 0 := by exact_mod_cast ht.ne'
  simp only [F64.div, t0, if_false, (by norm_num : (100 : ℚ) ≠ 0)]
  exact f64_lt_false_of_le (f64Round_mono (div_nonneg hw (by norm_num)) h)

theorem belowMinWidth_true_of_sep {x total : Int} {w : ℚ} (n k : ℕ) (hx : 0 ≤ x)
    (hx2 : x < 2 ^ 53) (ht : 0 < total) (ht2 : total < 2 ^ 53)
    (hn : n + 1 < 2 ^ 53) (hk : k ≤ 1022)
    (h1 : (x : ℚ) / (total : ℚ) ≤ (n : ℚ) / 2 ^ k)
    (h2 : ((n + 1 : ℕ) : ℚ) / 2 ^ k ≤ w / 100) : belowMinWidth x total (.fin w) = true := by
  unfold belowMinWidth
  rw [ofInt_exact hx hx2, ofInt_exact ht.le ht2]
  have t0 : (total : ℚ) ≠ 0 := by exact_mod_cast ht.ne'
  have tp : (0 : ℚ) < (total : ℚ) := by exact_mod_cast ht
  have x0 : (0 : ℚ) ≤ (x : ℚ) := by exact_mod_cast hx
  simp only [F64.div, t0, if_false, (by norm_num : (100 : ℚ) ≠ 0)]
  have a1 := f64Round_mono (div_nonneg x0 tp.le) h1
  rw [f64Round_dyadic n k (by omega) hk] at a1
  have a2 := f64Round_mono (by positivity) h2
  rw [f64Round_dyadic (n + 1) k hn hk] at a2
  have a3 : F64.lt (.fin ((n : ℚ) / 2 ^ k)) (.fin (((n + 1 : ℕ) : ℚ) / 2 ^ k)) = true := by
    simp only [F64.lt, decide_eq_true_eq]
    apply div_lt_div_of_pos_right _ (by positivity)
    push_cast; linarith
  exact f64_lt_of_lt_of_le (f64_lt_of_le_of_lt a1 a3) a2

/-! ## Facts about `calcTreeSize` and `printRefPath` -/

theorem wellSized_mk {addr : Nat} {name : String} {size : Int} {refs : List (String × Tree)}
    (h : wellSized (.mk addr name size refs) = true) :
    0 ≤ size ∧ childSizes refs ≤ size ∧ wellSizedRefs refs = true := by
  simpa [wellSized, and_assoc] using h

theorem wellSizedRefs_cons {link : String} {t : Tree} {rest : List (String × Tree)}
    (h : wellSizedRefs ((link, t) :: rest) = true) :
    wellSized t = true ∧ wellSizedRefs rest = true := by
  simpa [wellSizedRefs] using h

mutual
/-- The printed size of a sized tree lies between zero and the stored size, and
is positive only when a record was written. -/
theorem printRefPath_bounds : ∀ (t : Tree), wellSized t = true →
    ∀ (isPrint : Char → Bool) (path : List String) (total : Int) (mw : F64) (pa : Bool),
      0 ≤ (printRefPath isPrint path total mw pa t).2 ∧
      (printRefPath isPrint path total mw pa t).2 ≤ t.size ∧
      (0 < (printRefPath isPrint path total mw pa t).2 →
        0 < (printRefPath isPrint path total mw pa t).1.length)
  | .mk addr name size refs, h, isPrint, path, total, mw, pa => by
    obtain ⟨h0, h1, h2⟩ := wellSized_mk h
    have ih := printRefs_bounds refs h2 isPrint (path ++ [nodeLabel pa name addr]) total mw pa
    obtain ⟨i0, i1, i2⟩ := ih
    simp only [printRefPath, Tree.size]
    split_ifs with c1 c2
    · simp [h0]
    · exact ⟨i0, by linarith, i2⟩
    · refine ⟨h0, le_refl _, fun _ => ?_⟩
      simp
theorem printRefs_bounds : ∀ (refs : List (String × Tree)), wellSizedRefs refs = true →
    ∀ (isPrint : Char → Bool) (path : List String) (total : Int) (mw : F64) (pa : Bool),
      0 ≤ (printRefs isPrint path total mw pa refs).2 ∧
      (printRefs isPrint path total mw pa refs).2 ≤ childSizes refs ∧
      (0 < (printRefs isPrint path total mw pa refs).2 →
        0 < (printRefs isPrint path total mw pa refs).1.length)
  | [], _, isPrint, path, total, mw, pa => by simp [printRefs, childSizes]
  | (link, t) :: rest, h, isPrint, path, total, mw, pa => by
    obtain ⟨h1, h2⟩ := wellSizedRefs_cons h
    obtain ⟨a0, a1, a2⟩ := printRefPath_bounds t h1 isPrint
      (if link ≠ "" then path ++ [link] else path) total mw pa
    obtain ⟨b0, b1, b2⟩ := printRefs_bounds rest h2 isPrint path total mw pa
    simp only [printRefs, childSizes, List.length_append]
    refine ⟨by linarith, by linarith, fun hpos => ?_⟩
    by_cases ha : 0 < (printRefPath isPrint (if link ≠ "" then path ++ [link] else path) total
        mw pa t).2
    · have := a2 ha; omega
    · have hb : 0 < (printRefs isPrint path total mw pa rest).2 := by linarith
      have := b2 hb; omega
end

mutual
/-- Raising the threshold loses at least as many records as it gains, and it
loses one more whenever the printed size drops. -/
theorem printRefPath_lines_mono : ∀ (t : Tree), wellSized t = true →
    ∀ (isPrint : Char → Bool) (path : List String) (total : Int) (p q : F64) (pa : Bool),
      0 < total → F64.le (.fin 0) p = true → F64.le p q = true →
      (printRefPath isPrint path total q pa t).1.length ≤
        (printRefPath isPrint path total p pa t).1.length ∧
      ((printRefPath isPrint path total q pa t).2 < (printRefPath isPrint path total p pa t).2 →
        (printRefPath isPrint path total q pa t).1.length <
          (printRefPath isPrint path total p pa t).1.length)
  | .mk addr name size refs, h, isPrint, path, total, p, q, pa, ht, hp, hpq => by
    obtain ⟨h0, h1, h2⟩ := wellSized_mk h
    have bp := printRefPath_bounds (.mk addr name size refs) h isPrint path total p pa
    obtain ⟨ih1, ih2⟩ := printRefs_lines_mono refs h2 isPrint (path ++ [nodeLabel pa name addr])
      total p q pa ht hp hpq
    obtain ⟨cq0, cq1, _⟩ := printRefs_bounds refs h2 isPrint (path ++ [nodeLabel pa name addr])
      total q pa
    obtain ⟨cp0, cp1, _⟩ := printRefs_bounds refs h2 isPrint (path ++ [nodeLabel pa name addr])
      total p pa
    by_cases c1 : belowMinWidth size total q = true
    · -- pruned at the higher threshold
      have e : printRefPath isPrint path total q pa (.mk addr name size refs) = ([], 0) := by
        simp [printRefPath, c1]
      rw [e]
      exact ⟨Nat.zero_le _, fun hlt => bp.2.2 hlt⟩
    · have c1p : ¬ belowMinWidth size total p = true :=
        fun hh => c1 (belowMinWidth_mono_width hp hpq hh)
      simp only [printRefPath, c1, c1p, if_false, Bool.false_eq_true]
      by_cases lq : belowMinWidth
          (size - (printRefs isPrint (path ++ [nodeLabel pa name addr]) total q pa refs).2)
          total q = true
      · by_cases lp : belowMinWidth
            (size - (printRefs isPrint (path ++ [nodeLabel pa name addr]) total p pa refs).2)
            total p = true
        · simp only [lq, lp, if_true]
          exact ⟨ih1, ih2⟩
        · simp only [lq, lp, if_true, if_false, Bool.false_eq_true, List.length_append,
            List.length_singleton]
          exact ⟨by omega, fun _ => by omega⟩
      · by_cases lp : belowMinWidth
            (size - (printRefs isPrint (path ++ [nodeLabel pa name addr]) total p pa refs).2)
            total p = true
        · simp only [lq, lp, if_true, if_false, Bool.false_eq_true, List.length_append,
            List.length_singleton]
          have hdrop : (printRefs isPrint (path ++ [nodeLabel pa name addr]) total q pa refs).2 <
              (printRefs isPrint (path ++ [nodeLabel pa name addr]) total p pa refs).2 := by
            by_contra hnot
            push_neg at hnot
            apply lq
            apply belowMinWidth_mono_width hp hpq
            exact belowMinWidth_mono_size (by linarith) (by linarith) ht lp
          have := ih2 hdrop
          exact ⟨by omega, fun hlt => by exfalso; linarith⟩
        · simp only [lq, lp, if_false, Bool.false_eq_true, List.length_append,
            List.length_singleton]
          exact ⟨by omega, fun hlt => by exfalso; linarith⟩
theorem printRefs_lines_mono : ∀ (refs : List (String × Tree)), wellSizedRefs refs = true →
    ∀ (isPrint : Char → Bool) (path : List String) (total : Int) (p q : F64) (pa : Bool),
      0 < total → F64.le (.fin 0) p = true → F64.le p q = true →
      (printRefs isPrint path total q pa refs).1.length ≤
        (printRefs isPrint path total p pa refs).1.length ∧
      ((printRefs isPrint path total q pa refs).2 < (printRefs isPrint path total p pa refs).2 →
        (printRefs isPrint path total q pa refs).1.length <
          (printRefs isPrint path total p pa refs).1.length)
  | [], _, isPrint, path, total, p, q, pa, _, _, _ => by simp [printRefs]
  | (link, t) :: rest, h, isPrint, path, total, p, q, pa, ht, hp, hpq => by
    obtain ⟨h1, h2⟩ := wellSizedRefs_cons h
    obtain ⟨a1, a2⟩ := printRefPath_lines_mono t h1 isPrint
      (if link ≠ "" then path ++ [link] else path) total p q pa ht hp hpq
    obtain ⟨b1, b2⟩ := printRefs_lines_mono rest h2 isPrint path total p q pa ht hp hpq
    simp only [printRefs, List.length_append]
    refine ⟨by omega, fun hlt => ?_⟩
    by_cases ha : (printRefPath isPrint (if link ≠ "" then path ++ [link] else path) total q
        pa t).2 < (printRefPath isPrint (if link ≠ "" then path ++ [link] else path) total p
        pa t).2
    · have := a2 ha; omega
    · have hb : (printRefs isPrint path total q pa rest).2 <
          (printRefs isPrint path total p pa rest).2 := by linarith
      have := b2 hb; omega
end

mutual
/-- With the threshold 0 nothing is pruned: every node gets a record and the
whole stored size is printed. -/
theorem printRefPath_zero : ∀ (t : Tree), wellSized t = true →
    ∀ (isPrint : Char → Bool) (path : List String) (total : Int) (pa : Bool), 0 < total →
      (printRefPath isPrint path total (.fin 0) pa t).2 = t.size
  | .mk addr name size refs, h, isPrint, path, total, pa, ht => by
    obtain ⟨h0, h1, h2⟩ := wellSized_mk h
    have ih := printRefs_zero refs h2 isPrint (path ++ [nodeLabel pa name addr]) total pa ht
    have c1 : belowMinWidth size total (.fin 0) = false := belowMinWidth_zero h0 ht
    have c2 : belowMinWidth (size - childSizes refs) total (.fin 0) = false :=
      belowMinWidth_zero (by linarith) ht
    simp [printRefPath, Tree.size, c1, ih, c2]
theorem printRefs_zero : ∀ (refs : List (String × Tree)), wellSizedRefs refs = true →
    ∀ (isPrint : Char → Bool) (path : List String) (total : Int) (pa : Bool), 0 < total →
      (printRefs isPrint path total (.fin 0) pa refs).2 = childSizes refs
  | [], _, isPrint, path, total, pa, _ => by simp [printRefs, childSizes]
  | (link, t) :: rest, h, isPrint, path, total, pa, ht => by
    obtain ⟨h1, h2⟩ := wellSizedRefs_cons h
    have a := printRefPath_zero t h1 isPrint (if link ≠ "" then path ++ [link] else path)
      total pa ht
    have b := printRefs_zero rest h2 isPrint path total pa ht
    simp only [printRefs, childSizes]
    rw [a, b]
end

theorem pathTo_ne_nil {pa : Bool} {t target : Tree} {segs : List String}
    (h : PathTo pa t segs target) : segs ≠ [] := by
  cases h <;> simp

theorem pathTo_head {pa : Bool} {t target : Tree} {segs : List String}
    (h : PathTo pa t segs target) : segs.head? = some (nodeLabel pa t.name t.addr) := by
  cases h <;> simp [Tree.name, Tree.addr]

theorem pathTo_last {pa : Bool} {t target : Tree} {segs : List String}
    (h : PathTo pa t segs target) :
    segs.getLast? = some (nodeLabel pa target.name target.addr) := by
  induction h with
  | here t => simp
  | down addr name size refs link child segs target _ hp ih =>
    rw [List.getLast?_eq_some_iff] at ih ⊢
    obtain ⟨ys, hys⟩ := ih
    exact ⟨nodeLabel pa name addr :: ((if link ≠ "" then [link] else []) ++ ys), by
      rw [hys]; simp⟩

mutual
/-- Every record written for a tree renders the segments from the root of that
tree down to one of its nodes, after the segments of the path so far. -/
theorem printRefPath_records : ∀ (t : Tree) (isPrint : Char → Bool) (path : List String)
    (total : Int) (mw : F64) (pa : Bool) (r : String),
      r ∈ (printRefPath isPrint path total mw pa t).1 →
      ∃ segs target leftover, PathTo pa t segs target ∧
        r = record isPrint (path ++ segs) leftover
  | .mk addr name size refs, isPrint, path, total, mw, pa, r, hr => by
    have ih := printRefs_records refs isPrint (path ++ [nodeLabel pa name addr]) total mw pa r
    have fromRefs : r ∈ (printRefs isPrint (path ++ [nodeLabel pa name addr]) total mw pa
        refs).1 → ∃ segs target leftover,
        PathTo pa (.mk addr name size refs) segs target ∧
          r = record isPrint (path ++ segs) leftover := by
      intro hmem
      obtain ⟨link, c, segs, target, leftover, hin, hpath, hrec⟩ := ih hmem
      refine ⟨_, target, leftover, PathTo.down addr name size refs link c segs target hin hpath, ?_⟩
      rw [hrec]
      simp [List.append_assoc]
    simp only [printRefPath] at hr
    split_ifs at hr with c1 c2
    · simp at hr
    · exact fromRefs hr
    · rw [List.mem_append] at hr
      rcases hr with hr | hr
      · exact fromRefs hr
      · rw [List.mem_singleton] at hr
        exact ⟨_, _, _, PathTo.here (.mk addr name size refs), by rw [hr]; rfl⟩
theorem printRefs_records : ∀ (refs : List (String × Tree)) (isPrint : Char → Bool)
    (path : List String) (total : Int) (mw : F64) (pa : Bool) (r : String),
      r ∈ (printRefs isPrint path total mw pa refs).1 →
      ∃ link c segs target leftover, (link, c) ∈ refs ∧ PathTo pa c segs target ∧
        r = record isPrint (path ++ ((if link ≠ "" then [link] else []) ++ segs)) leftover
  | [], isPrint, path, total, mw, pa, r, hr => by simp [printRefs] at hr
  | (link, t) :: rest, isPrint, path, total, mw, pa, r, hr => by
    simp only [printRefs] at hr
    rw [List.mem_append] at hr
    rcases hr with hr | hr
    · obtain ⟨segs, target, leftover, hp, hrec⟩ := printRefPath_records t isPrint
        (if link ≠ "" then path ++ [link] else path) total mw pa r hr
      refine ⟨link, t, segs, target, leftover, List.mem_cons_self _ _, hp, ?_⟩
      rw [hrec]
      by_cases hl : link = "" <;> simp [hl]
    · obtain ⟨link', c, segs, target, leftover, hin, hp, hrec⟩ :=
        printRefs_records rest isPrint path total mw pa r hr
      exact ⟨link', c, segs, target, leftover, List.mem_cons_of_mem _ hin, hp, hrec⟩
end

mutual
theorem sumSizes_nonneg : ∀ t : Tree, nonnegSizes t = true → 0 ≤ Tree.sumSizes t
  | .mk addr name size refs, h => by
    simp only [nonnegSizes, Bool.and_eq_true, decide_eq_true_eq] at h
    have := sumSizesRefs_nonneg refs h.2
    simp only [Tree.sumSizes]
    omega
theorem sumSizesRefs_nonneg : ∀ refs : List (String × Tree), nonnegSizesRefs refs = true →
    0 ≤ Tree.sumSizesRefs refs
  | [], _ => by simp [Tree.sumSizesRefs]
  | (link, t) :: rest, h => by
    simp only [nonnegSizesRefs, Bool.and_eq_true] at h
    have h1 := sumSizes_nonneg t h.1
    have h2 := sumSizesRefs_nonneg rest h.2
    simp only [Tree.sumSizesRefs]
    omega
end

theorem childSizes_withRetainedRefs : ∀ refs : List (String × Tree),
    childSizes (Tree.withRetainedRefs refs) = Tree.sumSizesRefs refs
  | [] => by simp [childSizes, Tree.withRetainedRefs, Tree.sumSizesRefs]
  | (link, t) :: rest => by
    have ih := childSizes_withRetainedRefs rest
    cases t with
    | mk a n s r =>
      simp [childSizes, Tree.withRetainedRefs, Tree.sumSizesRefs, Tree.withRetained, Tree.size,
        Tree.sumSizes, ih]

mutual
/-- Aggregating a tree whose own sizes are not negative gives a sized tree in
the sense of `wellSized`. -/
theorem wellSized_withRetained : ∀ t : Tree, nonnegSizes t = true →
    wellSized (Tree.withRetained t) = true
  | .mk addr name size refs, h => by
    simp only [nonnegSizes, Bool.and_eq_true, decide_eq_true_eq] at h
    have h1 := wellSizedRefs_withRetained refs h.2
    have h2 := sumSizesRefs_nonneg refs h.2
    simp only [Tree.withRetained, wellSized, Bool.and_eq_true, decide_eq_true_eq,
      childSizes_withRetainedRefs]
    exact ⟨⟨by omega, by omega⟩, h1⟩
theorem wellSizedRefs_withRetained : ∀ refs : List (String × Tree),
    nonnegSizesRefs refs = true → wellSizedRefs (Tree.withRetainedRefs refs) = true
  | [], _ => by simp [Tree.withRetainedRefs, wellSizedRefs]
  | (link, t) :: rest, h => by
    simp only [nonnegSizesRefs, Bool.and_eq_true] at h
    simp only [Tree.withRetainedRefs, wellSizedRefs, Bool.and_eq_true]
    exact ⟨wellSized_withRetained t h.1, wellSizedRefs_withRetained rest h.2⟩
end

/-! ### `int64` sums -/

theorem wrap64_range (x : Int) : -2 ^ 63 ≤ wrap64 x ∧ wrap64 x < 2 ^ 63 := by
  unfold wrap64
  have h1 := Int.emod_nonneg (x + 2 ^ 63) (by norm_num : (2 : Int) ^ 64 ≠ 0)
  have h2 := Int.emod_lt_of_pos (x + 2 ^ 63) (by norm_num : (0 : Int) < 2 ^ 64)
  constructor <;> omega

theorem wrap64_of_range {x : Int} (h1 : -2 ^ 63 ≤ x) (h2 : x < 2 ^ 63) : wrap64 x = x := by
  unfold wrap64
  rw [Int.emod_eq_of_lt (by omega) (by omega)]
  omega

theorem wrap64_add_left (a b : Int) : wrap64 (wrap64 a + b) = wrap64 (a + b) := by
  unfold wrap64
  omega

theorem wrap64_add_right (a b : Int) : wrap64 (a + wrap64 b) = wrap64 (a + b) := by
  unfold wrap64
  omega

theorem wrap64_idem (a : Int) : wrap64 (wrap64 a) = wrap64 a := by
  unfold wrap64
  omega

mutual
/-- In every case `calcTreeSize` returns the `int64` value of the sum of the
own sizes of the subtree. -/
theorem calcTreeSize_wrap : ∀ t : Tree, (calcTreeSize t).2 = wrap64 (Tree.sumSizes t)
  | .mk addr name size refs => by
    have h := calcRefs_wrap refs
    simp only [calcTreeSize, Tree.sumSizes, h, wrap64_add_left]
    rw [add_comm]
theorem calcRefs_wrap : ∀ refs : List (String × Tree),
    (calcRefs refs).2 = wrap64 (Tree.sumSizesRefs refs)
  | [] => by simp [calcRefs, Tree.sumSizesRefs, wrap64]
  | (link, t) :: rest => by
    have h1 := calcTreeSize_wrap t
    have h2 := calcRefs_wrap rest
    simp only [calcRefs, Tree.sumSizesRefs, h1, h2, wrap64_add_left, wrap64_add_right]
end

/-- The value that the loop of lines 99-101 leaves in `size`: the children's
results added one after the other from the left, each sum cut to 64 bits. -/
theorem calcRefs_loop (refs : List (String × Tree)) :
    (calcRefs refs).2 =
      refs.foldl (fun size r => wrap64 (size + (calcTreeSize r.2).2)) 0 := by
  have key : ∀ (l : List (String × Tree)) (acc : Int),
      l.foldl (fun size r => wrap64 (size + (calcTreeSize r.2).2)) (wrap64 acc) =
        wrap64 (acc + (calcRefs l).2) := by
    intro l
    induction l with
    | nil => intro acc; simp [calcRefs]
    | cons r rest ih =>
      intro acc
      obtain ⟨link, t⟩ := r
      simp only [List.foldl_cons, calcRefs, wrap64_add_left, wrap64_add_right]
      rw [ih, add_assoc]
  have h0 : (0 : Int) = wrap64 0 := by simp [wrap64]
  have h := key refs 0
  rw [← h0, zero_add, calcRefs_wrap, wrap64_idem] at h
  rw [h, calcRefs_wrap]

/-- The value that the loop of lines 266-269 leaves in `total`. -/
theorem calcForest_loop (forest : List Tree) :
    (calcForest forest).2 =
      forest.foldl (fun total t => wrap64 (total + (calcTreeSize t).2)) 0 := by
  have hw : ∀ l : List Tree, wrap64 (calcForest l).2 = (calcForest l).2 := by
    intro l
    cases l with
    | nil => simp [calcForest, wrap64]
    | cons t rest => simp only [calcForest, wrap64_idem]
  have key : ∀ (l : List Tree) (acc : Int),
      l.foldl (fun total t => wrap64 (total + (calcTreeSize t).2)) (wrap64 acc) =
        wrap64 (acc + (calcForest l).2) := by
    intro l
    induction l with
    | nil => intro acc; simp [calcForest]
    | cons t rest ih =>
      intro acc
      simp only [List.foldl_cons, calcForest, wrap64_add_left, wrap64_add_right]
      rw [ih, add_assoc]
  have h0 : (0 : Int) = wrap64 0 := by simp [wrap64]
  have h := key forest 0
  rw [← h0, zero_add, hw] at h
  exact h.symm

mutual
/-- When no own size is negative and the own sizes of the subtree add up to
less than 2^63, no sum of `calcTreeSize` leaves the `int64` range: the result
is the tree of retained sizes and the sum of the own sizes. -/
theorem calcTreeSize_spec : ∀ t : Tree, nonnegSizes t = true → Tree.sumSizes t < 2 ^ 63 →
    calcTreeSize t = (Tree.withRetained t, Tree.sumSizes t)
  | .mk addr name size refs, hn, hb => by
    simp only [nonnegSizes, Bool.and_eq_true, decide_eq_true_eq] at hn
    have h0 := sumSizesRefs_nonneg refs hn.2
    simp only [Tree.sumSizes] at hb
    have h := calcRefs_spec refs hn.2 (by omega)
    have hw : wrap64 (Tree.sumSizesRefs refs + size) = size + Tree.sumSizesRefs refs := by
      rw [wrap64_of_range (by omega) (by omega)]
      omega
    simp only [calcTreeSize, Tree.withRetained, Tree.sumSizes, h, hw]
theorem calcRefs_spec : ∀ refs : List (String × Tree), nonnegSizesRefs refs = true →
    Tree.sumSizesRefs refs < 2 ^ 63 →
    calcRefs refs = (Tree.withRetainedRefs refs, Tree.sumSizesRefs refs)
  | [], _, _ => by simp [calcRefs, Tree.withRetainedRefs, Tree.sumSizesRefs]
  | (link, t) :: rest, hn, hb => by
    simp only [nonnegSizesRefs, Bool.and_eq_true] at hn
    have p1 := sumSizes_nonneg t hn.1
    have p2 := sumSizesRefs_nonneg rest hn.2
    simp only [Tree.sumSizesRefs] at hb
    have h1 := calcTreeSize_spec t hn.1 (by omega)
    have h2 := calcRefs_spec rest hn.2 (by omega)
    have hw : wrap64 (Tree.sumSizes t + Tree.sumSizesRefs rest) =
        Tree.sumSizes t + Tree.sumSizesRefs rest := wrap64_of_range (by omega) (by omega)
    simp only [calcRefs, Tree.withRetainedRefs, Tree.sumSizesRefs, h1, h2, hw]
end

theorem getElem?_lt {α : Type} {l : List α} {p : Nat} {a : α} (h : l[p]? = some a) :
    p < l.length := by
  by_contra hc
  rw [List.getElem?_eq_none (not_lt.mp hc)] at h
  exact Option.noConfusion h

theorem Grows.refl (s : State) : Grows s s where
  allNodes := rfl
  roots := rfl
  globals := rfl
  goroutines := rfl
  visited := fun _ h => h
  len := le_refl _
  old := fun p n h => ⟨n, h, rfl, rfl, rfl, [], by simp, by simp⟩
  fresh := fun p n1 hp h => by
    have := getElem?_lt h
    omega
  inj := fun p q n m hp _ h _ _ => by
    have := getElem?_lt h
    omega
  copy := fun p n1 hp h => by
    have := getElem?_lt h
    omega
  parent := fun hc p q1 q2 n1 n2 r1 r2 hp h1 hr1 e1 _ _ _ => by
    have := hc.refs q1 n1 r1 h1 hr1
    omega

theorem closed_of_grows {s s1 : State} (hc : Closed s) (g : Grows s s1) : Closed s1 where
  canon := fun a c h => by
    rw [g.allNodes] at h
    have := hc.canon a c h
    have := g.len
    omega
  refs := fun p n1 r hp hr => by
    by_cases hpl : p < s.mem.length
    · obtain ⟨n1', e1, _, _, _, ex, hex, hnew⟩ := g.old p _ (List.getElem?_eq_getElem hpl)
      rw [hp] at e1; cases e1
      rw [hex] at hr
      rcases List.mem_append.mp hr with hm | hm
      · have := hc.refs p _ r (List.getElem?_eq_getElem hpl) hm
        have := g.len
        omega
      · exact (hnew r hm).2
    · exact ((g.fresh p n1 (not_lt.mp hpl) hp).2.2 r hr).2

theorem Grows.trans {s s1 s2 : State} (g1 : Grows s s1) (g2 : Grows s1 s2) : Grows s s2 where
  allNodes := g2.allNodes.trans g1.allNodes
  roots := g2.roots.trans g1.roots
  globals := g2.globals.trans g1.globals
  goroutines := g2.goroutines.trans g1.goroutines
  visited := fun a h => g2.visited a (g1.visited a h)
  len := le_trans g1.len g2.len
  old := fun p n h => by
    obtain ⟨n1, h1, ha, hn, hs, ex, hr, hex⟩ := g1.old p n h
    obtain ⟨n2, h2, ha2, hn2, hs2, ex2, hr2, hex2⟩ := g2.old p n1 h1
    refine ⟨n2, h2, ha2.trans ha, hn2.trans hn, hs2.trans hs, ex ++ ex2, ?_, ?_⟩
    · rw [hr2, hr, List.append_assoc]
    · intro r hrm
      rcases List.mem_append.mp hrm with hm | hm
      · have := hex r hm; have := g2.len; omega
      · have := hex2 r hm; have := g1.len; omega
  fresh := fun p n2 hp h => by
    by_cases hlt : p < s1.mem.length
    · have hv : s1.mem[p]? = some (s1.mem[p]) := List.getElem?_eq_getElem hlt
      obtain ⟨f1, f2, f3⟩ := g1.fresh p _ hp hv
      obtain ⟨n2', h2, ha2, _, _, ex2, hr2, hex2⟩ := g2.old p _ hv
      rw [h] at h2
      cases h2
      refine ⟨ha2 ▸ g2.visited _ f1, ha2 ▸ f2, ?_⟩
      intro r hrm
      rw [hr2] at hrm
      rcases List.mem_append.mp hrm with hm | hm
      · have := f3 r hm; have := g2.len; omega
      · have := hex2 r hm; have := g1.len; omega
    · obtain ⟨f1, f2, f3⟩ := g2.fresh p n2 (not_lt.mp hlt) h
      refine ⟨f1, fun hc => f2 (g1.visited _ hc), ?_⟩
      intro r hrm
      have := f3 r hrm; have := g1.len; omega
  inj := fun p q n m hp hq h1 h2 he => by
    by_cases hpl : p < s1.mem.length <;> by_cases hql : q < s1.mem.length
    · have hv : s1.mem[p]? = some (s1.mem[p]) := List.getElem?_eq_getElem hpl
      have hw : s1.mem[q]? = some (s1.mem[q]) := List.getElem?_eq_getElem hql
      obtain ⟨n', e1, a1, _⟩ := g2.old p _ hv
      obtain ⟨m', e2, a2, _⟩ := g2.old q _ hw
      rw [h1] at e1; cases e1
      rw [h2] at e2; cases e2
      exact g1.inj p q _ _ hp hq hv hw (by rw [← a1, ← a2, he])
    · exfalso
      have hv : s1.mem[p]? = some (s1.mem[p]) := List.getElem?_eq_getElem hpl
      obtain ⟨n', e1, a1, _⟩ := g2.old p _ hv
      rw [h1] at e1; cases e1
      have f1 := (g1.fresh p _ hp hv).1
      have f2 := (g2.fresh q m (not_lt.mp hql) h2).2.1
      rw [← a1, he] at f1
      exact f2 f1
    · exfalso
      have hw : s1.mem[q]? = some (s1.mem[q]) := List.getElem?_eq_getElem hql
      obtain ⟨m', e2, a2, _⟩ := g2.old q _ hw
      rw [h2] at e2; cases e2
      have f1 := (g1.fresh q _ hq hw).1
      have f2 := (g2.fresh p n (not_lt.mp hpl) h1).2.1
      rw [← a2, ← he] at f1
      exact f2 f1
    · exact g2.inj p q n m (not_lt.mp hpl) (not_lt.mp hql) h1 h2 he
  copy := fun p n2 hp h => by
    by_cases hlt : p < s1.mem.length
    · have hv : s1.mem[p]? = some (s1.mem[p]) := List.getElem?_eq_getElem hlt
      obtain ⟨q, n, hq, ha⟩ := g1.copy p _ hp hv
      obtain ⟨n2', e2, a2, _⟩ := g2.old p _ hv
      rw [h] at e2
      cases e2
      exact ⟨q, n, hq, by rw [ha, a2]⟩
    · obtain ⟨q, n1, hq, ha⟩ := g2.copy p n2 (not_lt.mp hlt) h
      by_cases hql : q < s.mem.length
      · obtain ⟨n1', e1, a1, _⟩ := g1.old q _ (List.getElem?_eq_getElem hql)
        rw [hq] at e1
        cases e1
        exact ⟨q, _, List.getElem?_eq_getElem hql, by rw [← a1, ha]⟩
      · obtain ⟨q0, n0, hq0, ha0⟩ := g1.copy q n1 (not_lt.mp hql) hq
        exact ⟨q0, n0, hq0, by rw [ha0, ha]⟩
  parent := fun hc p q1 q2 n1 n2 r1 r2 hp h1 hr1 e1 h2 hr2 e2 => by
    have hc1 : Closed s1 := closed_of_grows hc g1
    by_cases hpl : p < s1.mem.length
    · -- the node was there after the first part: so were the two edges
      have back : ∀ (q : Nat) (n : ObjNode) (r : ObjRef), s2.mem[q]? = some n → r ∈ n.refs →
          r.node = p → ∃ n', s1.mem[q]? = some n' ∧ r ∈ n'.refs := by
        intro q n r hq hr he
        by_cases hql : q < s1.mem.length
        · obtain ⟨n', e', _, _, _, ex, hex, hexn⟩ := g2.old q _ (List.getElem?_eq_getElem hql)
          rw [hq] at e'
          cases e'
          rw [hex] at hr
          rcases List.mem_append.mp hr with hm | hm
          · exact ⟨_, List.getElem?_eq_getElem hql, hm⟩
          · have := (hexn r hm).1
            omega
        · have := ((g2.fresh q n (not_lt.mp hql) hq).2.2 r hr).1
          omega
      obtain ⟨n1', a1, b1⟩ := back q1 n1 r1 h1 hr1 e1
      obtain ⟨n2', a2, b2⟩ := back q2 n2 r2 h2 hr2 e2
      exact g1.parent hc p q1 q2 n1' n2' r1 r2 hp a1 b1 e1 a2 b2 e2
    · exact g2.parent hc1 p q1 q2 n1 n2 r1 r2 (not_lt.mp hpl) h1 hr1 e1 h2 hr2 e2

theorem grows_attachOne {s : State} {node tp : Nat} {parent target : ObjNode} (link : String)
    (hn : s.mem[node]? = some parent) (ht : s.mem[tp]? = some target)
    (hv : target.addr ∉ s.visitedNodes) :
    Grows s (attachOne s node parent target link) where
  allNodes := rfl
  roots := rfl
  globals := rfl
  goroutines := rfl
  visited := fun a h => List.mem_cons_of_mem _ h
  len := by simp [attachOne]
  old := fun p n h => by
    have hnl := getElem?_lt hn
    have hpl := getElem?_lt h
    by_cases hp : p = node
    · subst hp
      rw [hn] at h
      cases h
      refine ⟨{ parent with refs := parent.refs ++ [{ link := link, node := s.mem.length }] }, ?_, rfl,
        rfl, rfl, [{ link := link, node := s.mem.length }], rfl, ?_⟩
      · simp only [attachOne]
        rw [List.getElem?_set_self (by simp; omega)]
      · intro r hr
        rw [List.mem_singleton] at hr
        subst hr
        simp [attachOne]
    · refine ⟨n, ?_, rfl, rfl, rfl, [], by simp, by simp⟩
      simp only [attachOne]
      rw [List.getElem?_set_ne (Ne.symm hp), List.getElem?_append_left hpl, h]
  fresh := fun p n1 hp h => by
    have hnl := getElem?_lt hn
    have hne : node ≠ p := by omega
    simp only [attachOne] at h
    rw [List.getElem?_set_ne hne] at h
    have hpl := getElem?_lt h
    simp at hpl
    have hpe : p = s.mem.length := by omega
    subst hpe
    rw [List.getElem?_concat_length] at h
    cases h
    simp [attachOne, nodeCopy, hv]
  inj := fun p q n m hp hq h1 h2 _ => by
    have l1 := getElem?_lt h1
    have l2 := getElem?_lt h2
    simp [attachOne] at l1 l2
    omega
  copy := fun p n1 hp h => by
    have hnl := getElem?_lt hn
    have hne : node ≠ p := by omega
    simp only [attachOne] at h
    rw [List.getElem?_set_ne hne] at h
    have hpl := getElem?_lt h
    simp at hpl
    have hpe : p = s.mem.length := by omega
    subst hpe
    rw [List.getElem?_concat_length] at h
    cases h
    exact ⟨tp, target, ht, rfl⟩
  parent := fun hc p q1 q2 n1 n2 r1 r2 hp h1 hr1 e1 h2 hr2 e2 => by
    have hnl := getElem?_lt hn
    have key : ∀ (q : Nat) (n : ObjNode) (r : ObjRef),
        (attachOne s node parent target link).mem[q]? = some n → r ∈ n.refs → r.node = p →
        q = node := by
      intro q n r hq hr he
      by_contra hne
      simp only [attachOne] at hq
      rw [List.getElem?_set_ne (Ne.symm hne)] at hq
      by_cases hql : q < s.mem.length
      · rw [List.getElem?_append_left hql] at hq
        have := hc.refs q n r hq hr
        omega
      · have hq2 := getElem?_lt hq
        simp at hq2
        have : q = s.mem.length := by omega
        subst this
        rw [List.getElem?_concat_length] at hq
        cases hq
        simp [nodeCopy] at hr
    rw [key q1 n1 r1 h1 hr1 e1, key q2 n2 r2 h2 hr2 e2]

theorem attachRefs_nil (node : Nat) (s : State) (cn : List Nat) :
    attachRefs node [] s cn = .ok (s, cn) := rfl

theorem attachRefs_cons_skip {node : Nat} {ref : ObjRef} {rest : List ObjRef} {s : State}
    {cn : List Nat} {target : ObjNode} (ht : s.mem[ref.node]? = some target)
    (hv : target.addr ∈ s.visitedNodes) :
    attachRefs node (ref :: rest) s cn = attachRefs node rest s cn := by
  simp [attachRefs, ht, hv]

theorem attachRefs_cons_new {node : Nat} {ref : ObjRef} {rest : List ObjRef} {s : State}
    {cn : List Nat} {target parent : ObjNode} (ht : s.mem[ref.node]? = some target)
    (hv : target.addr ∉ s.visitedNodes) (hn : s.mem[node]? = some parent) :
    attachRefs node (ref :: rest) s cn =
      attachRefs node rest (attachOne s node parent target ref.link) (cn ++ [s.mem.length]) := by
  simp [attachRefs, ht, hv, hn, attachOne]

/-- The three ways one step of the inner loop can go when the loop succeeds. -/
theorem attachRefs_cons_ok {node : Nat} {ref : ObjRef} {rest : List ObjRef} {s s1 : State}
    {cn cn1 : List Nat} (h : attachRefs node (ref :: rest) s cn = .ok (s1, cn1)) :
    ∃ target, s.mem[ref.node]? = some target ∧
      ((target.addr ∈ s.visitedNodes ∧ attachRefs node rest s cn = .ok (s1, cn1)) ∨
       (target.addr ∉ s.visitedNodes ∧ ∃ parent, s.mem[node]? = some parent ∧
          attachRefs node rest (attachOne s node parent target ref.link)
            (cn ++ [s.mem.length]) = .ok (s1, cn1))) := by
  cases ht : s.mem[ref.node]? with
  | none => simp [attachRefs, ht] at h
  | some target =>
    refine ⟨target, rfl, ?_⟩
    by_cases hv : target.addr ∈ s.visitedNodes
    · left
      rw [attachRefs_cons_skip ht hv] at h
      exact ⟨hv, h⟩
    · right
      cases hn : s.mem[node]? with
      | none => simp [attachRefs, ht, hv, hn] at h
      | some parent =>
        rw [attachRefs_cons_new ht hv hn] at h
        exact ⟨hv, parent, rfl, h⟩

theorem attachRefs_grows (node : Nat) : ∀ (refs : List ObjRef) (s s1 : State) (cn cn1 : List Nat),
    attachRefs node refs s cn = .ok (s1, cn1) → Grows s s1
  | [], s, s1, cn, cn1, h => by
    rw [attachRefs_nil] at h
    cases h
    exact Grows.refl s
  | ref :: rest, s, s1, cn, cn1, h => by
    obtain ⟨target, ht, ⟨hv, hr⟩ | ⟨hv, parent, hn, hr⟩⟩ := attachRefs_cons_ok h
    · exact attachRefs_grows node rest s s1 cn cn1 hr
    · exact (grows_attachOne ref.link hn ht hv).trans
        (attachRefs_grows node rest _ s1 _ cn1 hr)

/-- The inner loop appends exactly the nodes it allocates to `cnodes`. -/
theorem attachRefs_cnodes (node : Nat) : ∀ (refs : List ObjRef) (s s1 : State)
    (cn cn1 : List Nat), attachRefs node refs s cn = .ok (s1, cn1) →
    ∃ news, cn1 = cn ++ news ∧ ∀ p, p ∈ news ↔ s.mem.length ≤ p ∧ p < s1.mem.length
  | [], s, s1, cn, cn1, h => by
    rw [attachRefs_nil] at h
    cases h
    exact ⟨[], by simp, fun p => by simp⟩
  | ref :: rest, s, s1, cn, cn1, h => by
    obtain ⟨target, ht, ⟨hv, hr⟩ | ⟨hv, parent, hn, hr⟩⟩ := attachRefs_cons_ok h
    · exact attachRefs_cnodes node rest s s1 cn cn1 hr
    · obtain ⟨news, e, hm⟩ := attachRefs_cnodes node rest _ s1 _ cn1 hr
      have hg := attachRefs_grows node rest _ s1 _ cn1 hr
      have hl : (attachOne s node parent target ref.link).mem.length = s.mem.length + 1 := by
        simp [attachOne]
      have hlen := hg.len
      refine ⟨s.mem.length :: news, by rw [e]; simp, fun p => ?_⟩
      rw [List.mem_cons, hm, hl]
      omega

/-- After the inner loop the target of every edge it went through is visited. -/
theorem attachRefs_visits (node : Nat) : ∀ (refs : List ObjRef) (s s1 : State)
    (cn cn1 : List Nat), attachRefs node refs s cn = .ok (s1, cn1) →
    ∀ r ∈ refs, ∀ t, s.mem[r.node]? = some t → t.addr ∈ s1.visitedNodes
  | [], s, s1, cn, cn1, h => by simp
  | ref :: rest, s, s1, cn, cn1, h => by
    intro r hr t hrt
    obtain ⟨target, ht, ⟨hv, hrec⟩ | ⟨hv, parent, hn, hrec⟩⟩ := attachRefs_cons_ok h
    · rcases List.mem_cons.mp hr with rfl | hr'
      · rw [ht] at hrt; cases hrt
        exact (attachRefs_grows node rest s s1 cn cn1 hrec).visited _ hv
      · exact attachRefs_visits node rest s s1 cn cn1 hrec r hr' t hrt
    · have hg1 := grows_attachOne ref.link hn ht hv
      have hg2 := attachRefs_grows node rest _ s1 _ cn1 hrec
      rcases List.mem_cons.mp hr with rfl | hr'
      · rw [ht] at hrt; cases hrt
        exact hg2.visited _ (by simp [attachOne])
      · obtain ⟨t1, ht1, ha1, _⟩ := hg1.old r.node t hrt
        have := attachRefs_visits node rest _ s1 _ cn1 hrec r hr' t1 ht1
        rwa [ha1] at this

/-- Every address the inner loop marks visited is the address of a node it
allocated. -/
theorem attachRefs_visited_new (node : Nat) : ∀ (refs : List ObjRef) (s s1 : State)
    (cn cn1 : List Nat), attachRefs node refs s cn = .ok (s1, cn1) →
    ∀ m ∈ s1.visitedNodes, m ∈ s.visitedNodes ∨
      ∃ c, s.mem.length ≤ c ∧ addrAt s1 c = some m
  | [], s, s1, cn, cn1, h => by
    rw [attachRefs_nil] at h
    cases h
    exact fun m hm => Or.inl hm
  | ref :: rest, s, s1, cn, cn1, h => by
    intro m hm
    obtain ⟨target, ht, ⟨hv, hrec⟩ | ⟨hv, parent, hn, hrec⟩⟩ := attachRefs_cons_ok h
    · exact attachRefs_visited_new node rest s s1 cn cn1 hrec m hm
    · have hg1 := grows_attachOne ref.link hn ht hv
      have hg2 := attachRefs_grows node rest _ s1 _ cn1 hrec
      rcases attachRefs_visited_new node rest _ s1 _ cn1 hrec m hm with h1 | ⟨c, hc, hca⟩
      · simp only [attachOne, List.mem_cons] at h1
        rcases h1 with rfl | h1
        · right
          refine ⟨s.mem.length, le_refl _, ?_⟩
          have hnew : (attachOne s node parent target ref.link).mem[s.mem.length]? =
              some (nodeCopy target) := by
            have hnl := getElem?_lt hn
            simp only [attachOne]
            rw [List.getElem?_set_ne (by omega), List.getElem?_concat_length]
          obtain ⟨n2, h2, a2, _⟩ := hg2.old _ _ hnew
          simp [addrAt, h2, a2, nodeCopy]
        · exact Or.inl h1
      · right
        have hl : (attachOne s node parent target ref.link).mem.length = s.mem.length + 1 := by
          simp [attachOne]
        exact ⟨c, by omega, hca⟩

theorem attachOne_new {s : State} {node : Nat} {parent target : ObjNode} (link : String)
    (hn : s.mem[node]? = some parent) :
    (attachOne s node parent target link).mem[s.mem.length]? = some (nodeCopy target) := by
  have hnl := getElem?_lt hn
  simp only [attachOne]
  rw [List.getElem?_set_ne (by omega), List.getElem?_concat_length]

theorem attachOne_parent {s : State} {node : Nat} {parent target : ObjNode} (link : String)
    (hn : s.mem[node]? = some parent) :
    (attachOne s node parent target link).mem[node]? =
      some { parent with refs := parent.refs ++ [{ link := link, node := s.mem.length }] } := by
  have hnl := getElem?_lt hn
  simp only [attachOne]
  rw [List.getElem?_set_self (by simp; omega)]

/-- Every node the inner loop allocates is a child of the frontier node, made
for the first edge of the list that leads to its address, and that address was
not visited before the loop. -/
theorem attachRefs_parent (node : Nat) : ∀ (refs : List ObjRef) (s s1 : State)
    (cn cn1 : List Nat), attachRefs node refs s cn = .ok (s1, cn1) →
    ∀ c, s.mem.length ≤ c → c < s1.mem.length →
    ∃ (b : Nat) (link : String) (nq : ObjNode) (rpre : List ObjRef) (r : ObjRef)
      (rpost : List ObjRef) (t : ObjNode),
      addrAt s1 c = some b ∧ b ∉ s.visitedNodes ∧ s1.mem[node]? = some nq ∧
      ({ link := link, node := c } : ObjRef) ∈ nq.refs ∧
      refs = rpre ++ r :: rpost ∧ r.link = link ∧ s.mem[r.node]? = some t ∧ t.addr = b ∧
      ∀ r1 ∈ rpre, ∀ t1, s.mem[r1.node]? = some t1 → t1.addr ≠ b
  | [], s, s1, cn, cn1, h => by
    rw [attachRefs_nil] at h
    cases h
    intro c h1 h2
    omega
  | ref :: rest, s, s1, cn, cn1, h => by
    intro c hc1 hc2
    obtain ⟨target, ht, ⟨hv, hrec⟩ | ⟨hv, parent, hn, hrec⟩⟩ := attachRefs_cons_ok h
    · obtain ⟨b, link, nq, rpre, r, rpost, t, h1, h2, h3, h4, h5, h6, h7, h8, h9⟩ :=
        attachRefs_parent node rest s s1 cn cn1 hrec c hc1 hc2
      refine ⟨b, link, nq, ref :: rpre, r, rpost, t, h1, h2, h3, h4, by rw [h5]; rfl, h6, h7,
        h8, ?_⟩
      intro r1 hr1 t1 ht1
      rcases List.mem_cons.mp hr1 with rfl | hr1
      · rw [ht] at ht1; cases ht1
        intro hb; exact h2 (hb ▸ hv)
      · exact h9 r1 hr1 t1 ht1
    · have hg1 := grows_attachOne ref.link hn ht hv
      have hg2 := attachRefs_grows node rest _ s1 _ cn1 hrec
      have hl : (attachOne s node parent target ref.link).mem.length = s.mem.length + 1 := by
        simp [attachOne]
      by_cases hce : c = s.mem.length
      · subst hce
        obtain ⟨n2, e2, a2, _⟩ := hg2.old _ _ (@attachOne_new s node parent target ref.link hn)
        obtain ⟨nq, e3, _, _, _, ex, hex, _⟩ :=
          hg2.old _ _ (@attachOne_parent s node parent target ref.link hn)
        refine ⟨target.addr, ref.link, nq, [], ref, rest, target, ?_, hv, e3, ?_, rfl, rfl, ht,
          rfl, by simp⟩
        · simp [addrAt, e2, a2, nodeCopy]
        · rw [hex]; simp
      · obtain ⟨b, link, nq, rpre, r, rpost, t, h1, h2, h3, h4, h5, h6, h7, h8, h9⟩ :=
          attachRefs_parent node rest _ s1 _ cn1 hrec c (by omega) hc2
        have hbt : b ≠ target.addr := by
          intro hb; apply h2; rw [hb]; simp [attachOne]
        have hbs : b ∉ s.visitedNodes := fun hb => h2 (hg1.visited _ hb)
        have hrl : r.node < s.mem.length := by
          have := getElem?_lt h7
          rw [hl] at this
          rcases Nat.lt_succ_iff_lt_or_eq.mp this with hlt | heq
          · exact hlt
          · exfalso
            rw [heq, attachOne_new ref.link hn] at h7
            cases h7
            exact hbt (by rw [← h8]; rfl)
        obtain ⟨t0, e0, a0, _⟩ := hg1.old r.node _ (List.getElem?_eq_getElem hrl)
        rw [h7] at e0; cases e0
        refine ⟨b, link, nq, ref :: rpre, r, rpost, _, h1, hbs, h3, h4, by rw [h5]; rfl, h6,
          List.getElem?_eq_getElem hrl, by rw [← a0, h8], ?_⟩
        intro r1 hr1 t1 ht1
        rcases List.mem_cons.mp hr1 with rfl | hr1
        · rw [ht] at ht1; cases ht1
          exact fun hb => hbt hb.symm
        · obtain ⟨t2, e2, a2, _⟩ := hg1.old r1.node t1 ht1
          have := h9 r1 hr1 t2 e2
          rwa [a2] at this

theorem mem_edgesOf {s : State} {a : Nat} {e : String × Nat} :
    e ∈ edgesOf s a ↔ ∃ c cn r t, s.allNodes.lookup a = some c ∧ s.mem[c]? = some cn ∧
      r ∈ cn.refs ∧ s.mem[r.node]? = some t ∧ e = (r.link, t.addr) := by
  unfold edgesOf
  constructor
  · intro h
    cases hl : s.allNodes.lookup a with
    | none => simp [hl] at h
    | some c =>
      cases hm : s.mem[c]? with
      | none => simp [hl, hm] at h
      | some cn =>
        simp only [hl, hm, List.mem_filterMap] at h
        obtain ⟨r, hr, hre⟩ := h
        cases ht : s.mem[r.node]? with
        | none => simp [ht] at hre
        | some t =>
          simp [ht] at hre
          exact ⟨c, cn, r, t, rfl, hm, hr, ht, hre.symm⟩
  · rintro ⟨c, cn, r, t, hl, hm, hr, ht, rfl⟩
    simp only [hl, hm, List.mem_filterMap]
    exact ⟨r, hr, by simp [ht]⟩

theorem addrAt_grows {s s1 : State} (g : Grows s s1) {p a : Nat} (h : addrAt s p = some a) :
    addrAt s1 p = some a := by
  unfold addrAt at h ⊢
  cases hm : s.mem[p]? with
  | none => simp [hm] at h
  | some n =>
    obtain ⟨n1, e1, a1, _⟩ := g.old p n hm
    simp [hm] at h
    simp [e1, a1, h]

theorem edgesOf_mono {s s1 : State} (g : Grows s s1) {a : Nat} {e : String × Nat}
    (h : e ∈ edgesOf s a) : e ∈ edgesOf s1 a := by
  rw [mem_edgesOf] at h ⊢
  obtain ⟨c, cn, r, t, hl, hm, hr, ht, he⟩ := h
  obtain ⟨cn1, e1, _, _, _, ex, hex, _⟩ := g.old c cn hm
  obtain ⟨t1, e2, a2, _⟩ := g.old r.node t ht
  exact ⟨c, cn1, r, t1, by rw [g.allNodes]; exact hl, e1, by rw [hex]; simp [hr], e2,
    by rw [he, a2]⟩

/-- In a closed store the edges that leave an address keep their order; what
tree building appends leads to addresses it has visited itself. -/
theorem edgesOf_grows {s s1 : State} (hc : Closed s) (g : Grows s s1) (a : Nat) :
    ∃ ex, edgesOf s1 a = edgesOf s a ++ ex ∧
      ∀ e ∈ ex, e.2 ∈ s1.visitedNodes ∧ e.2 ∉ s.visitedNodes := by
  unfold edgesOf
  rw [g.allNodes]
  cases hl : s.allNodes.lookup a with
  | none => exact ⟨[], by simp, by simp⟩
  | some c =>
    have hcl := hc.canon a c hl
    have hm : s.mem[c]? = some (s.mem[c]) := List.getElem?_eq_getElem hcl
    obtain ⟨cn1, e1, _, _, _, ex, hex, hnew⟩ := g.old c _ hm
    simp only [hm, e1, hex, List.filterMap_append]
    refine ⟨List.filterMap (fun r => Option.map (fun t => (r.link, t.addr)) s1.mem[r.node]?) ex,
      ?_, ?_⟩
    · congr 1
      apply List.filterMap_congr
      intro r hr
      have hrl := hc.refs c _ r hm hr
      have ht : s.mem[r.node]? = some (s.mem[r.node]) := List.getElem?_eq_getElem hrl
      obtain ⟨t1, e2, a2, _⟩ := g.old r.node _ ht
      simp [ht, e2, a2]
    · intro e he
      rw [List.mem_filterMap] at he
      obtain ⟨r, hr, hre⟩ := he
      cases ht : s1.mem[r.node]? with
      | none => simp [ht] at hre
      | some t =>
        simp [ht] at hre
        obtain ⟨f1, f2, _⟩ := g.fresh r.node t (hnew r hr).1 ht
        rw [← hre]
        exact ⟨f1, f2⟩

theorem FirstEdge.of_append {l ex : List (String × Nat)} {link : String} {b : Nat}
    (h : FirstEdge (l ++ ex) link b) (hex : ∀ e ∈ ex, e.2 ≠ b) : FirstEdge l link b := by
  obtain ⟨pre, post, he, hpre⟩ := h
  rcases List.append_eq_append_iff.mp he with ⟨a1, h1, h2⟩ | ⟨c1, h1, h2⟩
  · exact absurd rfl (hex (link, b) (by rw [h2]; simp))
  · cases c1 with
    | nil =>
      simp at h2
      exact absurd rfl (hex (link, b) (by rw [← h2]; simp))
    | cons x c2 =>
      simp at h2
      obtain ⟨rfl, _⟩ := h2
      exact ⟨pre, c2, h1, hpre⟩

theorem expandNodes_nil (s : State) (cn : List Nat) : expandNodes [] s cn = .ok (s, cn) := rfl

/-- What a successful step of the outer loop went through. -/
theorem expandNodes_cons_ok {q : Nat} {rest : List Nat} {s s2 : State} {cn cn2 : List Nat}
    (h : expandNodes (q :: rest) s cn = .ok (s2, cn2)) :
    ∃ (n : ObjNode) (c : Nat) (cnode : ObjNode) (s1 : State) (cn1 : List Nat),
      s.mem[q]? = some n ∧ n.addr ∈ s.visitedNodes ∧ s.allNodes.lookup n.addr = some c ∧
      s.mem[c]? = some cnode ∧ attachRefs q cnode.refs s cn = .ok (s1, cn1) ∧
      expandNodes rest s1 cn1 = .ok (s2, cn2) := by
  cases hq : s.mem[q]? with
  | none => simp [expandNodes, hq] at h
  | some n =>
    by_cases hv : n.addr ∈ s.visitedNodes
    · cases hl : s.allNodes.lookup n.addr with
      | none => simp [expandNodes, hq, hv, hl] at h
      | some c =>
        cases hc : s.mem[c]? with
        | none => simp [expandNodes, hq, hv, hl, hc] at h
        | some cnode =>
          cases ha : attachRefs q cnode.refs s cn with
          | error e => simp [expandNodes, hq, hv, hl, hc, ha] at h
          | ok r =>
            obtain ⟨s1, cn1⟩ := r
            simp [expandNodes, hq, hv, hl, hc, ha] at h
            exact ⟨n, c, cnode, s1, cn1, rfl, hv, hl, hc, ha, h⟩
    · simp [expandNodes, hq, hv] at h

theorem expandNodes_grows : ∀ (f : List Nat) (s s2 : State) (cn cn2 : List Nat),
    expandNodes f s cn = .ok (s2, cn2) → Grows s s2
  | [], s, s2, cn, cn2, h => by
    rw [expandNodes_nil] at h
    cases h
    exact Grows.refl s
  | q :: rest, s, s2, cn, cn2, h => by
    obtain ⟨n, c, cnode, s1, cn1, _, _, _, _, ha, hr⟩ := expandNodes_cons_ok h
    exact (attachRefs_grows q _ s s1 cn cn1 ha).trans (expandNodes_grows rest s1 s2 cn1 cn2 hr)

/-- The outer loop appends exactly the nodes it allocates to `cnodes`. -/
theorem expandNodes_cnodes : ∀ (f : List Nat) (s s2 : State) (cn cn2 : List Nat),
    expandNodes f s cn = .ok (s2, cn2) →
    ∃ news, cn2 = cn ++ news ∧ ∀ p, p ∈ news ↔ s.mem.length ≤ p ∧ p < s2.mem.length
  | [], s, s2, cn, cn2, h => by
    rw [expandNodes_nil] at h
    cases h
    exact ⟨[], by simp, fun p => by simp⟩
  | q :: rest, s, s2, cn, cn2, h => by
    obtain ⟨n, c, cnode, s1, cn1, _, _, _, _, ha, hr⟩ := expandNodes_cons_ok h
    obtain ⟨n1, e1, m1⟩ := attachRefs_cnodes q _ s s1 cn cn1 ha
    obtain ⟨n2, e2, m2⟩ := expandNodes_cnodes rest s1 s2 cn1 cn2 hr
    have l1 := (attachRefs_grows q _ s s1 cn cn1 ha).len
    have l2 := (expandNodes_grows rest s1 s2 cn1 cn2 hr).len
    refine ⟨n1 ++ n2, by rw [e2, e1, List.append_assoc], fun p => ?_⟩
    rw [List.mem_append, m1, m2]
    omega

/-- After the outer loop the target of every edge that leaves the address of a
frontier node is visited. -/
theorem expandNodes_visits : ∀ (f : List Nat) (s s2 : State) (cn cn2 : List Nat),
    expandNodes f s cn = .ok (s2, cn2) →
    ∀ q ∈ f, ∀ a, addrAt s q = some a → ∀ e ∈ edgesOf s a, e.2 ∈ s2.visitedNodes
  | [], s, s2, cn, cn2, h => by simp
  | q0 :: rest, s, s2, cn, cn2, h => by
    intro q hq a ha e he
    obtain ⟨n, c, cnode, s1, cn1, hn, _, hl, hc, hat, hr⟩ := expandNodes_cons_ok h
    have g1 := attachRefs_grows q0 _ s s1 cn cn1 hat
    have g2 := expandNodes_grows rest s1 s2 cn1 cn2 hr
    rcases List.mem_cons.mp hq with rfl | hq'
    · simp [addrAt, hn] at ha
      subst ha
      rw [mem_edgesOf] at he
      obtain ⟨c', cn', r, t, hl', hm', hr', ht', rfl⟩ := he
      rw [hl] at hl'; cases hl'
      rw [hc] at hm'; cases hm'
      exact g2.visited _ (attachRefs_visits q _ s s1 cn cn1 hat r hr' t ht')
    · exact expandNodes_visits rest s1 s2 cn1 cn2 hr q hq' a (addrAt_grows g1 ha) e
        (edgesOf_mono g1 he)

/-- Every address the outer loop marks visited is the address of a node it
allocated. -/
theorem expandNodes_visited_new : ∀ (f : List Nat) (s s2 : State) (cn cn2 : List Nat),
    expandNodes f s cn = .ok (s2, cn2) →
    ∀ m ∈ s2.visitedNodes, m ∈ s.visitedNodes ∨
      ∃ c, s.mem.length ≤ c ∧ addrAt s2 c = some m
  | [], s, s2, cn, cn2, h => by
    rw [expandNodes_nil] at h
    cases h
    exact fun m hm => Or.inl hm
  | q0 :: rest, s, s2, cn, cn2, h => by
    intro m hm
    obtain ⟨n, c, cnode, s1, cn1, hn, _, hl, hc, hat, hr⟩ := expandNodes_cons_ok h
    have g1 := attachRefs_grows q0 _ s s1 cn cn1 hat
    have g2 := expandNodes_grows rest s1 s2 cn1 cn2 hr
    rcases expandNodes_visited_new rest s1 s2 cn1 cn2 hr m hm with h1 | ⟨c1, hc1, hca⟩
    · rcases attachRefs_visited_new q0 _ s s1 cn cn1 hat m h1 with h0 | ⟨c0, hc0, hca0⟩
      · exact Or.inl h0
      · exact Or.inr ⟨c0, hc0, addrAt_grows g2 hca0⟩
    · exact Or.inr ⟨c1, le_trans g1.len hc1, hca⟩

theorem addrAt_of_grows_lt {s s1 : State} (g : Grows s s1) {p a : Nat} (hp : p < s.mem.length)
    (h : addrAt s1 p = some a) : addrAt s p = some a := by
  obtain ⟨n1, e1, a1, _⟩ := g.old p _ (List.getElem?_eq_getElem hp)
  simp only [addrAt, e1, Option.map_some'] at h
  simp only [addrAt, List.getElem?_eq_getElem hp, Option.map_some']
  rw [← a1]
  exact h

/-- Every node the outer loop allocates is a child of a frontier node: the
first one in frontier order that has an edge to its address, by the first such
edge of that node; and that address was not visited before the loop. -/
theorem expandNodes_parent : ∀ (f : List Nat) (s s2 : State) (cn cn2 : List Nat),
    Closed s → (∀ q ∈ f, q < s.mem.length) → expandNodes f s cn = .ok (s2, cn2) →
    ∀ c, s.mem.length ≤ c → c < s2.mem.length →
    ∃ (b : Nat) (link : String) (pre : List Nat) (q : Nat) (post : List Nat) (nq : ObjNode)
      (aq : Nat),
      addrAt s2 c = some b ∧ b ∉ s.visitedNodes ∧ f = pre ++ q :: post ∧
      s2.mem[q]? = some nq ∧ ({ link := link, node := c } : ObjRef) ∈ nq.refs ∧
      addrAt s q = some aq ∧ FirstEdge (edgesOf s aq) link b ∧
      ∀ q1 ∈ pre, ∀ a1, addrAt s q1 = some a1 → ∀ e ∈ edgesOf s a1, e.2 ≠ b
  | [], s, s2, cn, cn2, _, _, h => by
    rw [expandNodes_nil] at h
    cases h
    intro c h1 h2
    omega
  | q0 :: rest, s, s2, cn, cn2, hcl, hval, h => by
    intro c hc1 hc2
    obtain ⟨n, c0, cnode, s1, cn1, hn, _, hl, hc, hat, hr⟩ := expandNodes_cons_ok h
    have g1 := attachRefs_grows q0 _ s s1 cn cn1 hat
    have g2 := expandNodes_grows rest s1 s2 cn1 cn2 hr
    have hq0a : addrAt s q0 = some n.addr := by simp [addrAt, hn]
    have hhead : ∀ e ∈ edgesOf s n.addr, e.2 ∈ s1.visitedNodes := by
      intro e he
      rw [mem_edgesOf] at he
      obtain ⟨c', cn', r, t, hl', hm', hr', ht', rfl⟩ := he
      rw [hl] at hl'; cases hl'
      rw [hc] at hm'; cases hm'
      exact attachRefs_visits q0 _ s s1 cn cn1 hat r hr' t ht'
    by_cases hlt : c < s1.mem.length
    · obtain ⟨b, link, nq, rpre, r, rpost, t, h1, h2, h3, h4, h5, h6, h7, h8, h9⟩ :=
        attachRefs_parent q0 _ s s1 cn cn1 hat c hc1 hlt
      obtain ⟨nq2, e2, _, _, _, ex, hex, _⟩ := g2.old q0 nq h3
      refine ⟨b, link, [], q0, rest, nq2, n.addr, addrAt_grows g2 h1, h2, rfl, e2,
        by rw [hex]; simp [h4], hq0a, ?_, by simp⟩
      refine ⟨rpre.filterMap (fun r => (s.mem[r.node]?).map (fun t => (r.link, t.addr))),
        rpost.filterMap (fun r => (s.mem[r.node]?).map (fun t => (r.link, t.addr))), ?_, ?_⟩
      · unfold edgesOf
        simp only [hl, hc, h5, List.filterMap_append, List.filterMap_cons, h7, Option.map_some',
          h6, h8]
      · intro e he
        rw [List.mem_filterMap] at he
        obtain ⟨r1, hr1, hre⟩ := he
        cases ht1 : s.mem[r1.node]? with
        | none => simp [ht1] at hre
        | some t1 =>
          simp [ht1] at hre
          rw [← hre]
          exact h9 r1 hr1 t1 ht1
    · have hval1 : ∀ q ∈ rest, q < s1.mem.length := fun q hq =>
        lt_of_lt_of_le (hval q (List.mem_cons_of_mem _ hq)) g1.len
      obtain ⟨b, link, pre, q, post, nq, aq, h1, h2, h3, h4, h5, h6, h7, h8⟩ :=
        expandNodes_parent rest s1 s2 cn1 cn2 (closed_of_grows hcl g1) hval1 hr c (not_lt.mp hlt) hc2
      have hqv : q < s.mem.length := hval q (by rw [h3]; simp)
      obtain ⟨ex, hex, hexv⟩ := edgesOf_grows hcl g1 aq
      refine ⟨b, link, q0 :: pre, q, post, nq, aq, h1, fun hb => h2 (g1.visited _ hb),
        by rw [h3]; rfl, h4, h5, addrAt_of_grows_lt g1 hqv h6, ?_, ?_⟩
      · rw [hex] at h7
        exact h7.of_append (fun e he hb => h2 (hb ▸ (hexv e he).1))
      · intro q1 hq1 a1 ha1 e he
        rcases List.mem_cons.mp hq1 with rfl | hq1
        · rw [hq0a] at ha1; cases ha1
          exact fun hb => h2 (hb ▸ hhead e he)
        · exact h8 q1 hq1 a1 (addrAt_grows g1 ha1) e (edgesOf_mono g1 he)

theorem pathLen_last {st : State} {avoid : List Nat} {k a m : Nat}
    (h : PathLen st avoid k a m) : (k = 0 ∧ m = a) ∨ m ∉ avoid := by
  cases h with
  | zero => exact Or.inl ⟨rfl, rfl⟩
  | snoc _ _ hb => exact Or.inr hb

theorem inTree_of_grows {s s1 : State} (g : Grows s s1) {q p : Nat} (h : InTree s q p) :
    InTree s1 q p := by
  induction h with
  | self => exact InTree.self q
  | child _ hm hr ih =>
    obtain ⟨n1, e1, _, _, _, ex, hex, _⟩ := g.old _ _ hm
    exact InTree.child ih e1 (by rw [hex]; simp [hr])

theorem treeDepth_of_grows {s s1 : State} (g : Grows s s1) {base d p : Nat} {nodes : List Nat}
    (h : TreeDepth s base nodes d p) : TreeDepth s1 base nodes d p := by
  induction h with
  | root hq => exact TreeDepth.root hq
  | child _ hm hr hb ih =>
    obtain ⟨n1, e1, _, _, _, ex, hex, _⟩ := g.old _ _ hm
    exact TreeDepth.child ih e1 (by rw [hex]; exact List.mem_append_left _ hr) hb

theorem attachedAt_of_grows {st0 : State} {nodes : List Nat} {s s3 : State} (g : Grows s s3)
    {p : Nat} (h : AttachedAt st0 nodes s p) : AttachedAt st0 nodes s3 p := by
  obtain ⟨d, s1, s2, f1, f2, pre, post, q, b, aq, link, nq, h1, h2, h3, hd, h4, h5, h6, h7, h8,
    h9, h10, h11, h12⟩ := h
  obtain ⟨nq3, e3, _, _, _, ex, hex, _⟩ := g.old q nq h5
  exact ⟨d, s1, s2, f1, f2, pre, post, q, b, aq, link, nq3, h1, h2, h3, treeDepth_of_grows g hd,
    h4, e3, by rw [hex]; simp [h6], addrAt_grows g h7, h8, h9, h10, h11, h12⟩

theorem addrAt_lt {s : State} {p a : Nat} (h : addrAt s p = some a) : p < s.mem.length := by
  unfold addrAt at h
  cases hm : s.mem[p]? with
  | none => simp [hm] at h
  | some n => exact getElem?_lt hm

theorem layerInv_zero (st0 : State) (nodes : List Nat)
    (hroots : ∀ q ∈ nodes, ∃ a, addrAt st0 q = some a ∧ a ∈ st0.visitedNodes) :
    LayerInv st0 nodes 0 st0 nodes where
  grows := Grows.refl st0
  valid := fun q hq => by
    obtain ⟨a, ha, _⟩ := hroots q hq
    exact addrAt_lt ha
  reach := fun p hp => by
    obtain ⟨a, ha, _⟩ := hroots p hp
    exact ⟨a, ha, p, hp, a, ha, PathLen.zero a⟩
  depth := fun p hp => TreeDepth.root hp
  near := fun k hk b hb => by
    obtain ⟨q, hq, a, ha, hpath⟩ := hb
    have hk0 : k = 0 := by omega
    subst hk0
    cases hpath
    obtain ⟨a', ha', hv⟩ := hroots q hq
    rw [ha] at ha'; cases ha'
    exact hv
  expanded := fun a ha => by
    rcases ha with h | ⟨h1, h2⟩
    · exact Or.inl h
    · exact absurd h1 h2
  node := fun a h1 h2 => absurd h1 h2
  attached := fun p h1 h2 => by omega
  tree := fun p hp => by
    rcases hp with h | ⟨h1, h2⟩
    · exact ⟨p, h, InTree.self p⟩
    · omega

theorem layerInv_step {st0 : State} {nodes : List Nat} {d : Nat} {s s1 : State}
    {f f1 : List Nat} (hc : Closed st0) (hL : Layer st0 nodes d s f)
    (inv : LayerInv st0 nodes d s f) (he : expandNodes f s [] = .ok (s1, f1)) :
    LayerInv st0 nodes (d + 1) s1 f1 := by
  have g := expandNodes_grows f s s1 [] f1 he
  have hcs : Closed s := closed_of_grows hc inv.grows
  have hmem : ∀ p, p ∈ f1 ↔ s.mem.length ≤ p ∧ p < s1.mem.length := by
    obtain ⟨news, e, hm⟩ := expandNodes_cnodes f s s1 [] f1 he
    simp at e
    rw [e]
    exact hm
  -- what is known about a node allocated in this layer
  have hnew : ∀ p, p ∈ f1 →
      ∃ (b : Nat) (link : String) (pre : List Nat) (q : Nat) (post : List Nat) (nq : ObjNode)
        (aq : Nat),
        addrAt s1 p = some b ∧ b ∉ s.visitedNodes ∧ f = pre ++ q :: post ∧
        s1.mem[q]? = some nq ∧ ({ link := link, node := p } : ObjRef) ∈ nq.refs ∧
        addrAt s q = some aq ∧ FirstEdge (edgesOf st0 aq) link b ∧
        (∀ q1 ∈ pre, ∀ a1, addrAt s q1 = some a1 → ∀ e ∈ edgesOf st0 a1, e.2 ≠ b) ∧
        ReachIn st0 st0.visitedNodes nodes (d + 1) b ∧
        (∀ k, ReachIn st0 st0.visitedNodes nodes k b → d + 1 ≤ k) ∧
        TreeDepth s1 st0.mem.length nodes (d + 1) p := by
    intro p hp
    obtain ⟨hp1, hp2⟩ := (hmem p).mp hp
    obtain ⟨b, link, pre, q, post, nq, aq, h1, h2, h3, h4, h5, h6, h7, h8⟩ :=
      expandNodes_parent f s s1 [] f1 hcs inv.valid he p hp1 hp2
    obtain ⟨ex, hex, hexv⟩ := edgesOf_grows hc inv.grows aq
    have hfirst : FirstEdge (edgesOf st0 aq) link b := by
      rw [hex] at h7
      exact h7.of_append (fun e he hb => h2 (hb ▸ (hexv e he).1))
    have hedge : (link, b) ∈ edgesOf st0 aq := by
      obtain ⟨pre', post', e', _⟩ := hfirst
      rw [e']; simp
    have hb0 : b ∉ st0.visitedNodes := fun hb => h2 (inv.grows.visited _ hb)
    have hq : q ∈ f := by rw [h3]; simp
    obtain ⟨b', hb', q0, hq0, a0, ha0, hpath⟩ := inv.reach q hq
    rw [h6] at hb'; cases hb'
    refine ⟨b, link, pre, q, post, nq, aq, h1, h2, h3, h4, h5, h6, hfirst, ?_,
      ⟨q0, hq0, a0, ha0, PathLen.snoc hpath hedge hb0⟩, ?_, ?_⟩
    · intro q1 hq1 a1 ha1 e he
      exact h8 q1 hq1 a1 ha1 e (edgesOf_mono inv.grows he)
    · intro k hk
      by_contra hlt
      exact h2 (inv.near k (by omega) b hk)
    · exact TreeDepth.child (treeDepth_of_grows g (inv.depth q hq)) h4 h5
        (le_trans inv.grows.len hp1)
  refine ⟨inv.grows.trans g, fun q hq => ((hmem q).mp hq).2, ?_, ?_, ?_, ?_, ?_, ?_, ?_⟩
  · intro p hp
    obtain ⟨b, _, _, _, _, _, _, h1, _, _, _, _, _, _, _, h9, _⟩ := hnew p hp
    exact ⟨b, h1, h9⟩
  · intro p hp
    obtain ⟨b, _, _, _, _, _, _, _, _, _, _, _, _, _, _, _, _, h11⟩ := hnew p hp
    exact h11
  · intro k hk b hb
    by_cases hkd : k ≤ d
    · exact g.visited _ (inv.near k hkd b hb)
    · have hk1 : k = d + 1 := by omega
      subst hk1
      obtain ⟨q0, hq0, a0, ha0, hpath⟩ := hb
      cases hpath with
      | snoc hp hedge hb0 =>
        rename_i m link
        have hm : m ∈ s.visitedNodes := inv.near d le_rfl m ⟨q0, hq0, a0, ha0, hp⟩
        have hpre : (∃ q ∈ nodes, addrAt st0 q = some m) ∨
            (m ∈ s.visitedNodes ∧ m ∉ st0.visitedNodes) := by
          rcases pathLen_last hp with ⟨_, rfl⟩ | hnv
          · exact Or.inl ⟨q0, hq0, ha0⟩
          · exact Or.inr ⟨hm, hnv⟩
        rcases inv.expanded m hpre with ⟨q, hq, hqa⟩ | hall
        · exact expandNodes_visits f s s1 [] f1 he q hq m hqa _ (edgesOf_mono inv.grows hedge)
        · exact g.visited _ (hall _ hedge)
  · intro a ha
    by_cases hs : (∃ q ∈ nodes, addrAt st0 q = some a) ∨
        (a ∈ s.visitedNodes ∧ a ∉ st0.visitedNodes)
    · right
      intro e hedge
      rcases inv.expanded a hs with ⟨q, hq, hqa⟩ | hall
      · exact expandNodes_visits f s s1 [] f1 he q hq a hqa e (edgesOf_mono inv.grows hedge)
      · exact g.visited _ (hall e hedge)
    · left
      push_neg at hs
      rcases ha with hr | ⟨hv1, hv0⟩
      · exact absurd hr (by
          intro ⟨q, hq, hqa⟩
          exact (hs.1 q hq) hqa)
      · have hns : a ∉ s.visitedNodes := fun h => hv0 (hs.2 h)
        rcases expandNodes_visited_new f s s1 [] f1 he a hv1 with h | ⟨c, hc1, hca⟩
        · exact absurd h hns
        · exact ⟨c, (hmem c).mpr ⟨hc1, addrAt_lt hca⟩, hca⟩
  · intro a hv1 hv0
    rcases expandNodes_visited_new f s s1 [] f1 he a hv1 with h | ⟨c, hc1, hca⟩
    · obtain ⟨c, hc1, hca⟩ := inv.node a h hv0
      exact ⟨c, hc1, addrAt_grows g hca⟩
    · exact ⟨c, le_trans inv.grows.len hc1, hca⟩
  · intro p hp1 hp2
    by_cases hlt : p < s.mem.length
    · exact attachedAt_of_grows g (inv.attached p hp1 hlt)
    · have hp : p ∈ f1 := (hmem p).mpr ⟨not_lt.mp hlt, hp2⟩
      obtain ⟨b, link, pre, q, post, nq, aq, h1, h2, h3, h4, h5, h6, h7, h8, h9, h10, h11⟩ :=
        hnew p hp
      exact ⟨d, s, s1, f, f1, pre, post, q, b, aq, link, nq, hL, he, hp, h11, h3, h4, h5, h1,
        h6, h9, h10, h8, h7⟩
  · intro p hp
    by_cases hlt : p < s.mem.length
    · have hp0 : st0.mem.length ≤ p ∧ p < s.mem.length := by
        rcases hp with h | ⟨h1, _⟩
        · have := ((hmem p).mp h).1
          omega
        · exact ⟨h1, hlt⟩
      obtain ⟨q, hq, ht⟩ := inv.tree p (Or.inr hp0)
      exact ⟨q, hq, inTree_of_grows g ht⟩
    · have hp' : p ∈ f1 := by
        rcases hp with h | ⟨_, h2⟩
        · exact h
        · exact (hmem p).mpr ⟨not_lt.mp hlt, h2⟩
      obtain ⟨b, link, pre, q, post, nq, aq, h1, h2, h3, h4, h5, _⟩ := hnew p hp'
      obtain ⟨q0, hq0, ht⟩ := inv.tree q (Or.inl (by rw [h3]; simp))
      exact ⟨q0, hq0, InTree.child (inTree_of_grows g ht) h4 h5⟩

/-- What a successful call of `genUniqueRefTree` with fuel went through. -/
theorem genUniqueRefTree_succ_ok {fuel : Nat} {s sF : State} {f : List Nat}
    (h : genUniqueRefTree (fuel + 1) s f = .ok sF) :
    ∃ s1 f1, expandNodes f s [] = .ok (s1, f1) ∧
      ((f1 ≠ [] ∧ genUniqueRefTree fuel s1 f1 = .ok sF) ∨ (f1 = [] ∧ sF = s1)) := by
  cases he : expandNodes f s [] with
  | error e => simp [genUniqueRefTree, he] at h
  | ok r =>
    obtain ⟨s1, f1⟩ := r
    refine ⟨s1, f1, rfl, ?_⟩
    simp only [genUniqueRefTree, he] at h
    by_cases hl : f1.length > 0
    · left
      rw [if_pos hl] at h
      exact ⟨fun hn => by simp [hn] at hl, h⟩
    · right
      rw [if_neg hl] at h
      cases h
      exact ⟨by
        cases f1 with
        | nil => rfl
        | cons x xs => simp at hl, rfl⟩

theorem genUniqueRefTree_grows : ∀ (fuel : Nat) (s sF : State) (f : List Nat),
    genUniqueRefTree fuel s f = .ok sF → Grows s sF
  | 0, s, sF, f, h => by simp [genUniqueRefTree] at h
  | fuel + 1, s, sF, f, h => by
    obtain ⟨s1, f1, he, ⟨_, hr⟩ | ⟨_, rfl⟩⟩ := genUniqueRefTree_succ_ok h
    · exact (expandNodes_grows f s s1 [] f1 he).trans (genUniqueRefTree_grows fuel s1 sF f1 hr)
    · exact expandNodes_grows f s sF [] f1 he

/-- A pass that returns ends with an empty frontier, and the invariant of the
layers holds there. -/
theorem genUniqueRefTree_inv {st0 : State} {nodes : List Nat} (hc : Closed st0) :
    ∀ (fuel d : Nat) (s sF : State) (f : List Nat), Layer st0 nodes d s f →
      LayerInv st0 nodes d s f → genUniqueRefTree fuel s f = .ok sF →
      ∃ D, LayerInv st0 nodes D sF []
  | 0, d, s, sF, f, _, _, h => by simp [genUniqueRefTree] at h
  | fuel + 1, d, s, sF, f, hL, inv, h => by
    obtain ⟨s1, f1, he, ⟨hne, hr⟩ | ⟨rfl, rfl⟩⟩ := genUniqueRefTree_succ_ok h
    · exact genUniqueRefTree_inv hc fuel (d + 1) s1 sF f1 (Layer.succ hL he hne)
        (layerInv_step hc hL inv he) hr
    · exact ⟨d + 1, layerInv_step hc hL inv he⟩

theorem genUniqueRefTree_final {st0 sF : State} {nodes : List Nat} {fuel : Nat} (hc : Closed st0)
    (hroots : ∀ q ∈ nodes, ∃ a, addrAt st0 q = some a ∧ a ∈ st0.visitedNodes)
    (hrun : genUniqueRefTree fuel st0 nodes = .ok sF) : ∃ D, LayerInv st0 nodes D sF [] :=
  genUniqueRefTree_inv hc fuel 0 st0 sF nodes Layer.zero (layerInv_zero st0 nodes hroots) hrun

/-- When a pass has returned, every address reached from a root on a path that
avoids the addresses visited before the pass is visited. -/
theorem reach_visited {st0 sF : State} {nodes : List Nat} {D : Nat}
    (inv : LayerInv st0 nodes D sF [])
    (hroots : ∀ q ∈ nodes, ∃ a, addrAt st0 q = some a ∧ a ∈ st0.visitedNodes)
    {q0 a0 : Nat} (hq0 : q0 ∈ nodes) (ha0 : addrAt st0 q0 = some a0) :
    ∀ {k b : Nat}, PathLen st0 st0.visitedNodes k a0 b → b ∈ sF.visitedNodes := by
  intro k b hp
  induction hp with
  | zero =>
    obtain ⟨a, ha, hv⟩ := hroots q0 hq0
    rw [ha0] at ha; cases ha
    exact inv.grows.visited _ hv
  | snoc hp hedge hb ih =>
    have hpre := pathLen_last hp
    have := inv.expanded _ (by
      rcases hpre with ⟨_, rfl⟩ | hnv
      · exact Or.inl ⟨q0, hq0, ha0⟩
      · exact Or.inr ⟨ih ha0, hnv⟩)
    rcases this with ⟨q, hq, _⟩ | hall
    · simp at hq
    · exact hall _ hedge

/-- Replacing a node by one with the same address and children keeps the
ingestion invariant. -/
theorem IngestWF.set_same {st : State} (h : IngestWF st) {p : Nat} {node node1 : ObjNode}
    (hp : st.mem[p]? = some node) (ha : node1.addr = node.addr) (hr : node1.refs = node.refs)
    (err : List String) : IngestWF { st with mem := st.mem.set p node1, stderr := err } := by
  have hpl := getElem?_lt hp
  have key : ∀ (q : Nat) (n1 : ObjNode), (st.mem.set p node1)[q]? = some n1 →
      ∃ n : ObjNode, st.mem[q]? = some n ∧ n1.addr = n.addr ∧ n1.refs = n.refs := by
    intro q n1 hq
    by_cases hqp : p = q
    · subst hqp
      rw [List.getElem?_set_self hpl] at hq
      cases hq
      exact ⟨node, hp, ha, hr⟩
    · rw [List.getElem?_set_ne hqp] at hq
      exact ⟨n1, hq, rfl, rfl⟩
  have key2 : ∀ (q : Nat) (n : ObjNode), st.mem[q]? = some n →
      ∃ n1 : ObjNode, (st.mem.set p node1)[q]? = some n1 ∧ n1.addr = n.addr ∧
        n1.refs = n.refs := by
    intro q n hq
    by_cases hqp : p = q
    · subst hqp
      rw [hp] at hq
      cases hq
      exact ⟨node1, List.getElem?_set_self hpl, ha, hr⟩
    · exact ⟨n, by rw [List.getElem?_set_ne hqp]; exact hq, rfl, rfl⟩
  refine ⟨⟨?_, ?_⟩, ?_, h.globals, ?_⟩
  · intro a c hl
    simpa using h.closed.canon a c hl
  · intro q n1 r hq hrm
    obtain ⟨n, hn, _, hrefs⟩ := key q n1 hq
    rw [hrefs] at hrm
    simpa using h.closed.refs q n r hn hrm
  · intro q hq
    obtain ⟨n, hn, h1, h2, h3⟩ := h.roots q hq
    obtain ⟨n1, hn1, a1, r1⟩ := key2 q n hn
    exact ⟨n1, hn1, by rw [r1, h1], by rw [a1]; exact h2, h3⟩
  · intro a hav
    obtain ⟨q, hq, hqa⟩ := h.visited a hav
    refine ⟨q, hq, ?_⟩
    unfold addrAt at hqa ⊢
    cases hm : st.mem[q]? with
    | none => simp [hm] at hqa
    | some n =>
      obtain ⟨n1, hn1, a1, _⟩ := key2 q n hm
      simp [hm] at hqa
      simp [hn1, a1, hqa]

theorem lookup_cons_eq {a k v : Nat} {l : List (Nat × Nat)} :
    List.lookup a ((k, v) :: l) = if a = k then some v else List.lookup a l := by
  by_cases h : a = k
  · subst h; simp
  · have : (a == k) = false := by simpa using h
    simp [List.lookup, this, h]

theorem IngestWF.findOrCreateObjNode {st : State} (h : IngestWF st) (name : String) (addr : Nat)
    (size : Int) : IngestWF (findOrCreateObjNode st name addr size).1 := by
  unfold Objref.findOrCreateObjNode
  cases hl : st.allNodes.lookup addr with
  | some p =>
    cases hm : st.mem[p]? with
    | some node =>
      simp only [hl, hm]
      apply h.set_same hm
      · split_ifs <;> rfl
      · split_ifs <;> rfl
    | none => simpa [hl, hm] using h
  | none =>
    simp only [hl]
    refine ⟨⟨?_, ?_⟩, ?_, h.globals, ?_⟩
    · intro a c hl'
      simp only [lookup_cons_eq] at hl'
      split_ifs at hl' with he
      · cases hl'; simp
      · have := h.closed.canon a c hl'
        simp; omega
    · intro q n r hq hr
      simp only [List.length_append, List.length_singleton]
      by_cases hql : q < st.mem.length
      · rw [List.getElem?_append_left hql] at hq
        have := h.closed.refs q n r hq hr
        omega
      · have hq2 := getElem?_lt hq
        simp at hq2
        have : q = st.mem.length := by omega
        subst this
        rw [List.getElem?_concat_length] at hq
        cases hq
        simp at hr
    · intro q hq
      obtain ⟨n, hn, h1, h2, h3⟩ := h.roots q hq
      have hql := getElem?_lt hn
      refine ⟨n, by simp only; rw [List.getElem?_append_left hql]; exact hn, h1, h2, ?_⟩
      intro a
      simp only [lookup_cons_eq]
      split_ifs with he
      · intro hc; cases hc; omega
      · exact h3 a
    · intro a hav
      obtain ⟨q, hq, hqa⟩ := h.visited a hav
      refine ⟨q, hq, ?_⟩
      have hql := addrAt_lt hqa
      unfold addrAt at hqa ⊢
      simp only
      rw [List.getElem?_append_left hql]
      exact hqa

theorem IngestWF.appendChild {st : State} (h : IngestWF st) {a b node cNode : Nat}
    (ha : st.allNodes.lookup a = some node) (hb : st.allNodes.lookup b = some cNode)
    (link : String) : IngestWF (appendChild st node cNode link) := by
  unfold Objref.appendChild
  cases hm : st.mem[node]? with
  | none => simpa [hm] using h
  | some n =>
    simp only [hm]
    have hnl := getElem?_lt hm
    refine ⟨⟨?_, ?_⟩, ?_, h.globals, ?_⟩
    · intro a' c hl
      simpa using h.closed.canon a' c hl
    · intro q n1 r hq hr
      simp only [List.length_set]
      by_cases hqn : node = q
      · subst hqn
        rw [List.getElem?_set_self hnl] at hq
        cases hq
        simp only [List.mem_append, List.mem_singleton] at hr
        rcases hr with hr | rfl
        · exact h.closed.refs node n r hm hr
        · exact h.closed.canon b cNode hb
      · rw [List.getElem?_set_ne hqn] at hq
        exact h.closed.refs q n1 r hq hr
    · intro q hq
      obtain ⟨n0, hn0, h1, h2, h3⟩ := h.roots q hq
      have hne : node ≠ q := fun he => h3 a (he ▸ ha)
      exact ⟨n0, by simp only; rw [List.getElem?_set_ne hne]; exact hn0, h1, h2, h3⟩
    · intro a' hav
      obtain ⟨q, hq, hqa⟩ := h.visited a' hav
      obtain ⟨n0, hn0, _, _, h3⟩ := h.roots q hq
      have hne : node ≠ q := fun he => h3 a (he ▸ ha)
      refine ⟨q, hq, ?_⟩
      unfold addrAt at hqa ⊢
      simp only
      rw [List.getElem?_set_ne hne]
      exact hqa

/-- Registering a root: the copy is appended to the store and to
`rootObjNodes`, and its address is marked visited; `gl` and `go` are the two
work lists after the call. -/
theorem IngestWF.addRoot {st : State} (h : IngestWF st) {nd : ObjNode} (gl go : List Nat)
    (hgl : ∀ p ∈ gl, p ∈ st.rootObjNodes ++ [st.mem.length]) :
    IngestWF { st with
      mem := st.mem ++ [nodeCopy nd]
      globalVarNodes := gl
      goroutineNodes := go
      rootObjNodes := st.rootObjNodes ++ [st.mem.length]
      visitedNodes := nd.addr :: st.visitedNodes } := by
  refine ⟨⟨?_, ?_⟩, ?_, hgl, ?_⟩
  · intro a c hl
    have := h.closed.canon a c hl
    simp; omega
  · intro q n r hq hr
    simp only [List.length_append, List.length_singleton]
    by_cases hql : q < st.mem.length
    · rw [List.getElem?_append_left hql] at hq
      have := h.closed.refs q n r hq hr
      omega
    · have hq2 := getElem?_lt hq
      simp at hq2
      have : q = st.mem.length := by omega
      subst this
      rw [List.getElem?_concat_length] at hq
      cases hq
      simp [nodeCopy] at hr
  · intro q hq
    simp only [List.mem_append, List.mem_singleton] at hq
    rcases hq with hq | rfl
    · obtain ⟨n, hn, h1, h2, h3⟩ := h.roots q hq
      have hql := getElem?_lt hn
      exact ⟨n, by simp only; rw [List.getElem?_append_left hql]; exact hn, h1,
        List.mem_cons_of_mem _ h2, h3⟩
    · refine ⟨nodeCopy nd, by simp only; rw [List.getElem?_concat_length], rfl,
        by simp [nodeCopy], ?_⟩
      intro a hc
      have := h.closed.canon a _ hc
      omega
  · intro a hav
    simp only [List.mem_cons] at hav
    rcases hav with rfl | hav
    · refine ⟨st.mem.length, by simp, ?_⟩
      unfold addrAt
      simp only
      rw [List.getElem?_concat_length]
      rfl
    · obtain ⟨q, hq, hqa⟩ := h.visited a hav
      refine ⟨q, by simp [hq], ?_⟩
      have hql := addrAt_lt hqa
      unfold addrAt at hqa ⊢
      simp only
      rw [List.getElem?_append_left hql]
      exact hqa

theorem IngestWF.addGlobalVarNodes {st : State} (h : IngestWF st) (node : Nat) :
    IngestWF (addGlobalVarNodes st node) := by
  unfold Objref.addGlobalVarNodes
  cases hm : st.mem[node]? with
  | none => simpa [hm] using h
  | some nd =>
    simp only [hm]
    have := @IngestWF.addRoot st h nd (st.globalVarNodes ++ [st.mem.length]) st.goroutineNodes (by
      intro p hp
      simp only [List.mem_append, List.mem_singleton] at hp ⊢
      rcases hp with hp | hp
      · exact Or.inl (h.globals p hp)
      · exact Or.inr hp)
    exact this

theorem IngestWF.addGoroutines {st : State} (h : IngestWF st) (node : Nat) :
    IngestWF (addGoroutines st node) := by
  unfold Objref.addGoroutines
  cases hm : st.mem[node]? with
  | none => simpa [hm] using h
  | some nd =>
    simp only [hm]
    have := @IngestWF.addRoot st h nd st.globalVarNodes (st.goroutineNodes ++ [node]) (by
      intro p hp
      simp only [List.mem_append, List.mem_singleton]
      exact Or.inl (h.globals p hp))
    exact this

theorem IngestWF.init : IngestWF State.init := by
  refine ⟨⟨?_, ?_⟩, ?_, ?_, ?_⟩ <;> simp [State.init]

theorem Ingested.wf {st : State} (h : Ingested st) : IngestWF st := by
  induction h with
  | init => exact IngestWF.init
  | register st name addr size _ ih => exact ih.findOrCreateObjNode name addr size
  | edge st a b node cNode link _ ha hb ih => exact ih.appendChild ha hb link
  | globalVar st a node _ _ ih => exact ih.addGlobalVarNodes node
  | goroutine st a node _ _ ih => exact ih.addGoroutines node

theorem findOrCreateObjNode_lookup_self (st : State) (name : String) (addr : Nat) (size : Int) :
    (findOrCreateObjNode st name addr size).1.allNodes.lookup addr =
      some (findOrCreateObjNode st name addr size).2.1 := by
  unfold findOrCreateObjNode
  cases hl : st.allNodes.lookup addr with
  | some p =>
    cases hm : st.mem[p]? with
    | some node => simp [hl, hm]
    | none => simp [hl, hm]
  | none => simp [hl, lookup_cons_eq]

theorem findOrCreateObjNode_lookup_keep (st : State) (name : String) (addr : Nat) (size : Int)
    {a c : Nat} (h : st.allNodes.lookup a = some c) :
    (findOrCreateObjNode st name addr size).1.allNodes.lookup a = some c := by
  unfold findOrCreateObjNode
  cases hl : st.allNodes.lookup addr with
  | some p =>
    cases hm : st.mem[p]? with
    | some node => simpa [hl, hm] using h
    | none => simpa [hl, hm] using h
  | none =>
    simp only [hl, lookup_cons_eq]
    split_ifs with he
    · subst he
      rw [hl] at h
      cases h
    · exact h

theorem appendChild_allNodes (st : State) (node cNode : Nat) (link : String) :
    (appendChild st node cNode link).allNodes = st.allNodes := by
  unfold appendChild
  cases st.mem[node]? <;> rfl

theorem addGlobalVarNodes_allNodes (st : State) (node : Nat) :
    (addGlobalVarNodes st node).allNodes = st.allNodes := by
  unfold addGlobalVarNodes
  cases st.mem[node]? <;> rfl

theorem addGoroutines_allNodes (st : State) (node : Nat) :
    (addGoroutines st node).allNodes = st.allNodes := by
  unfold addGoroutines
  cases st.mem[node]? <;> rfl

theorem ingestPtrs_ingested (x : Nat) : ∀ (ptrs : List (String × Obj)) (st : State) (a : Nat),
    Ingested st → st.allNodes.lookup a = some x →
    Ingested (ingestPtrs x ptrs st) ∧
      ∀ a1 c1, st.allNodes.lookup a1 = some c1 →
        (ingestPtrs x ptrs st).allNodes.lookup a1 = some c1
  | [], st, a, h, _ => ⟨h, fun _ _ h1 => h1⟩
  | (field, y) :: rest, st, a, h, hx => by
    simp only [ingestPtrs]
    have h1 := Ingested.register st y.name y.addr y.size h
    have hx1 := findOrCreateObjNode_lookup_keep st y.name y.addr y.size hx
    have hy1 := findOrCreateObjNode_lookup_self st y.name y.addr y.size
    have h2 := Ingested.edge _ a y.addr x _ field h1 hx1 hy1
    have hx2 : (appendChild (findOrCreateObjNode st y.name y.addr y.size).1 x
        (findOrCreateObjNode st y.name y.addr y.size).2.1 field).allNodes.lookup a = some x := by
      rw [appendChild_allNodes]; exact hx1
    obtain ⟨i1, i2⟩ := ingestPtrs_ingested x rest _ a h2 hx2
    refine ⟨i1, fun a1 c1 hl => i2 a1 c1 ?_⟩
    rw [appendChild_allNodes]
    exact findOrCreateObjNode_lookup_keep st y.name y.addr y.size hl

theorem ingestObjects_ingested : ∀ (objs : List (Obj × List (String × Obj))) (st : State),
    Ingested st → Ingested (ingestObjects objs st)
  | [], st, h => h
  | (x, ptrs) :: rest, st, h => by
    simp only [ingestObjects]
    have h1 := Ingested.register st x.name x.addr x.size h
    have hx := findOrCreateObjNode_lookup_self st x.name x.addr x.size
    exact ingestObjects_ingested rest _ (ingestPtrs_ingested _ ptrs _ x.addr h1 hx).1

theorem ingestGlobals_ingested : ∀ (gs : List (String × Nat × List (String × Obj)))
    (st : State), Ingested st → Ingested (ingestGlobals gs st)
  | [], st, h => h
  | (name, addr, ptrs) :: rest, st, h => by
    simp only [ingestGlobals]
    have h1 := Ingested.register st name addr 0 h
    have hx := findOrCreateObjNode_lookup_self st name addr 0
    apply ingestGlobals_ingested rest
    by_cases he : (findOrCreateObjNode st name addr 0).2.2 = false
    · rw [if_pos he]
      have h2 := Ingested.globalVar _ addr _ h1 hx
      exact (ingestPtrs_ingested _ ptrs _ addr h2
        (by rw [addGlobalVarNodes_allNodes]; exact hx)).1
    · rw [if_neg he]
      exact (ingestPtrs_ingested _ ptrs _ addr h1 hx).1

theorem ingestGoroutines_ingested : ∀ (gs : List (Nat × Int)) (st : State),
    Ingested st → Ingested (ingestGoroutines gs st)
  | [], st, h => h
  | (addr, size) :: rest, st, h => by
    simp only [ingestGoroutines]
    have h1 := Ingested.register st ("go" ++ hex addr) addr size h
    have hx := findOrCreateObjNode_lookup_self st ("go" ++ hex addr) addr size
    exact ingestGoroutines_ingested rest _ (Ingested.goroutine _ addr _ h1 hx)

/-- The ingestion loops of `runObjref` produce an ingested state, whatever the
provider reports. -/
theorem ingest_ingested (c : Core) : Ingested (ingest c) :=
  ingestGoroutines_ingested _ _ (ingestGlobals_ingested _ _
    (ingestObjects_ingested _ _ Ingested.init))

theorem passSafe_of_grows {u : List Nat} {s s1 : State} (h : PassSafe u s) (g : Grows s s1) :
    PassSafe u s1 := by
  have key : ∀ (p : Nat) (n1 : ObjNode), s1.mem[p]? = some n1 →
      ∃ (q : Nat) (n : ObjNode), s.mem[q]? = some n ∧ n.addr = n1.addr := by
    intro p n1 hp
    by_cases hpl : p < s.mem.length
    · obtain ⟨n1', e1, a1, _⟩ := g.old p _ (List.getElem?_eq_getElem hpl)
      rw [hp] at e1
      cases e1
      exact ⟨p, _, List.getElem?_eq_getElem hpl, a1.symm⟩
    · exact g.copy p n1 (not_lt.mp hpl) hp
  refine ⟨closed_of_grows h.closed g, ?_, ?_⟩
  · intro p n1 hp
    obtain ⟨q, n, hq, ha⟩ := key p n1 hp
    rw [g.allNodes, ← ha]
    exact h.registered q n hq
  · intro p n1 hp
    obtain ⟨q, n, hq, ha⟩ := key p n1 hp
    rw [← ha]
    exact h.addrs q n hq

/-- The inner loop returns when the frontier node and the targets of the edges
are in the store. -/
theorem attachRefs_total (node : Nat) : ∀ (refs : List ObjRef) (s : State) (cn : List Nat),
    node < s.mem.length → (∀ r ∈ refs, r.node < s.mem.length) →
    ∃ s1 cn1, attachRefs node refs s cn = .ok (s1, cn1)
  | [], s, cn, _, _ => ⟨s, cn, rfl⟩
  | ref :: rest, s, cn, hn, hr => by
    have hrl := hr ref (List.mem_cons_self _ _)
    have ht : s.mem[ref.node]? = some (s.mem[ref.node]) := List.getElem?_eq_getElem hrl
    have hrest : ∀ r ∈ rest, r.node < s.mem.length := fun r h => hr r (List.mem_cons_of_mem _ h)
    by_cases hv : (s.mem[ref.node]).addr ∈ s.visitedNodes
    · rw [attachRefs_cons_skip ht hv]
      exact attachRefs_total node rest s cn hn hrest
    · have hp : s.mem[node]? = some (s.mem[node]) := List.getElem?_eq_getElem hn
      rw [attachRefs_cons_new ht hv hp]
      have hl : (attachOne s node (s.mem[node]) (s.mem[ref.node]) ref.link).mem.length =
          s.mem.length + 1 := by simp [attachOne]
      exact attachRefs_total node rest _ _ (by omega) (fun r h => by
        have := hrest r h
        omega)

/-- The outer loop returns on a safe state when every frontier node is in the
store and marked visited. -/
theorem expandNodes_total {u : List Nat} : ∀ (f : List Nat) (s : State) (cn : List Nat),
    PassSafe u s → (∀ q ∈ f, ∃ n, s.mem[q]? = some n ∧ n.addr ∈ s.visitedNodes) →
    ∃ s1 cn1, expandNodes f s cn = .ok (s1, cn1)
  | [], s, cn, _, _ => ⟨s, cn, rfl⟩
  | q :: rest, s, cn, hs, hf => by
    obtain ⟨n, hn, hv⟩ := hf q (List.mem_cons_self _ _)
    obtain ⟨c, hl⟩ := hs.registered q n hn
    have hcl := hs.closed.canon _ c hl
    have hc : s.mem[c]? = some (s.mem[c]) := List.getElem?_eq_getElem hcl
    obtain ⟨s1, cn1, ha⟩ := attachRefs_total q (s.mem[c]).refs s cn (getElem?_lt hn)
      (fun r hr => hs.closed.refs c _ r hc hr)
    have g := attachRefs_grows q _ s s1 cn cn1 ha
    obtain ⟨s2, cn2, hr⟩ := expandNodes_total rest s1 cn1 (passSafe_of_grows hs g) (by
      intro q1 hq1
      obtain ⟨n1, hn1, hv1⟩ := hf q1 (List.mem_cons_of_mem _ hq1)
      obtain ⟨n2, e2, a2, _⟩ := g.old q1 n1 hn1
      exact ⟨n2, e2, by rw [a2]; exact g.visited _ hv1⟩)
    refine ⟨s2, cn2, ?_⟩
    simp only [expandNodes, hn, hv, if_true, hl, hc, ha]
    exact hr

theorem unvisitedCount_le {u : List Nat} {s s1 : State} (g : Grows s s1) :
    unvisitedCount u s1 ≤ unvisitedCount u s := by
  unfold unvisitedCount
  apply Finset.card_le_card
  intro a ha
  simp only [Finset.mem_filter] at ha ⊢
  exact ⟨ha.1, fun h => ha.2 (g.visited a h)⟩

theorem unvisitedCount_lt {u : List Nat} {s s1 : State} (g : Grows s s1) {b : Nat}
    (hb : b ∈ u) (h0 : b ∉ s.visitedNodes) (h1 : b ∈ s1.visitedNodes) :
    unvisitedCount u s1 < unvisitedCount u s := by
  unfold unvisitedCount
  apply Finset.card_lt_card
  rw [Finset.ssubset_iff_of_subset]
  · exact ⟨b, by simp [hb, h0], by simp [h1]⟩
  · intro a ha
    simp only [Finset.mem_filter] at ha ⊢
    exact ⟨ha.1, fun h => ha.2 (g.visited a h)⟩

/-- A layer that allocates a node uses up an unvisited address. -/
theorem expandNodes_unvisitedCount {u : List Nat} {f f1 : List Nat} {s s1 : State}
    (hs : PassSafe u s) (he : expandNodes f s [] = .ok (s1, f1)) (hne : f1 ≠ []) :
    unvisitedCount u s1 < unvisitedCount u s := by
  have g := expandNodes_grows f s s1 [] f1 he
  obtain ⟨news, e, hm⟩ := expandNodes_cnodes f s s1 [] f1 he
  simp at e
  subst e
  obtain ⟨c, hc⟩ := List.exists_mem_of_ne_nil _ hne
  obtain ⟨hc1, hc2⟩ := (hm c).mp hc
  have hv : s1.mem[c]? = some (s1.mem[c]) := List.getElem?_eq_getElem hc2
  obtain ⟨f1, f2, _⟩ := g.fresh c _ hc1 hv
  exact unvisitedCount_lt g ((passSafe_of_grows hs g).addrs c _ hv) f2 f1

/-- A pass returns when its fuel exceeds the number of unvisited addresses. -/
theorem genUniqueRefTree_total {u : List Nat} : ∀ (fuel : Nat) (s : State) (f : List Nat),
    PassSafe u s → (∀ q ∈ f, ∃ n, s.mem[q]? = some n ∧ n.addr ∈ s.visitedNodes) →
    unvisitedCount u s < fuel → ∃ sF, genUniqueRefTree fuel s f = .ok sF
  | 0, s, f, _, _, h => by omega
  | fuel + 1, s, f, hs, hf, h => by
    obtain ⟨s1, f1, he⟩ := expandNodes_total f s [] hs hf
    have g := expandNodes_grows f s s1 [] f1 he
    by_cases hne : f1 = []
    · subst hne
      exact ⟨s1, by simp [genUniqueRefTree, he]⟩
    · have hlt := expandNodes_unvisitedCount hs he hne
      obtain ⟨news, e, hm⟩ := expandNodes_cnodes f s s1 [] f1 he
      simp at e
      subst e
      obtain ⟨sF, hF⟩ := genUniqueRefTree_total fuel s1 f1 (passSafe_of_grows hs g) (by
        intro q hq
        obtain ⟨hq1, hq2⟩ := (hm q).mp hq
        have hv : s1.mem[q]? = some (s1.mem[q]) := List.getElem?_eq_getElem hq2
        exact ⟨_, hv, (g.fresh q _ hq1 hv).1⟩) (by omega)
      refine ⟨sF, ?_⟩
      have hpos : f1.length > 0 := List.length_pos.mpr hne
      simp only [genUniqueRefTree, he, hpos, if_true]
      exact hF

theorem ingestReg_set_same {st : State} (h : IngestReg st) {p : Nat} {node node1 : ObjNode}
    (hp : st.mem[p]? = some node) (ha : node1.addr = node.addr) (err : List String) :
    IngestReg { st with mem := st.mem.set p node1, stderr := err } := by
  have hpl := getElem?_lt hp
  refine ⟨?_, ?_⟩
  · intro q n1 hq
    by_cases hqp : p = q
    · subst hqp
      rw [List.getElem?_set_self hpl] at hq
      cases hq
      rw [ha]
      exact h.registered p node hp
    · rw [List.getElem?_set_ne hqp] at hq
      exact h.registered q n1 hq
  · intro q hq
    obtain ⟨n, hn, hv⟩ := h.goroutines q hq
    by_cases hqp : p = q
    · subst hqp
      rw [hp] at hn
      cases hn
      exact ⟨node1, List.getElem?_set_self hpl, by rw [ha]; exact hv⟩
    · exact ⟨n, by simp only; rw [List.getElem?_set_ne hqp]; exact hn, hv⟩

theorem ingestReg_findOrCreateObjNode {st : State} (h : IngestReg st) (name : String)
    (addr : Nat) (size : Int) : IngestReg (findOrCreateObjNode st name addr size).1 := by
  unfold findOrCreateObjNode
  cases hl : st.allNodes.lookup addr with
  | some p =>
    cases hm : st.mem[p]? with
    | some node =>
      simp only [hl, hm]
      apply ingestReg_set_same h hm
      split_ifs <;> rfl
    | none => simpa [hl, hm] using h
  | none =>
    simp only [hl]
    refine ⟨?_, ?_⟩
    · intro q n hq
      simp only [lookup_cons_eq]
      by_cases hql : q < st.mem.length
      · rw [List.getElem?_append_left hql] at hq
        obtain ⟨c, hc⟩ := h.registered q n hq
        split_ifs
        · exact ⟨_, rfl⟩
        · exact ⟨c, hc⟩
      · have hq2 := getElem?_lt hq
        simp at hq2
        have : q = st.mem.length := by omega
        subst this
        rw [List.getElem?_concat_length] at hq
        cases hq
        simp
    · intro q hq
      obtain ⟨n, hn, hv⟩ := h.goroutines q hq
      have hql := getElem?_lt hn
      exact ⟨n, by simp only; rw [List.getElem?_append_left hql]; exact hn, hv⟩

theorem ingestReg_appendChild {st : State} (h : IngestReg st) (node cNode : Nat)
    (link : String) : IngestReg (appendChild st node cNode link) := by
  unfold appendChild
  cases hm : st.mem[node]? with
  | none => simpa [hm] using h
  | some n =>
    simp only [hm]
    have := @ingestReg_set_same st h node n
      { n with refs := n.refs ++ [{ link := link, node := cNode }] } hm rfl st.stderr
    exact this

theorem ingestReg_addRoot {st : State} (h : IngestReg st) {node : Nat} {nd : ObjNode}
    (hnd : st.mem[node]? = some nd) (gl go : List Nat)
    (hgo : ∀ p ∈ go, p ∈ st.goroutineNodes ∨ p = node) :
    IngestReg { st with
      mem := st.mem ++ [nodeCopy nd]
      globalVarNodes := gl
      goroutineNodes := go
      rootObjNodes := st.rootObjNodes ++ [st.mem.length]
      visitedNodes := nd.addr :: st.visitedNodes } := by
  refine ⟨?_, ?_⟩
  · intro q n hq
    by_cases hql : q < st.mem.length
    · rw [List.getElem?_append_left hql] at hq
      exact h.registered q n hq
    · have hq2 := getElem?_lt hq
      simp at hq2
      have : q = st.mem.length := by omega
      subst this
      rw [List.getElem?_concat_length] at hq
      cases hq
      exact h.registered node nd hnd
  · intro q hq
    rcases hgo q hq with hq | rfl
    · obtain ⟨n, hn, hv⟩ := h.goroutines q hq
      have hql := getElem?_lt hn
      exact ⟨n, by simp only; rw [List.getElem?_append_left hql]; exact hn,
        List.mem_cons_of_mem _ hv⟩
    · have hql := getElem?_lt hnd
      exact ⟨nd, by simp only; rw [List.getElem?_append_left hql]; exact hnd,
        List.mem_cons_self _ _⟩

theorem ingestReg_addGlobalVarNodes {st : State} (h : IngestReg st) (node : Nat) :
    IngestReg (addGlobalVarNodes st node) := by
  unfold addGlobalVarNodes
  cases hm : st.mem[node]? with
  | none => simpa [hm] using h
  | some nd =>
    simp only [hm]
    exact ingestReg_addRoot h hm (st.globalVarNodes ++ [st.mem.length]) st.goroutineNodes
      (fun p hp => Or.inl hp)

theorem ingestReg_addGoroutines {st : State} (h : IngestReg st) (node : Nat) :
    IngestReg (addGoroutines st node) := by
  unfold addGoroutines
  cases hm : st.mem[node]? with
  | none => simpa [hm] using h
  | some nd =>
    simp only [hm]
    exact ingestReg_addRoot h hm st.globalVarNodes (st.goroutineNodes ++ [node]) (fun p hp => by
      simpa using hp)

theorem Ingested.reg {st : State} (h : Ingested st) : IngestReg st := by
  induction h with
  | init => exact ⟨by simp [State.init], by simp [State.init]⟩
  | register st name addr size _ ih => exact ingestReg_findOrCreateObjNode ih name addr size
  | edge st a b node cNode link _ _ _ ih => exact ingestReg_appendChild ih node cNode link
  | globalVar st a node _ _ ih => exact ingestReg_addGlobalVarNodes ih node
  | goroutine st a node _ _ ih => exact ingestReg_addGoroutines ih node

theorem Ingested.passSafe {st : State} (h : Ingested st) : PassSafe (storeAddrs st) st :=
  ⟨h.wf.closed, h.reg.registered, fun p n hp => by
    unfold storeAddrs
    exact List.mem_map.mpr ⟨n, List.getElem?_mem hp, rfl⟩⟩

/-- The two passes return on every ingested state once the fuel exceeds the
number of addresses that are not visited at the start. -/
theorem buildForest_total {st0 : State} (hin : Ingested st0) {fuel : Nat}
    (hf : unvisitedCount (storeAddrs st0) st0 < fuel) : ∃ sF, buildForest fuel st0 = .ok sF := by
  have wf := hin.wf
  have hs := hin.passSafe
  obtain ⟨s1, h1⟩ := genUniqueRefTree_total fuel st0 st0.globalVarNodes hs (by
    intro q hq
    obtain ⟨n, hn, _, hv, _⟩ := wf.roots q (wf.globals q hq)
    exact ⟨n, hn, hv⟩) hf
  have g := genUniqueRefTree_grows _ _ _ _ h1
  obtain ⟨sF, h2⟩ := genUniqueRefTree_total fuel s1 s1.goroutineNodes (passSafe_of_grows hs g) (by
    intro q hq
    rw [g.goroutines] at hq
    obtain ⟨n, hn, hv⟩ := hin.reg.goroutines q hq
    obtain ⟨n1, e1, a1, _⟩ := g.old q n hn
    exact ⟨n1, e1, by rw [a1]; exact g.visited _ hv⟩)
    (lt_of_le_of_lt (unvisitedCount_le g) hf)
  exact ⟨sF, by simp [buildForest, h1, h2]⟩

/-! ## Claims about aggregation and rendering -/


/-- C1 (code defect): a goroutine whose object points to a 10-byte object.  The
ingested graph reaches 8 + 10 = 18 bytes from the root, also with any larger
edge bound, but the goroutine root of `rootObjNodes` keeps an empty child list
(its subtree hangs off the canonical node 0 that `addGoroutines` put into
`goroutineNodes`), so the grand total is 8. -/
theorem C1_goroutine_subtree_not_counted :
    ∃ st, buildForest 2 (ingest goroutineCore) = .ok st ∧
      loadForest 2 st = some [.mk 7 "G" 8 []] ∧
      (calcForest [.mk 7 "G" 8 []]).2 = 8 ∧
      reachableOwnSizes (ingest goroutineCore) 1 = 18 ∧
      reachableOwnSizes (ingest goroutineCore) 5 = 18 ∧
      (st.mem[0]?).map (fun n => n.refs) = some [⟨"x", 1⟩, ⟨"x", 3⟩] :=
  ⟨_, rfl, rfl, rfl, by decide, by decide, rfl⟩

/-- C3: scenario A.  Tree building over the ingested scenario yields the forest
in which C is a child of A only; aggregation gives R1 the retained size 110,
R2 the retained size 5, and the grand total 115. -/
theorem C3_scenarioA_sharing :
    ∃ st, buildForest 3 (ingest scenarioA) = .ok st ∧ loadForest 3 st = some forestA ∧
      calcForest forestA =
        ([.mk 1 "R1" 110 [("a", .mk 10 "A" 110 [("c", .mk 30 "C" 100 [])])],
          .mk 2 "R2" 5 [("b", .mk 20 "B" 5 [])]], 115) :=
  ⟨_, rfl, rfl, by
    simp only [forestA, calcForest, calcTreeSize, calcRefs, wrap64]
    norm_num⟩

/-- C6 as stated fails: the sums of `calcTreeSize` are `int64` sums.  For a root
of own size 2^63 - 1 over a leaf of own size 1 the own sizes add up to 2^63,
and `calcTreeSize` returns -2^63 and stores it in the root. -/
theorem C6_sum_wraps :
    nonnegSizes (.mk 1 "R" 9223372036854775807 [("f", .mk 2 "A" 1 [])]) = true ∧
    Tree.sumSizes (.mk 1 "R" 9223372036854775807 [("f", .mk 2 "A" 1 [])]) =
      9223372036854775808 ∧
    calcTreeSize (.mk 1 "R" 9223372036854775807 [("f", .mk 2 "A" 1 [])]) =
      (.mk 1 "R" (-9223372036854775808) [("f", .mk 2 "A" 1 [])], -9223372036854775808) :=
  ⟨by simp [nonnegSizes, nonnegSizesRefs],
    by simp only [Tree.sumSizes, Tree.sumSizesRefs]; norm_num,
    by simp only [calcTreeSize, calcRefs, wrap64]; norm_num⟩

/-- C6 (amended): `calcTreeSize` returns the own size of the node plus the sum
of the values it returns for the children in order, cut to 64 bits, which is
the `int64` value of the sum of the own sizes of all nodes of the subtree.
When no own size is negative and the own sizes of the subtree add up to less
than 2^63, nothing is cut: the returned value is the own size plus the sum over
the children, it is the sum of the own sizes of the subtree, and the tree left
behind stores in every node the retained size of that node. -/
theorem C6_calcTreeSize_aggregates (t : Tree) :
    (calcTreeSize t).2 =
      wrap64 (t.size + ((t.refs.map (fun r => (calcTreeSize r.2).2)).sum)) ∧
    (calcTreeSize t).2 = wrap64 (Tree.sumSizes t) ∧
    (nonnegSizes t = true → Tree.sumSizes t < 2 ^ 63 →
      (calcTreeSize t).2 = t.size + ((t.refs.map (fun r => (calcTreeSize r.2).2)).sum) ∧
      (calcTreeSize t).2 = Tree.sumSizes t ∧
      (calcTreeSize t).1 = Tree.withRetained t) := by
  have hsum : ∀ l : List (String × Tree),
      wrap64 ((l.map (fun r => (calcTreeSize r.2).2)).sum) = wrap64 (Tree.sumSizesRefs l) := by
    intro l
    induction l with
    | nil => simp [Tree.sumSizesRefs]
    | cons x rest ih =>
      obtain ⟨link, c⟩ := x
      simp only [List.map_cons, List.sum_cons, Tree.sumSizesRefs]
      rw [calcTreeSize_wrap c, wrap64_add_left, ← wrap64_add_right, ih, wrap64_add_right]
  have hexact : ∀ l : List (String × Tree), nonnegSizesRefs l = true →
      Tree.sumSizesRefs l < 2 ^ 63 →
      (l.map (fun r => (calcTreeSize r.2).2)).sum = Tree.sumSizesRefs l := by
    intro l
    induction l with
    | nil => intro _ _; simp [Tree.sumSizesRefs]
    | cons x rest ih =>
      obtain ⟨link, c⟩ := x
      intro hn hb
      simp only [nonnegSizesRefs, Bool.and_eq_true] at hn
      simp only [Tree.sumSizesRefs] at hb
      have p1 := sumSizes_nonneg c hn.1
      have p2 := sumSizesRefs_nonneg rest hn.2
      simp only [List.map_cons, List.sum_cons, Tree.sumSizesRefs,
        calcTreeSize_spec c hn.1 (by omega), ih hn.2 (by omega)]
  refine ⟨?_, calcTreeSize_wrap t, ?_⟩
  · cases t with
    | mk addr name size refs =>
      rw [calcTreeSize_wrap]
      simp only [Tree.sumSizes, Tree.size, Tree.refs]
      rw [← wrap64_add_right, ← hsum, wrap64_add_right]
  · intro hn hb
    rw [calcTreeSize_spec t hn hb]
    refine ⟨?_, rfl, rfl⟩
    cases t with
    | mk addr name size refs =>
      simp only [nonnegSizes, Bool.and_eq_true, decide_eq_true_eq] at hn
      simp only [Tree.sumSizes] at hb
      have p2 := sumSizesRefs_nonneg refs hn.2
      simp only [Tree.sumSizes, Tree.size, Tree.refs, hexact refs hn.2 (by omega)]

theorem C6_calcTreeSize_aggregates_witness :
    nonnegSizes treeB = true ∧ Tree.sumSizes treeB < 2 ^ 63 ∧
    (calcTreeSize treeB).2 = Tree.sumSizes treeB ∧
    (calcTreeSize treeB).1 = Tree.withRetained treeB :=
  ⟨by decide, by decide,
    ((C6_calcTreeSize_aggregates treeB).2.2 (by decide) (by decide)).2.1,
    ((C6_calcTreeSize_aggregates treeB).2.2 (by decide) (by decide)).2.2⟩

theorem below_grow_facts :
    belowMinWidth 4 4 (.fin 50) = false ∧ belowMinWidth 3 4 (.fin 50) = false ∧
    belowMinWidth 1 4 (.fin 50) = true ∧ belowMinWidth 4 4 (.fin 100) = false ∧
    belowMinWidth 3 4 (.fin 100) = true := by
  refine ⟨?_, ?_, ?_, ?_, ?_⟩
  · exact belowMinWidth_false_of_le (by norm_num) (by norm_num) (by norm_num) (by norm_num)
      (by norm_num) (by norm_num)
  · exact belowMinWidth_false_of_le (by norm_num) (by norm_num) (by norm_num) (by norm_num)
      (by norm_num) (by norm_num)
  · exact belowMinWidth_true_of_sep 1 2 (by norm_num) (by norm_num) (by norm_num) (by norm_num)
      (by norm_num) (by norm_num) (by norm_num) (by norm_num)
  · exact belowMinWidth_false_of_le (by norm_num) (by norm_num) (by norm_num) (by norm_num)
      (by norm_num) (by norm_num)
  · exact belowMinWidth_true_of_sep 3 2 (by norm_num) (by norm_num) (by norm_num) (by norm_num)
      (by norm_num) (by norm_num) (by norm_num) (by norm_num)

/-- C9: scenario B.  The root of own size 0 with leaves of 900, 90 and 10
bytes aggregates to 1000; with the total 1000 and `minWidth = 5`,
`printRefPath` writes exactly two records, the first for the 900-byte leaf
carrying 900 and the second for the 90-byte leaf carrying 90, none for the
10-byte leaf and none for the root, and returns 990. -/
theorem C9_scenarioB_pruning (isPrint : Char → Bool) :
    calcTreeSize treeB = (sizedB, 1000) ∧
    printRefPath isPrint [] 1000 (.fin 5) false sizedB =
      ([record isPrint ["R", "a", "x"] 900, record isPrint ["R", "b", "y"] 90], 990) := by
  have b1000 : belowMinWidth 1000 1000 (.fin 5) = false :=
    belowMinWidth_false_of_le (by norm_num) (by norm_num) (by norm_num) (by norm_num)
      (by norm_num) (by norm_num)
  have b900 : belowMinWidth 900 1000 (.fin 5) = false :=
    belowMinWidth_false_of_le (by norm_num) (by norm_num) (by norm_num) (by norm_num)
      (by norm_num) (by norm_num)
  have b90 : belowMinWidth 90 1000 (.fin 5) = false :=
    belowMinWidth_false_of_le (by norm_num) (by norm_num) (by norm_num) (by norm_num)
      (by norm_num) (by norm_num)
  have b10 : belowMinWidth 10 1000 (.fin 5) = true :=
    belowMinWidth_true_of_sep 1 6 (by norm_num) (by norm_num) (by norm_num) (by norm_num)
      (by norm_num) (by norm_num) (by norm_num) (by norm_num)
  refine ⟨rfl, ?_⟩
  simp [sizedB, printRefPath, printRefs, nodeLabel, b1000, b900, b90, b10]

/-- C10 as stated fails: for the root `R` over the leaf `A` under the field
`f`, the record of the leaf reads `A`, `f`, `R` from its first line on: the
label of the emitted node comes first and the label of the root last. -/
theorem C10_record_lists_leaf_first :
    printRefPath isPrintAscii [] 4 (.fin 50) false sizedGrow = (["A\nf\nR\n\t3\n"], 3) := by
  obtain ⟨f1, f2, f3, _, _⟩ := below_grow_facts
  have e : record isPrintAscii ["R", "f", "A"] 3 = "A\nf\nR\n\t3\n" := by decide
  simp [sizedGrow, printRefPath, printRefs, nodeLabel, f1, f2, f3, e]

/-- C10 (amended): every record written for a tree renders the path of one of
its nodes deepest segment first.  The segments from the root down to that node
(a label per node and, before each child, the edge label when it is not empty)
are sanitised, reversed and joined with newlines: the label of the emitted
node is the first line, the label of the root the last path line. -/
theorem C10_record_path_order (isPrint : Char → Bool) (total : Int) (minWidth : F64)
    (printAddr : Bool) (t : Tree) (r : String)
    (hr : r ∈ (printRefPath isPrint [] total minWidth printAddr t).1) :
    ∃ (segs : List String) (target : Tree) (leftover : Int), PathTo printAddr t segs target ∧
      segs.head? = some (nodeLabel printAddr t.name t.addr) ∧
      segs.getLast? = some (nodeLabel printAddr target.name target.addr) ∧
      r = "\n".intercalate ((segs.map (sanitize isPrint)).reverse) ++ "\n\t" ++
        toString leftover ++ "\n" := by
  obtain ⟨segs, target, leftover, hp, hrec⟩ :=
    printRefPath_records t isPrint [] total minWidth printAddr r hr
  exact ⟨segs, target, leftover, hp, pathTo_head hp, pathTo_last hp, by
    rw [hrec]; simp [record, genRefPath]⟩

theorem C10_record_path_order_witness :
    "A\nf\nR\n\t3\n" ∈ (printRefPath isPrintAscii [] 4 (.fin 50) false sizedGrow).1 ∧
    ∃ (segs : List String) (target : Tree) (leftover : Int), PathTo false sizedGrow segs target ∧
      segs.head? = some (nodeLabel false sizedGrow.name sizedGrow.addr) ∧
      segs.getLast? = some (nodeLabel false target.name target.addr) ∧
      "A\nf\nR\n\t3\n" = "\n".intercalate ((segs.map (sanitize isPrintAscii)).reverse) ++
        "\n\t" ++ toString leftover ++ "\n" :=
  have h : "A\nf\nR\n\t3\n" ∈ (printRefPath isPrintAscii [] 4 (.fin 50) false sizedGrow).1 := by
    obtain ⟨f1, f2, f3, _, _⟩ := below_grow_facts
    have e : record isPrintAscii ["R", "f", "A"] 3 = "A\nf\nR\n\t3\n" := by decide
    simp [sizedGrow, printRefPath, printRefs, nodeLabel, f1, f2, f3, e]
  ⟨h, C10_record_path_order isPrintAscii 4 (.fin 50) false sizedGrow _ h⟩

/-! ## Claims about tree building -/

theorem buildForest_ok {fuel : Nat} {st0 sF : State} (h : buildForest fuel st0 = .ok sF) :
    ∃ s1, genUniqueRefTree fuel st0 st0.globalVarNodes = .ok s1 ∧
      genUniqueRefTree fuel s1 s1.goroutineNodes = .ok sF := by
  unfold buildForest at h
  cases h1 : genUniqueRefTree fuel st0 st0.globalVarNodes with
  | error e => simp [h1] at h
  | ok s1 => exact ⟨s1, rfl, by simpa [h1] using h⟩

theorem buildForest_grows {fuel : Nat} {st0 sF : State} (h : buildForest fuel st0 = .ok sF) :
    Grows st0 sF := by
  obtain ⟨s1, h1, h2⟩ := buildForest_ok h
  exact (genUniqueRefTree_grows _ _ _ _ h1).trans (genUniqueRefTree_grows _ _ _ _ h2)

theorem mem_addrsOf {st : State} {nodes : List Nat} {a : Nat} :
    a ∈ addrsOf st nodes ↔ ∃ p ∈ nodes, addrAt st p = some a := by
  unfold addrsOf addrAt
  rw [List.mem_filterMap]

theorem addrsOf_nodup_inj {st : State} : ∀ {nodes : List Nat}, (addrsOf st nodes).Nodup →
    ∀ {p q a : Nat}, p ∈ nodes → q ∈ nodes → addrAt st p = some a → addrAt st q = some a → p = q
  | [], _, p, q, a, hp, _, _, _ => by simp at hp
  | x :: rest, hnd, p, q, a, hp, hq, hpa, hqa => by
    have hx : addrsOf st (x :: rest) =
        (match addrAt st x with
          | some b => b :: addrsOf st rest
          | none => addrsOf st rest) := by
      unfold addrsOf addrAt
      cases hmx : st.mem[x]? <;> simp [List.filterMap_cons, hmx]
    rw [hx] at hnd
    rcases List.mem_cons.mp hp with rfl | hp' <;> rcases List.mem_cons.mp hq with rfl | hq'
    · rfl
    · rw [hpa] at hnd
      simp only [List.nodup_cons] at hnd
      exact absurd (mem_addrsOf.mpr ⟨q, hq', hqa⟩) hnd.1
    · rw [hqa] at hnd
      simp only [List.nodup_cons] at hnd
      exact absurd (mem_addrsOf.mpr ⟨p, hp', hpa⟩) hnd.1
    · have hnd' : (addrsOf st rest).Nodup := by
        cases hxa : addrAt st x with
        | none => simpa [hxa] using hnd
        | some b =>
          rw [hxa] at hnd
          exact (List.nodup_cons.mp hnd).2
      exact addrsOf_nodup_inj hnd' hp' hq' hpa hqa

/-- After tree building a node of the forest is a root or a node that tree
building allocated. -/
theorem inForest_cases {st0 sF : State} (wf : IngestWF st0) (g : Grows st0 sF) {p : Nat}
    (h : InForest sF p) : p ∈ st0.rootObjNodes ∨ st0.mem.length ≤ p := by
  obtain ⟨q, hq, ht⟩ := h
  rw [g.roots] at hq
  induction ht with
  | self => exact Or.inl hq
  | child _ hm hr ih =>
    rename_i p' n r _
    right
    rcases ih with hroot | hnew
    · obtain ⟨n0, hn0, hrefs, _, _⟩ := wf.roots p' hroot
      obtain ⟨n1, e1, _, _, _, ex, hex, hexn⟩ := g.old p' n0 hn0
      rw [hm] at e1; cases e1
      rw [hex, hrefs] at hr
      exact (hexn r (by simpa using hr)).1
    · exact ((g.fresh p' n hnew hm).2.2 r hr).1

/-! ## The shape of the forest -/

theorem shape_init {s : State} (hc : Closed s) : Shape s.mem.length s where
  le := le_refl _
  order := fun p n r hm hr hb => by
    have := hc.refs p n r hm hr
    omega
  nodup := fun p n hm => by
    have e : (n.refs.map (fun r => r.node)).filter (fun c => decide (s.mem.length ≤ c)) = [] := by
      rw [List.filter_eq_nil_iff]
      intro c hcm
      obtain ⟨r, hr, rfl⟩ := List.mem_map.mp hcm
      have := hc.refs p n r hm hr
      simp only [decide_eq_true_eq]
      omega
    rw [e]
    exact List.nodup_nil

theorem attachOne_cases {s : State} {node : Nat} {parent target : ObjNode} (link : String)
    (hn : s.mem[node]? = some parent) {p : Nat} {n : ObjNode}
    (h : (attachOne s node parent target link).mem[p]? = some n) :
    (p = node ∧
      n = { parent with refs := parent.refs ++ [{ link := link, node := s.mem.length }] }) ∨
    (p ≠ node ∧ s.mem[p]? = some n) ∨
    (p = s.mem.length ∧ n = nodeCopy target) := by
  have hnl := getElem?_lt hn
  by_cases hp : p = node
  · subst hp
    rw [attachOne_parent link hn] at h
    cases h
    exact Or.inl ⟨rfl, rfl⟩
  · right
    have hpl := getElem?_lt h
    have hl : (attachOne s node parent target link).mem.length = s.mem.length + 1 := by
      simp [attachOne]
    rw [hl] at hpl
    simp only [attachOne] at h
    rw [List.getElem?_set_ne (Ne.symm hp)] at h
    by_cases hlt : p < s.mem.length
    · left
      rw [List.getElem?_append_left hlt] at h
      exact ⟨hp, h⟩
    · right
      have hpe : p = s.mem.length := by omega
      subst hpe
      rw [List.getElem?_concat_length] at h
      cases h
      exact ⟨rfl, rfl⟩

theorem shape_attachOne {base : Nat} {s : State} {node : Nat} {parent target : ObjNode}
    (link : String) (h : Shape base s) (hn : s.mem[node]? = some parent) :
    Shape base (attachOne s node parent target link) where
  le := by
    have := h.le
    simp [attachOne]
    omega
  order := fun p n r hm hr hb => by
    have hnl := getElem?_lt hn
    have hl : (attachOne s node parent target link).mem.length = s.mem.length + 1 := by
      simp [attachOne]
    rw [hl]
    rcases attachOne_cases link hn hm with ⟨rfl, rfl⟩ | ⟨_, hm0⟩ | ⟨_, rfl⟩
    · simp only [List.mem_append, List.mem_singleton] at hr
      rcases hr with hr | rfl
      · have := h.order p parent r hn hr hb
        omega
      · simp only
        omega
    · have := h.order p n r hm0 hr hb
      omega
    · simp [nodeCopy] at hr
  nodup := fun p n hm => by
    rcases attachOne_cases link hn hm with ⟨rfl, rfl⟩ | ⟨_, hm0⟩ | ⟨_, rfl⟩
    · have hb : decide (base ≤ s.mem.length) = true := by simpa using h.le
      simp only [List.map_append, List.map_cons, List.map_nil, List.filter_append,
        List.filter_cons, hb, if_true, List.filter_nil]
      rw [List.nodup_append]
      refine ⟨h.nodup p parent hn, List.nodup_singleton _, ?_⟩
      intro c hc1 hc2
      rw [List.mem_singleton] at hc2
      subst hc2
      obtain ⟨hc3, hc4⟩ := List.mem_filter.mp hc1
      obtain ⟨r, hr, hre⟩ := List.mem_map.mp hc3
      have := h.order p parent r hn hr (by rw [hre]; simpa using hc4)
      omega
    · exact h.nodup p n hm0
    · simp [nodeCopy]

theorem shape_attachRefs {base : Nat} (node : Nat) : ∀ (refs : List ObjRef) (s s1 : State)
    (cn cn1 : List Nat), attachRefs node refs s cn = .ok (s1, cn1) → Shape base s →
    Shape base s1
  | [], s, s1, cn, cn1, h, hs => by
    rw [attachRefs_nil] at h
    cases h
    exact hs
  | ref :: rest, s, s1, cn, cn1, h, hs => by
    obtain ⟨target, ht, ⟨hv, hr⟩ | ⟨hv, parent, hn, hr⟩⟩ := attachRefs_cons_ok h
    · exact shape_attachRefs node rest s s1 cn cn1 hr hs
    · exact shape_attachRefs node rest _ s1 _ cn1 hr (shape_attachOne ref.link hs hn)

theorem shape_expandNodes {base : Nat} : ∀ (f : List Nat) (s s2 : State) (cn cn2 : List Nat),
    expandNodes f s cn = .ok (s2, cn2) → Shape base s → Shape base s2
  | [], s, s2, cn, cn2, h, hs => by
    rw [expandNodes_nil] at h
    cases h
    exact hs
  | q :: rest, s, s2, cn, cn2, h, hs => by
    obtain ⟨n, c, cnode, s1, cn1, _, _, _, _, ha, hr⟩ := expandNodes_cons_ok h
    exact shape_expandNodes rest s1 s2 cn1 cn2 hr (shape_attachRefs q _ s s1 cn cn1 ha hs)

theorem shape_genUniqueRefTree {base : Nat} : ∀ (fuel : Nat) (s sF : State) (f : List Nat),
    genUniqueRefTree fuel s f = .ok sF → Shape base s → Shape base sF
  | 0, s, sF, f, h, _ => by simp [genUniqueRefTree] at h
  | fuel + 1, s, sF, f, h, hs => by
    obtain ⟨s1, f1, he, ⟨_, hr⟩ | ⟨_, rfl⟩⟩ := genUniqueRefTree_succ_ok h
    · exact shape_genUniqueRefTree fuel s1 sF f1 hr (shape_expandNodes f s s1 [] f1 he hs)
    · exact shape_expandNodes f s sF [] f1 he hs

theorem shape_buildForest {fuel : Nat} {st0 sF : State} (hc : Closed st0)
    (h : buildForest fuel st0 = .ok sF) : Shape st0.mem.length sF := by
  obtain ⟨s1, h1, h2⟩ := buildForest_ok h
  exact shape_genUniqueRefTree _ _ _ _ h2 (shape_genUniqueRefTree _ _ _ _ h1 (shape_init hc))

/-- More fuel does not change what a pass returns. -/
theorem genUniqueRefTree_fuel : ∀ (fuel fuel1 : Nat) (s sF : State) (f : List Nat),
    genUniqueRefTree fuel s f = .ok sF → fuel ≤ fuel1 → genUniqueRefTree fuel1 s f = .ok sF
  | 0, _, s, sF, f, h, _ => by simp [genUniqueRefTree] at h
  | fuel + 1, 0, s, sF, f, _, hle => by omega
  | fuel + 1, fuel1 + 1, s, sF, f, h, hle => by
    obtain ⟨s1, f1, he, ⟨hne, hr⟩ | ⟨rfl, rfl⟩⟩ := genUniqueRefTree_succ_ok h
    · have ih := genUniqueRefTree_fuel fuel fuel1 s1 sF f1 hr (by omega)
      have hl : f1.length > 0 := List.length_pos.mpr hne
      simp only [genUniqueRefTree, he, hl, if_true]
      exact ih
    · simp [genUniqueRefTree, he]

theorem buildForest_fuel {fuel fuel1 : Nat} {st0 sF : State}
    (h : buildForest fuel st0 = .ok sF) (hle : fuel ≤ fuel1) :
    buildForest fuel1 st0 = .ok sF := by
  obtain ⟨s1, h1, h2⟩ := buildForest_ok h
  have e1 := genUniqueRefTree_fuel _ _ _ _ _ h1 hle
  have e2 := genUniqueRefTree_fuel _ _ _ _ _ h2 hle
  simp only [buildForest, e1, e2]

/-! ## The forest as a value -/

theorem optMap_cons {α β : Type} {f : α → Option β} {a : α} {l : List α} {bs : List β}
    (h : optMap f (a :: l) = some bs) :
    ∃ b bs1, f a = some b ∧ optMap f l = some bs1 ∧ bs = b :: bs1 := by
  cases hfa : f a with
  | none => simp [optMap, hfa] at h
  | some b =>
    cases hl : optMap f l with
    | none => simp [optMap, hfa, hl] at h
    | some bs1 =>
      simp [optMap, hfa, hl] at h
      exact ⟨b, bs1, rfl, rfl, h.symm⟩

theorem optMap_mem {α β : Type} {f : α → Option β} : ∀ {l : List α} {bs : List β},
    optMap f l = some bs → ∀ b ∈ bs, ∃ a ∈ l, f a = some b
  | [], bs, h, b, hb => by
    simp [optMap] at h
    subst h
    simp at hb
  | a :: l, bs, h, b, hb => by
    obtain ⟨b0, bs1, h1, h2, rfl⟩ := optMap_cons h
    rcases List.mem_cons.mp hb with rfl | hb
    · exact ⟨a, List.mem_cons_self _ _, h1⟩
    · obtain ⟨a1, ha1, hf⟩ := optMap_mem h2 b hb
      exact ⟨a1, List.mem_cons_of_mem _ ha1, hf⟩

theorem optMap_mem_of {α β : Type} {f : α → Option β} : ∀ {l : List α} {bs : List β},
    optMap f l = some bs → ∀ a ∈ l, ∃ b ∈ bs, f a = some b
  | [], bs, _, a, ha => by simp at ha
  | x :: l, bs, h, a, ha => by
    obtain ⟨b0, bs1, h1, h2, rfl⟩ := optMap_cons h
    rcases List.mem_cons.mp ha with rfl | ha
    · exact ⟨b0, List.mem_cons_self _ _, h1⟩
    · obtain ⟨b1, hb1, hf⟩ := optMap_mem_of h2 a ha
      exact ⟨b1, List.mem_cons_of_mem _ hb1, hf⟩

theorem optMap_total {α β : Type} {f : α → Option β} : ∀ (l : List α),
    (∀ a ∈ l, ∃ b, f a = some b) → ∃ bs, optMap f l = some bs
  | [], _ => ⟨[], rfl⟩
  | a :: l, h => by
    obtain ⟨b, hb⟩ := h a (List.mem_cons_self _ _)
    obtain ⟨bs, hbs⟩ := optMap_total l (fun x hx => h x (List.mem_cons_of_mem _ hx))
    exact ⟨b :: bs, by simp [optMap, hb, hbs]⟩

theorem loadTree_succ_ok {fuel : Nat} {mem : List ObjNode} {p : Nat} {t : Tree}
    (h : loadTree (fuel + 1) mem p = some t) :
    ∃ n ts, mem[p]? = some n ∧
      optMap (fun r => (loadTree fuel mem r.node).map (fun t => (r.link, t))) n.refs = some ts ∧
      t = .mk n.addr n.name n.size ts := by
  cases hm : mem[p]? with
  | none => simp [loadTree, hm] at h
  | some n =>
    cases ho : optMap (fun r => (loadTree fuel mem r.node).map (fun t => (r.link, t))) n.refs with
    | none => simp [loadTree, hm, ho] at h
    | some ts =>
      simp [loadTree, hm, ho] at h
      exact ⟨n, ts, rfl, ho, h.symm⟩

theorem mem_addrsRefs {a : Nat} : ∀ {ts : List (String × Tree)},
    a ∈ Tree.addrsRefs ts ↔ ∃ lt ∈ ts, a ∈ lt.2.addrs
  | [] => by simp [Tree.addrsRefs]
  | (l, t) :: rest => by
    have ih := @mem_addrsRefs a rest
    simp only [Tree.addrsRefs, List.mem_append, ih, List.mem_cons, exists_eq_or_imp]

theorem mem_forestAddrs {a : Nat} : ∀ {forest : List Tree},
    a ∈ forestAddrs forest ↔ ∃ t ∈ forest, a ∈ t.addrs
  | [] => by simp [forestAddrs]
  | t :: rest => by
    have ih := @mem_forestAddrs a rest
    simp only [forestAddrs, List.mem_append, ih, List.mem_cons, exists_eq_or_imp]

theorem inTree_inv {s : State} {q d : Nat} (h : InTree s q d) :
    d = q ∨ ∃ p n r, InTree s q p ∧ s.mem[p]? = some n ∧ r ∈ n.refs ∧ r.node = d := by
  cases h with
  | self => exact Or.inl rfl
  | child h hm hr => exact Or.inr ⟨_, _, _, h, hm, hr, rfl⟩

theorem inTree_head {s : State} {q : Nat} {n : ObjNode} {r : ObjRef} (hm : s.mem[q]? = some n)
    (hr : r ∈ n.refs) {d : Nat} (h : InTree s r.node d) : InTree s q d := by
  induction h with
  | self => exact InTree.child (InTree.self q) hm hr
  | child _ hm1 hr1 ih => exact InTree.child ih hm1 hr1

theorem inTree_head_inv {s : State} {q d : Nat} (h : InTree s q d) :
    d = q ∨ ∃ n r, s.mem[q]? = some n ∧ r ∈ n.refs ∧ InTree s r.node d := by
  induction h with
  | self => exact Or.inl rfl
  | child h hm hr ih =>
    right
    rcases ih with rfl | ⟨n1, r1, hm1, hr1, ht⟩
    · exact ⟨_, _, hm, hr, InTree.self _⟩
    · exact ⟨n1, r1, hm1, hr1, InTree.child ht hm hr⟩

/-- Below a root or an allocated node every node but the first is allocated. -/
theorem inTree_good {base : Nat} {R : List Nat} {s : State} (F : ForestFacts base R s)
    {q d : Nat} (hq : q ∈ R ∨ base ≤ q) (h : InTree s q d) : d = q ∨ base ≤ d := by
  induction h with
  | self => exact Or.inl rfl
  | child _ hm hr ih =>
    right
    rcases ih with rfl | hb
    · exact F.kids _ _ hq hm _ hr
    · exact F.kids _ _ (Or.inr hb) hm _ hr

/-- Below an allocated node the pointers do not go down. -/
theorem inTree_ge {base : Nat} {R : List Nat} {s : State} (F : ForestFacts base R s)
    {c d : Nat} (hc : base ≤ c) (h : InTree s c d) : c ≤ d := by
  induction h with
  | self => exact le_refl _
  | child _ hm hr ih =>
    have hb := F.kids _ _ (Or.inr (le_trans hc ih)) hm _ hr
    have := (F.shape.order _ _ _ hm hr hb).1
    omega

/-- Two allocated nodes above the same node lie one above the other. -/
theorem inTree_chain {base : Nat} {R : List Nat} {s : State} (F : ForestFacts base R s)
    {c1 c2 d : Nat} (h1 : base ≤ c1) (t1 : InTree s c1 d)
    (t2 : InTree s c2 d) : InTree s c1 c2 ∨ InTree s c2 c1 := by
  induction t1 with
  | self => exact Or.inr t2
  | child t hm hr ih =>
    rcases inTree_inv t2 with e | ⟨p, n, r, t3, hm3, hr3, e⟩
    · left
      rw [← e]
      exact InTree.child t hm hr
    · have hb := F.kids _ _ (Or.inr (le_trans h1 (inTree_ge F h1 t))) hm _ hr
      have hpp := F.parent _ _ _ _ _ _ _ hb hm hr rfl hm3 hr3 e
      rw [← hpp] at t3
      exact ih t3

/-- Two children of one node with different pointers do not lie one above the
other. -/
theorem siblings_apart {base : Nat} {R : List Nat} {s : State} (F : ForestFacts base R s)
    {p : Nat} {n : ObjNode} {r1 r2 : ObjRef} (hp : p ∈ R ∨ base ≤ p)
    (hm : s.mem[p]? = some n) (hr1 : r1 ∈ n.refs) (hr2 : r2 ∈ n.refs)
    (hne : r1.node ≠ r2.node) : ¬ InTree s r1.node r2.node := by
  intro t
  have hb1 := F.kids p n hp hm r1 hr1
  have hb2 := F.kids p n hp hm r2 hr2
  rcases inTree_inv t with e | ⟨p1, n1, r, t3, hm3, hr3, e⟩
  · exact hne e.symm
  · have hpp := F.parent _ _ _ _ _ _ _ hb2 hm3 hr3 e hm hr2 rfl
    rw [hpp] at t3
    have h1 := inTree_ge F hb1 t3
    have h2 := (F.shape.order p n r1 hm hr1 hb1).1
    omega

/-- A node lies below one root only. -/
theorem root_unique {base : Nat} {R : List Nat} {s : State} (F : ForestFacts base R s)
    {q1 q2 d : Nat} (h1 : q1 ∈ R) (h2 : q2 ∈ R) (t1 : InTree s q1 d) (t2 : InTree s q2 d) :
    q1 = q2 := by
  induction t1 with
  | self =>
    rcases inTree_good F (Or.inl h2) t2 with e | hb
    · exact e
    · have := F.rootLt _ h1
      omega
  | child t hm hr ih =>
    rename_i p0 n0 r0
    have hgood : p0 ∈ R ∨ base ≤ p0 := by
      rcases inTree_good F (Or.inl h1) t with e | hb
      · exact Or.inl (e ▸ h1)
      · exact Or.inr hb
    have hb := F.kids _ _ hgood hm _ hr
    rcases inTree_inv t2 with e | ⟨p, n, r, t3, hm3, hr3, e⟩
    · have := F.rootLt _ h2
      omega
    · have hpp := F.parent _ _ _ _ _ _ _ hb hm hr rfl hm3 hr3 e
      rw [← hpp] at t3
      exact ih t3

/-- Every address of the tree read at `p` is the address of a node below `p`. -/
theorem load_mem {s : State} : ∀ (fuel p : Nat) (t : Tree) (a : Nat),
    loadTree fuel s.mem p = some t → a ∈ t.addrs →
    ∃ d, InTree s p d ∧ addrAt s d = some a
  | 0, p, t, a, h, _ => by simp [loadTree] at h
  | fuel + 1, p, t, a, h, ha => by
    obtain ⟨n, ts, hm, ho, rfl⟩ := loadTree_succ_ok h
    simp only [Tree.addrs, List.mem_cons] at ha
    rcases ha with rfl | ha
    · exact ⟨p, InTree.self p, by simp [addrAt, hm]⟩
    · obtain ⟨lt, hlt, ha1⟩ := mem_addrsRefs.mp ha
      obtain ⟨r, hr, hf⟩ := optMap_mem ho lt hlt
      cases hl : loadTree fuel s.mem r.node with
      | none => simp [hl] at hf
      | some t1 =>
        simp [hl] at hf
        subst hf
        obtain ⟨d, hd, hda⟩ := load_mem fuel r.node t1 a hl ha1
        exact ⟨d, inTree_head hm hr hd, hda⟩

/-- The address of every node below `p` is in the tree read at `p`. -/
theorem load_mem_of {s : State} : ∀ (fuel p : Nat) (t : Tree),
    loadTree fuel s.mem p = some t → ∀ (d a : Nat), InTree s p d → addrAt s d = some a →
    a ∈ t.addrs
  | 0, p, t, h, _, _, _, _ => by simp [loadTree] at h
  | fuel + 1, p, t, h, d, a, hd, hda => by
    obtain ⟨n, ts, hm, ho, rfl⟩ := loadTree_succ_ok h
    simp only [Tree.addrs, List.mem_cons]
    rcases inTree_head_inv hd with rfl | ⟨n1, r, hm1, hr, ht⟩
    · left
      simpa [addrAt, hm] using hda.symm
    · right
      rw [hm] at hm1
      cases hm1
      obtain ⟨lt, hlt, hf⟩ := optMap_mem_of ho r hr
      cases hl : loadTree fuel s.mem r.node with
      | none => simp [hl] at hf
      | some t1 =>
        simp [hl] at hf
        subst hf
        exact mem_addrsRefs.mpr ⟨_, hlt, load_mem_of fuel r.node t1 hl d a ht hda⟩

/-- The tree read at a root or at an allocated node holds no address twice. -/
theorem load_nodup {base : Nat} {R : List Nat} {s : State} (F : ForestFacts base R s) :
    ∀ (fuel p : Nat) (t : Tree), (p ∈ R ∨ base ≤ p) → loadTree fuel s.mem p = some t →
    t.addrs.Nodup
  | 0, p, t, _, h => by simp [loadTree] at h
  | fuel + 1, p, t, hp, h => by
    obtain ⟨n, ts, hm, ho, rfl⟩ := loadTree_succ_ok h
    have kids := F.kids p n hp hm
    have hnd : (n.refs.map (fun r => r.node)).Nodup := by
      have h0 := F.shape.nodup p n hm
      have e : (n.refs.map (fun r => r.node)).filter (fun c => decide (base ≤ c)) =
          n.refs.map (fun r => r.node) := by
        rw [List.filter_eq_self]
        intro c hc
        obtain ⟨r, hr, rfl⟩ := List.mem_map.mp hc
        simpa using kids r hr
      rwa [e] at h0
    have below : ∀ (r : ObjRef) (t1 : Tree) (a : Nat), r ∈ n.refs →
        loadTree fuel s.mem r.node = some t1 → a ∈ t1.addrs →
        ∃ d, InTree s r.node d ∧ addrAt s d = some a ∧ base ≤ d ∧ p < d := by
      intro r t1 a hr hl ha
      obtain ⟨d, hd, hda⟩ := load_mem fuel r.node t1 a hl ha
      have hb := kids r hr
      have h1 := inTree_ge F hb hd
      have h2 := (F.shape.order p n r hm hr hb).1
      exact ⟨d, hd, hda, by omega, by omega⟩
    have list : ∀ (l : List ObjRef) (ts1 : List (String × Tree)), (∀ r ∈ l, r ∈ n.refs) →
        (l.map (fun r => r.node)).Nodup →
        optMap (fun r => (loadTree fuel s.mem r.node).map (fun t => (r.link, t))) l = some ts1 →
        (Tree.addrsRefs ts1).Nodup := by
      intro l
      induction l with
      | nil =>
        intro ts1 _ _ h1
        simp [optMap] at h1
        subst h1
        simp [Tree.addrsRefs]
      | cons r rest ih =>
        intro ts1 hsub hnd1 h1
        obtain ⟨lt, ts2, hf, h2, rfl⟩ := optMap_cons h1
        have hr : r ∈ n.refs := hsub r (List.mem_cons_self _ _)
        simp only [List.map_cons, List.nodup_cons] at hnd1
        cases hl : loadTree fuel s.mem r.node with
        | none => simp [hl] at hf
        | some t1 =>
          simp [hl] at hf
          subst hf
          simp only [Tree.addrsRefs]
          rw [List.nodup_append]
          refine ⟨load_nodup F fuel r.node t1 (Or.inr (kids r hr)) hl,
            ih ts2 (fun x hx => hsub x (List.mem_cons_of_mem _ hx)) hnd1.2 h2, ?_⟩
          intro a ha1 ha2
          obtain ⟨d1, hd1, hda1, hb1, _⟩ := below r t1 a hr hl ha1
          obtain ⟨lt2, hlt2, ha3⟩ := mem_addrsRefs.mp ha2
          obtain ⟨r2, hr2, hf2⟩ := optMap_mem h2 lt2 hlt2
          have hr2' : r2 ∈ n.refs := hsub r2 (List.mem_cons_of_mem _ hr2)
          cases hl2 : loadTree fuel s.mem r2.node with
          | none => simp [hl2] at hf2
          | some t2 =>
            simp [hl2] at hf2
            subst hf2
            obtain ⟨d2, hd2, hda2, hb2, _⟩ := below r2 t2 a hr2' hl2 ha3
            have hdd := F.addrInj d1 d2 a (Or.inr hb1) (Or.inr hb2) hda1 hda2
            subst hdd
            have hne : r.node ≠ r2.node := by
              intro e
              exact hnd1.1 (List.mem_map.mpr ⟨r2, hr2, e.symm⟩)
            rcases inTree_chain F (kids r hr) hd1 hd2 with c | c
            · exact siblings_apart F hp hm hr hr2' hne c
            · exact siblings_apart F hp hm hr2' hr (Ne.symm hne) c
    simp only [Tree.addrs, List.nodup_cons]
    refine ⟨?_, list n.refs ts (fun r hr => hr) hnd ho⟩
    intro ha
    obtain ⟨lt, hlt, ha1⟩ := mem_addrsRefs.mp ha
    obtain ⟨r, hr, hf⟩ := optMap_mem ho lt hlt
    cases hl : loadTree fuel s.mem r.node with
    | none => simp [hl] at hf
    | some t1 =>
      simp [hl] at hf
      subst hf
      obtain ⟨d, _, hda, hb, hlt1⟩ := below r t1 n.addr hr hl ha1
      have := F.addrInj p d n.addr hp (Or.inr hb) (by simp [addrAt, hm]) hda
      omega

/-- The forest read at the roots holds no address twice. -/
theorem loadForest_nodup {base : Nat} {R : List Nat} {s : State} (F : ForestFacts base R s)
    (fuel : Nat) : ∀ (l : List Nat) (forest : List Tree), (∀ q ∈ l, q ∈ R) → l.Nodup →
    optMap (loadTree fuel s.mem) l = some forest → (forestAddrs forest).Nodup
  | [], forest, _, _, h => by
    simp [optMap] at h
    subst h
    simp [forestAddrs]
  | q :: rest, forest, hsub, hnd, h => by
    obtain ⟨t, ts, hf, h2, rfl⟩ := optMap_cons h
    have hq : q ∈ R := hsub q (List.mem_cons_self _ _)
    rw [List.nodup_cons] at hnd
    simp only [forestAddrs]
    rw [List.nodup_append]
    refine ⟨load_nodup F fuel q t (Or.inl hq) hf,
      loadForest_nodup F fuel rest ts (fun x hx => hsub x (List.mem_cons_of_mem _ hx)) hnd.2 h2,
      ?_⟩
    intro a ha1 ha2
    obtain ⟨d1, hd1, hda1⟩ := load_mem fuel q t a hf ha1
    obtain ⟨t2, ht2, ha3⟩ := mem_forestAddrs.mp ha2
    obtain ⟨q2, hq2, hf2⟩ := optMap_mem h2 t2 ht2
    have hq2' : q2 ∈ R := hsub q2 (List.mem_cons_of_mem _ hq2)
    obtain ⟨d2, hd2, hda2⟩ := load_mem fuel q2 t2 a hf2 ha3
    have good : ∀ (x d : Nat), x ∈ R → InTree s x d → d ∈ R ∨ base ≤ d := by
      intro x d hx hd
      rcases inTree_good F (Or.inl hx) hd with e | hb
      · exact Or.inl (e ▸ hx)
      · exact Or.inr hb
    have hdd := F.addrInj d1 d2 a (good q d1 hq hd1) (good q2 d2 hq2' hd2) hda1 hda2
    subst hdd
    have := root_unique F hq hq2' hd1 hd2
    subst this
    exact hnd.1 hq2

/-- The tree below a root or an allocated node is read with a fuel above the
number of pointers from the node to the end of the store. -/
theorem loadTree_total {base : Nat} {R : List Nat} {s : State} (F : ForestFacts base R s) :
    ∀ (fuel p : Nat), (p ∈ R ∨ base ≤ p) → p < s.mem.length → s.mem.length - p < fuel →
    ∃ t, loadTree fuel s.mem p = some t
  | 0, p, _, _, h => by omega
  | fuel + 1, p, hp, hlt, h => by
    obtain ⟨n, hm⟩ : ∃ n, s.mem[p]? = some n := ⟨_, List.getElem?_eq_getElem hlt⟩
    have kids := F.kids p _ hp hm
    obtain ⟨ts, hts⟩ := optMap_total
      (f := fun r => (loadTree fuel s.mem r.node).map (fun t => (r.link, t))) n.refs
      (fun r hr => by
        have hb := kids r hr
        have ho := F.shape.order p _ r hm hr hb
        obtain ⟨t1, ht1⟩ := loadTree_total F fuel r.node (Or.inr hb) ho.2 (by omega)
        exact ⟨(r.link, t1), by simp [ht1]⟩)
    exact ⟨.mk n.addr n.name n.size ts, by simp [loadTree, hm, hts]⟩

theorem loadForest_total {base : Nat} {R : List Nat} {s : State} (F : ForestFacts base R s)
    (hR : s.rootObjNodes = R) {fuel : Nat} (hf : s.mem.length < fuel) :
    ∃ forest, loadForest fuel s = some forest := by
  unfold loadForest
  apply optMap_total
  intro q hq
  rw [hR] at hq
  have h1 := F.rootLt q hq
  have h2 := F.shape.le
  exact loadTree_total F fuel q (Or.inl hq) (by omega) (by omega)

theorem nodup_of_addrsOf {st : State} : ∀ (l : List Nat),
    (∀ q ∈ l, ∃ a, addrAt st q = some a) → (addrsOf st l).Nodup → l.Nodup
  | [], _, _ => List.nodup_nil
  | x :: rest, h, hnd => by
    obtain ⟨a, ha⟩ := h x (List.mem_cons_self _ _)
    have hx : addrsOf st (x :: rest) = a :: addrsOf st rest := by
      unfold addrsOf addrAt at *
      simp [List.filterMap_cons, ha]
    rw [hx, List.nodup_cons] at hnd
    rw [List.nodup_cons]
    refine ⟨fun hmem => hnd.1 (mem_addrsOf.mpr ⟨x, hmem, ha⟩),
      nodup_of_addrsOf rest (fun q hq => h q (List.mem_cons_of_mem _ hq)) hnd.2⟩

/-- Two nodes of the forest (roots or allocated nodes) with the same address
are the same node. -/
theorem good_addr_inj {st0 sF : State} (wf : IngestWF st0) (g : Grows st0 sF)
    (hroots : (addrsOf st0 st0.rootObjNodes).Nodup) (p q a : Nat)
    (hp : p ∈ st0.rootObjNodes ∨ st0.mem.length ≤ p)
    (hq : q ∈ st0.rootObjNodes ∨ st0.mem.length ≤ q)
    (hpa : addrAt sF p = some a) (hqa : addrAt sF q = some a) : p = q := by
  have rootFacts : ∀ x, x ∈ st0.rootObjNodes → addrAt sF x = some a →
      addrAt st0 x = some a ∧ a ∈ st0.visitedNodes := by
    intro x hx hxa
    obtain ⟨n0, hn0, _, hv, _⟩ := wf.roots x hx
    have h0 : addrAt st0 x = some n0.addr := by simp [addrAt, hn0]
    have h1 := addrAt_grows g h0
    rw [hxa] at h1
    cases h1
    exact ⟨h0, hv⟩
  have newFacts : ∀ x, st0.mem.length ≤ x → addrAt sF x = some a → a ∉ st0.visitedNodes := by
    intro x hx hxa
    unfold addrAt at hxa
    cases hm : sF.mem[x]? with
    | none => simp [hm] at hxa
    | some n =>
      simp [hm] at hxa
      rw [← hxa]
      exact (g.fresh x n hx hm).2.1
  rcases hp with hp1 | hp1 <;> rcases hq with hq1 | hq1
  · exact addrsOf_nodup_inj hroots hp1 hq1 (rootFacts p hp1 hpa).1 (rootFacts q hq1 hqa).1
  · exact absurd (rootFacts p hp1 hpa).2 (newFacts q hq1 hqa)
  · exact absurd (rootFacts q hq1 hqa).2 (newFacts p hp1 hpa)
  · unfold addrAt at hpa hqa
    cases hm1 : sF.mem[p]? with
    | none => simp [hm1] at hpa
    | some n =>
      cases hm2 : sF.mem[q]? with
      | none => simp [hm2] at hqa
      | some m =>
        simp [hm1] at hpa
        simp [hm2] at hqa
        exact g.inj p q n m hp1 hq1 hm1 hm2 (by rw [hpa, hqa])

/-- What tree building leaves below the roots of an ingested state. -/
theorem forestFacts_buildForest {fuel : Nat} {st0 sF : State} (hin : Ingested st0)
    (hroots : (addrsOf st0 st0.rootObjNodes).Nodup) (h : buildForest fuel st0 = .ok sF) :
    ForestFacts st0.mem.length st0.rootObjNodes sF where
  shape := shape_buildForest hin.wf.closed h
  rootLt := fun q hq => by
    obtain ⟨n, hn, _⟩ := hin.wf.roots q hq
    exact getElem?_lt hn
  rootsNodup := nodup_of_addrsOf _ (fun q hq => by
    obtain ⟨n, hn, _⟩ := hin.wf.roots q hq
    exact ⟨n.addr, by simp [addrAt, hn]⟩) hroots
  kids := fun p n hp hm r hr => by
    have g := buildForest_grows h
    rcases hp with hp | hp
    · obtain ⟨n0, hn0, hrefs, _, _⟩ := hin.wf.roots p hp
      obtain ⟨n1, e1, _, _, _, ex, hex, hexn⟩ := g.old p n0 hn0
      rw [hm] at e1
      cases e1
      rw [hex, hrefs] at hr
      exact (hexn r (by simpa using hr)).1
    · exact ((g.fresh p n hp hm).2.2 r hr).1
  parent := fun p q1 q2 n1 n2 r1 r2 hp h1 hr1 e1 h2 hr2 e2 =>
    (buildForest_grows h).parent hin.wf.closed p q1 q2 n1 n2 r1 r2 hp h1 hr1 e1 h2 hr2 e2
  addrInj := fun x y a hx hy hxa hya =>
    good_addr_inj hin.wf (buildForest_grows h) hroots x y a hx hy hxa hya

mutual
/-- Aggregation changes sizes only: the sized tree has the addresses of the
tree, in the same order. -/
theorem addrs_calcTreeSize : ∀ t : Tree, (calcTreeSize t).1.addrs = t.addrs
  | .mk addr name size refs => by
    simp only [calcTreeSize, Tree.addrs, addrsRefs_calcRefs refs]
theorem addrsRefs_calcRefs : ∀ refs : List (String × Tree),
    Tree.addrsRefs (calcRefs refs).1 = Tree.addrsRefs refs
  | [] => by simp [calcRefs, Tree.addrsRefs]
  | (link, t) :: rest => by
    simp only [calcRefs, Tree.addrsRefs, addrs_calcTreeSize t, addrsRefs_calcRefs rest]
end

theorem forestAddrs_calcForest : ∀ forest : List Tree,
    forestAddrs (calcForest forest).1 = forestAddrs forest
  | [] => by simp [calcForest, forestAddrs]
  | t :: rest => by
    simp only [calcForest, forestAddrs, addrs_calcTreeSize t, forestAddrs_calcForest rest]

/-- C2: on every ingested state whose registered roots have pairwise distinct
addresses the two tree-building passes return and the forest below
`rootObjNodes` is read as a value (with one fuel, as in `runObjref`).  In the
state the passes return, two nodes of the forest that carry the same address
are the same node; and the forest that is read, which is what `calcTreeSize`
and `printRefPath` walk through, holds no address twice, keeps its addresses
under aggregation, and holds exactly the addresses of the nodes of the
forest. -/
theorem C2_forest_addresses_unique (st0 : State) (hin : Ingested st0)
    (hroots : (addrsOf st0 st0.rootObjNodes).Nodup) :
    (∃ fuel sF forest, buildForest fuel st0 = .ok sF ∧ loadForest fuel sF = some forest) ∧
    ∀ fuel sF, buildForest fuel st0 = .ok sF →
      (∀ p q a, InForest sF p → InForest sF q → addrAt sF p = some a →
        addrAt sF q = some a → p = q) ∧
      ∀ fuel1 forest, loadForest fuel1 sF = some forest →
        (forestAddrs forest).Nodup ∧
        forestAddrs (calcForest forest).1 = forestAddrs forest ∧
        ∀ a, a ∈ forestAddrs forest ↔ ∃ p, InForest sF p ∧ addrAt sF p = some a := by
  constructor
  · obtain ⟨sF, hF⟩ := buildForest_total hin (Nat.lt_succ_self _)
    have F := forestFacts_buildForest hin hroots hF
    have g := buildForest_grows hF
    obtain ⟨forest, hl⟩ := loadForest_total F g.roots
      (Nat.lt_succ_of_le (le_max_right (unvisitedCount (storeAddrs st0) st0 + 1) sF.mem.length))
    exact ⟨_, sF, forest, buildForest_fuel hF (Nat.le_succ_of_le (le_max_left _ _)), hl⟩
  · intro fuel sF hrun
    have F := forestFacts_buildForest hin hroots hrun
    have g := buildForest_grows hrun
    refine ⟨fun p q a hp hq hpa hqa => F.addrInj p q a (inForest_cases hin.wf g hp)
      (inForest_cases hin.wf g hq) hpa hqa, ?_⟩
    intro fuel1 forest hl
    unfold loadForest at hl
    rw [g.roots] at hl
    refine ⟨loadForest_nodup F fuel1 _ forest (fun q hq => hq) F.rootsNodup hl,
      forestAddrs_calcForest forest, fun a => ?_⟩
    constructor
    · intro ha
      obtain ⟨t, ht, hat⟩ := mem_forestAddrs.mp ha
      obtain ⟨q, hq, hf⟩ := optMap_mem hl t ht
      obtain ⟨d, hd, hda⟩ := load_mem fuel1 q t a hf hat
      exact ⟨d, ⟨q, by rw [g.roots]; exact hq, hd⟩, hda⟩
    · rintro ⟨p, ⟨q, hq, hd⟩, hpa⟩
      rw [g.roots] at hq
      obtain ⟨t, ht, hf⟩ := optMap_mem_of hl q hq
      exact mem_forestAddrs.mpr ⟨t, ht, load_mem_of fuel1 q t hf p a hd hpa⟩

theorem C2_forest_addresses_unique_witness :
    Ingested (ingest scenarioA) ∧
    (addrsOf (ingest scenarioA) (ingest scenarioA).rootObjNodes).Nodup ∧
    (∃ fuel sF forest, buildForest fuel (ingest scenarioA) = .ok sF ∧
      loadForest fuel sF = some forest) ∧
    ∀ fuel sF, buildForest fuel (ingest scenarioA) = .ok sF →
      (∀ p q a, InForest sF p → InForest sF q → addrAt sF p = some a →
        addrAt sF q = some a → p = q) ∧
      ∀ fuel1 forest, loadForest fuel1 sF = some forest →
        (forestAddrs forest).Nodup ∧
        forestAddrs (calcForest forest).1 = forestAddrs forest ∧
        ∀ a, a ∈ forestAddrs forest ↔ ∃ p, InForest sF p ∧ addrAt sF p = some a :=
  ⟨ingest_ingested scenarioA, by decide,
    C2_forest_addresses_unique (ingest scenarioA) (ingest_ingested scenarioA) (by decide)⟩

theorem treeDepth_unique {st0 sF : State} {nodes : List Nat} (hc : Closed st0)
    (g : Grows st0 sF) (hval : ∀ q ∈ nodes, q < st0.mem.length) :
    ∀ {d p : Nat}, TreeDepth sF st0.mem.length nodes d p →
      ∀ {d1 : Nat}, TreeDepth sF st0.mem.length nodes d1 p → d = d1 := by
  intro d p h
  induction h with
  | root hq =>
    intro d1 h1
    cases h1 with
    | root _ => rfl
    | child _ _ _ hb =>
      have := hval _ hq
      omega
  | child hq hm hr hb ih =>
    intro d1 h1
    cases h1 with
    | root hq1 =>
      have := hval _ hq1
      omega
    | child hq1 hm1 hr1 _ =>
      have := g.parent hc _ _ _ _ _ _ _ hb hm hr rfl hm1 hr1 rfl
      subst this
      rw [ih hq1]

/-- C4: in one pass of `genUniqueRefTree` over a closed store and roots that
are marked visited, every node the pass allocates was made while some frontier
of depth `d` was expanded; it sits in the next frontier, at the depth `d + 1`
of the forest and at no other depth; its address is reached from a root in
`d + 1` edges of the ingested graph and not in fewer, over paths that avoid the
addresses visited before the pass; its parent is the first node of that
frontier, in frontier order, with an edge to its address; and it is attached
under the label of the first such edge of the parent.  (`AttachedAt` spells
this out.) -/
theorem C4_shallowest_first (st0 sF : State) (nodes : List Nat) (fuel : Nat)
    (hc : Closed st0)
    (hroots : ∀ q ∈ nodes, ∃ a, addrAt st0 q = some a ∧ a ∈ st0.visitedNodes)
    (hrun : genUniqueRefTree fuel st0 nodes = .ok sF) (p : Nat)
    (hp1 : st0.mem.length ≤ p) (hp2 : p < sF.mem.length) :
    AttachedAt st0 nodes sF p ∧
    ∀ d1 d2, TreeDepth sF st0.mem.length nodes d1 p →
      TreeDepth sF st0.mem.length nodes d2 p → d1 = d2 := by
  obtain ⟨D, inv⟩ := genUniqueRefTree_final hc hroots hrun
  refine ⟨inv.attached p hp1 hp2, fun d1 d2 h1 h2 => ?_⟩
  exact treeDepth_unique hc inv.grows (fun q hq => by
    obtain ⟨a, ha, _⟩ := hroots q hq
    exact addrAt_lt ha) h1 h2

theorem C4_shallowest_first_witness :
    Closed (ingest scenarioA) ∧
    (∀ q ∈ [4, 6], ∃ a, addrAt (ingest scenarioA) q = some a ∧
      a ∈ (ingest scenarioA).visitedNodes) ∧
    genUniqueRefTree 3 (ingest scenarioA) [4, 6] =
      .ok (okState (genUniqueRefTree 3 (ingest scenarioA) [4, 6])) ∧
    (ingest scenarioA).mem.length ≤ 9 ∧
    9 < (okState (genUniqueRefTree 3 (ingest scenarioA) [4, 6])).mem.length ∧
    AttachedAt (ingest scenarioA) [4, 6]
      (okState (genUniqueRefTree 3 (ingest scenarioA) [4, 6])) 9 ∧
    ∀ d1 d2,
      TreeDepth (okState (genUniqueRefTree 3 (ingest scenarioA) [4, 6]))
        (ingest scenarioA).mem.length [4, 6] d1 9 →
      TreeDepth (okState (genUniqueRefTree 3 (ingest scenarioA) [4, 6]))
        (ingest scenarioA).mem.length [4, 6] d2 9 → d1 = d2 :=
  have hroots : ∀ q ∈ [4, 6], ∃ a, addrAt (ingest scenarioA) q = some a ∧
      a ∈ (ingest scenarioA).visitedNodes := by
    intro q hq
    simp only [List.mem_cons, List.mem_singleton, List.not_mem_nil, or_false] at hq
    rcases hq with rfl | rfl
    · exact ⟨1, rfl, by decide⟩
    · exact ⟨2, rfl, by decide⟩
  ⟨(ingest_ingested scenarioA).wf.closed, hroots, rfl, by decide, by decide,
    C4_shallowest_first (ingest scenarioA) _ [4, 6] 3 (ingest_ingested scenarioA).wf.closed
      hroots rfl 9 (by decide) (by decide)⟩

/-- C5 as stated fails: the global `R` points to the object at the address of
a goroutine `G`, which points to `X`.  `X` is reached in the ingested graph
from the global root (R -> G -> X) and from the goroutine root (G -> X), but
after the two passes the tree of the global root is `R` alone: the address of
`G` was marked visited when the goroutine was registered, so the first pass
went no further. -/
theorem C5_not_on_global_side :
    addrsOf (ingest sharedCore) (ingest sharedCore).globalVarNodes = [1] ∧
    addrsOf (ingest sharedCore) (ingest sharedCore).goroutineNodes = [7] ∧
    edgesOf (ingest sharedCore) 1 = [("g", 7)] ∧
    edgesOf (ingest sharedCore) 7 = [("x", 10)] ∧
    (ingest sharedCore).visitedNodes = [7, 1] ∧
    ∃ sF, buildForest 3 (ingest sharedCore) = .ok sF ∧
      loadForest 3 sF = some [.mk 1 "R" 0 [], .mk 7 "G" 8 []] :=
  ⟨by decide, by decide, by decide, by decide, by decide, _, rfl, rfl⟩

theorem PathLen.mono_avoid {st : State} {v1 v2 : List Nat} (h : ∀ x, x ∈ v2 → x ∈ v1)
    {k a b : Nat} (hp : PathLen st v1 k a b) : PathLen st v2 k a b := by
  induction hp with
  | zero => exact PathLen.zero _
  | snoc _ hedge hb ih => exact PathLen.snoc ih hedge (fun hx => hb (h _ hx))

/-- C5 (amended): on every ingested state the two passes return, and in the
state they return every address that is reached from the address of a
global-variable root along a path of the ingested graph on which no address
after the start is the address of a root (global variable or goroutine) is the
address of a node inside the tree of a global-variable root. -/
theorem C5_global_side_attribution (st0 : State) (hin : Ingested st0) (g a b k : Nat)
    (hg : g ∈ st0.globalVarNodes) (ha : addrAt st0 g = some a)
    (hpath : PathLen st0 (addrsOf st0 st0.rootObjNodes) k a b) :
    (∃ fuel sF, buildForest fuel st0 = .ok sF) ∧
    ∀ fuel sF, buildForest fuel st0 = .ok sF →
      ∃ g1 ∈ st0.globalVarNodes, ∃ p, InTree sF g1 p ∧ addrAt sF p = some b := by
  refine ⟨⟨_, buildForest_total hin (Nat.lt_succ_self _)⟩, ?_⟩
  intro fuel sF hrun
  have wf := hin.wf
  obtain ⟨s1, h1, h2⟩ := buildForest_ok hrun
  have g2 := genUniqueRefTree_grows _ _ _ _ h2
  have hroots : ∀ q ∈ st0.globalVarNodes, ∃ a, addrAt st0 q = some a ∧
      a ∈ st0.visitedNodes := by
    intro q hq
    obtain ⟨n, hn, _, hv, _⟩ := wf.roots q (wf.globals q hq)
    exact ⟨n.addr, by simp [addrAt, hn], hv⟩
  obtain ⟨D, inv⟩ := genUniqueRefTree_final wf.closed hroots h1
  have hpath' : PathLen st0 st0.visitedNodes k a b :=
    hpath.mono_avoid (fun x hx => by
      obtain ⟨p, hp, hpa⟩ := wf.visited x hx
      exact mem_addrsOf.mpr ⟨p, hp, hpa⟩)
  have hvis := reach_visited inv hroots hg ha hpath'
  rcases pathLen_last hpath' with ⟨_, rfl⟩ | hnv
  · exact ⟨g, hg, g, InTree.self g, addrAt_grows g2 (addrAt_grows inv.grows ha)⟩
  · obtain ⟨c, hc1, hca⟩ := inv.node b hvis hnv
    obtain ⟨q, hq, ht⟩ := inv.tree c (Or.inr ⟨hc1, addrAt_lt hca⟩)
    exact ⟨q, hq, c, inTree_of_grows g2 ht, addrAt_grows g2 hca⟩

theorem C5_global_side_attribution_witness :
    Ingested (ingest scenarioA) ∧
    4 ∈ (ingest scenarioA).globalVarNodes ∧ addrAt (ingest scenarioA) 4 = some 1 ∧
    PathLen (ingest scenarioA) (addrsOf (ingest scenarioA) (ingest scenarioA).rootObjNodes)
      2 1 30 ∧
    (∃ fuel sF, buildForest fuel (ingest scenarioA) = .ok sF) ∧
    ∀ fuel sF, buildForest fuel (ingest scenarioA) = .ok sF →
      ∃ g1 ∈ (ingest scenarioA).globalVarNodes, ∃ p, InTree sF g1 p ∧ addrAt sF p = some 30 :=
  have hpath : PathLen (ingest scenarioA)
      (addrsOf (ingest scenarioA) (ingest scenarioA).rootObjNodes) 2 1 30 :=
    @PathLen.snoc _ _ 1 1 10 30 "c"
      (@PathLen.snoc _ _ 0 1 1 10 "a" (PathLen.zero 1) (by decide) (by decide))
      (by decide) (by decide)
  ⟨ingest_ingested scenarioA, by decide, rfl, hpath,
    C5_global_side_attribution (ingest scenarioA) (ingest_ingested scenarioA) 4 1 30 2
      (by decide) rfl hpath⟩

/-! ## Negative sizes at the threshold 0 -/

theorem findOrCreateObjNode_existing {st : State} {addr p : Nat} {node : ObjNode}
    (hl : st.allNodes.lookup addr = some p) (hm : st.mem[p]? = some node) (name : String)
    (size : Int) :
    findOrCreateObjNode st name addr size =
      ({ st with
          mem := st.mem.set p
            (if hasPrefixUnk node.name = true ∧ hasPrefixUnk name = false then
              { node with name := name } else node)
          stderr := st.stderr ++
            (if size ≠ node.size then
              ["same address: " ++ toString addr ++ ", old size: " ++ toString node.size ++
                ", new size: " ++ toString size ++ "\n"]
            else []) }, p, true) := by
  unfold findOrCreateObjNode
  simp only [hl, hm]
  have e1 : (if node.size ≠ size then
      st.stderr ++ ["same address: " ++ toString addr ++ ", old size: " ++ toString node.size ++
        ", new size: " ++ toString size ++ "\n"] else st.stderr) =
      st.stderr ++ (if size ≠ node.size then
        ["same address: " ++ toString addr ++ ", old size: " ++ toString node.size ++
          ", new size: " ++ toString size ++ "\n"] else []) := by
    by_cases h : size = node.size
    · simp [h]
    · have h' : node.size ≠ size := fun e => h e.symm
      simp [h, h']
  have e2 : (if node.name ≠ name ∧ hasPrefixUnk node.name = true ∧ hasPrefixUnk name = false then
      { node with name := name } else node) =
      (if hasPrefixUnk node.name = true ∧ hasPrefixUnk name = false then
        { node with name := name } else node) := by
    by_cases h : hasPrefixUnk node.name = true ∧ hasPrefixUnk name = false
    · have hne : node.name ≠ name := by
        intro e
        rw [e] at h
        rw [h.2] at h
        exact Bool.false_ne_true h.1
      rw [if_pos ⟨hne, h⟩, if_pos h]
    · rw [if_neg h, if_neg (fun hh => h hh.2)]
  rw [e1, e2]

theorem findOrCreateObjNode_new {st : State} {addr : Nat}
    (hl : st.allNodes.lookup addr = none) (name : String) (size : Int) :
    findOrCreateObjNode st name addr size =
      ({ st with
          mem := st.mem ++ [{ name := name, addr := addr, size := size, refs := [] }]
          allNodes := (addr, st.mem.length) :: st.allNodes }, st.mem.length, false) := by
  unfold findOrCreateObjNode
  simp only [hl]

theorem lookup_isSome_iff {a : Nat} : ∀ {l : List (Nat × Nat)},
    (∃ p, l.lookup a = some p) ↔ a ∈ l.map Prod.fst
  | [] => by simp
  | (k, v) :: rest => by
    rw [lookup_cons_eq]
    by_cases h : a = k
    · subst h; simp
    · simp only [if_neg h, List.map_cons, List.mem_cons, h, false_or]
      exact lookup_isSome_iff

theorem lookup_none_iff {a : Nat} {l : List (Nat × Nat)} :
    l.lookup a = none ↔ a ∉ l.map Prod.fst := by
  rw [← lookup_isSome_iff]
  cases l.lookup a <;> simp

theorem canon_findOrCreateObjNode {st : State} (h : Canon st) (name : String) (addr : Nat)
    (size : Int) : Canon (findOrCreateObjNode st name addr size).1 := by
  cases hl : st.allNodes.lookup addr with
  | some p =>
    obtain ⟨node, hm, ha⟩ := h addr p hl
    rw [findOrCreateObjNode_existing hl hm]
    intro a q hq
    obtain ⟨n, hn, hna⟩ := h a q hq
    by_cases hqp : p = q
    · subst hqp
      rw [hm] at hn
      cases hn
      refine ⟨_, List.getElem?_set_self (getElem?_lt hm), ?_⟩
      split_ifs <;> exact hna
    · exact ⟨n, by simp only [List.getElem?_set_ne hqp, hn], hna⟩
  | none =>
    rw [findOrCreateObjNode_new hl]
    intro a q hq
    simp only [lookup_cons_eq] at hq
    split_ifs at hq with he
    · cases hq
      subst he
      exact ⟨{ name := name, addr := a, size := size, refs := [] }, by simp, rfl⟩
    · obtain ⟨n, hn, hna⟩ := h a q hq
      exact ⟨n, by simp only [List.getElem?_append_left (getElem?_lt hn), hn], hna⟩

theorem Ingested.canon {st : State} (h : Ingested st) : Canon st := by
  induction h with
  | init => intro a p hl; simp [State.init] at hl
  | register st name addr size _ ih => exact canon_findOrCreateObjNode ih name addr size
  | edge st a b node cNode link _ _ _ ih =>
    intro a1 p hl
    unfold appendChild at hl ⊢
    cases hn : st.mem[node]? with
    | none => simp only [hn] at hl ⊢; exact ih a1 p hl
    | some nd =>
      simp only [hn] at hl ⊢
      obtain ⟨n, hp, hna⟩ := ih a1 p hl
      by_cases hqp : node = p
      · subst hqp
        rw [hn] at hp
        cases hp
        exact ⟨_, List.getElem?_set_self (getElem?_lt hn), hna⟩
      · exact ⟨n, by simp only [List.getElem?_set_ne hqp, hp], hna⟩
  | globalVar st a node _ _ ih =>
    intro a1 p hl
    unfold addGlobalVarNodes at hl ⊢
    cases hn : st.mem[node]? with
    | none => simp only [hn] at hl ⊢; exact ih a1 p hl
    | some nd =>
      simp only [hn] at hl ⊢
      obtain ⟨n, hp, hna⟩ := ih a1 p hl
      exact ⟨n, by simp only [List.getElem?_append_left (getElem?_lt hp), hp], hna⟩
  | goroutine st a node _ _ ih =>
    intro a1 p hl
    unfold addGoroutines at hl ⊢
    cases hn : st.mem[node]? with
    | none => simp only [hn] at hl ⊢; exact ih a1 p hl
    | some nd =>
      simp only [hn] at hl ⊢
      obtain ⟨n, hp, hna⟩ := ih a1 p hl
      exact ⟨n, by simp only [List.getElem?_append_left (getElem?_lt hp), hp], hna⟩

theorem registerAll_ingested : ∀ (calls : List (String × Nat × Int)) (st : State),
    Ingested st → Ingested (registerAll calls st)
  | [], _, h => h
  | (name, addr, size) :: rest, st, h =>
    registerAll_ingested rest _ (Ingested.register st name addr size h)

theorem registered_init : Registered [] State.init :=
  ⟨by simp [State.init], by simp [State.init], by simp [State.init], by simp [State.init]⟩

theorem registered_findOrCreateObjNode {hist : List (String × Nat × Int)} {st : State}
    (h : Registered hist st) (name : String) (addr : Nat) (size : Int) :
    Registered (hist ++ [(name, addr, size)]) (findOrCreateObjNode st name addr size).1 := by
  cases hl : st.allNodes.lookup addr with
  | some p =>
    obtain ⟨node, c, hm, ha, hc, hs⟩ := h.node addr p hl
    rw [findOrCreateObjNode_existing hl hm]
    have hmem : addr ∈ hist.map (fun c => c.2.1) :=
      (h.keys addr).mp (lookup_isSome_iff.mp ⟨p, hl⟩)
    refine ⟨?_, h.nodup, ?_, by simpa using h.count⟩
    · intro a
      simp only [List.map_append, List.mem_append, List.map_cons, List.map_nil,
        List.mem_singleton]
      rw [h.keys a]
      constructor
      · exact Or.inl
      · rintro (h1 | h1)
        · exact h1
        · rw [h1]; exact hmem
    · intro a q hq
      obtain ⟨n, c1, hn, hna, hc1, hs1⟩ := h.node a q hq
      have hf : (hist ++ [(name, addr, size)]).find? (fun c => decide (c.2.1 = a)) = some c1 := by
        rw [List.find?_append, hc1]; rfl
      by_cases hqp : p = q
      · subst hqp
        rw [hm] at hn
        cases hn
        refine ⟨_, c1, List.getElem?_set_self (getElem?_lt hm), ?_, hf, ?_⟩
        · split_ifs <;> exact hna
        · split_ifs <;> exact hs1
      · exact ⟨n, c1, by simp only [List.getElem?_set_ne hqp, hn], hna, hf, hs1⟩
  | none =>
    rw [findOrCreateObjNode_new hl]
    have hnot : addr ∉ st.allNodes.map Prod.fst := lookup_none_iff.mp hl
    have hnot2 : addr ∉ hist.map (fun c => c.2.1) := fun hh => hnot ((h.keys addr).mpr hh)
    refine ⟨?_, ?_, ?_, by simp [h.count]⟩
    · intro a
      simp only [List.map_cons, List.mem_cons, List.map_append, List.mem_append, List.map_nil,
        List.mem_singleton, List.not_mem_nil, or_false]
      rw [h.keys a]
      tauto
    · simp only [List.map_cons, List.nodup_cons]
      exact ⟨hnot, h.nodup⟩
    · intro a q hq
      simp only [lookup_cons_eq] at hq
      split_ifs at hq with he
      · cases hq
        subst he
        refine ⟨{ name := name, addr := a, size := size, refs := [] }, (name, a, size),
          by simp, rfl, ?_, rfl⟩
        rw [List.find?_append]
        have : hist.find? (fun c => decide (c.2.1 = a)) = none := by
          rw [List.find?_eq_none]
          intro c hc hd
          simp only [decide_eq_true_eq] at hd
          exact hnot2 (List.mem_map.mpr ⟨c, hc, hd⟩)
        rw [this]
        simp
      · obtain ⟨n, c1, hn, hna, hc1, hs1⟩ := h.node a q hq
        refine ⟨n, c1, by simp only [List.getElem?_append_left (getElem?_lt hn), hn], hna, ?_,
          hs1⟩
        rw [List.find?_append, hc1]; rfl

theorem registerAll_registered : ∀ (calls hist : List (String × Nat × Int)) (st : State),
    Registered hist st → Registered (hist ++ calls) (registerAll calls st)
  | [], hist, _, h => by simpa [registerAll] using h
  | (name, addr, size) :: rest, hist, st, h => by
    have := registerAll_registered rest _ _ (registered_findOrCreateObjNode h name addr size)
    simpa [registerAll, List.append_assoc] using this

/-- A registration under another address leaves the node of a registered
address as it is. -/
theorem findOrCreateObjNode_other {st : State} (hc : Canon st) {addr p : Nat} {node : ObjNode}
    (hl : st.allNodes.lookup addr = some p) (hm : st.mem[p]? = some node) (name : String)
    (addr1 : Nat) (size : Int) (hne : addr1 ≠ addr) :
    (findOrCreateObjNode st name addr1 size).1.mem[p]? = some node := by
  cases hl1 : st.allNodes.lookup addr1 with
  | some q =>
    obtain ⟨n1, hn1, ha1⟩ := hc addr1 q hl1
    obtain ⟨n, hn, ha⟩ := hc addr p hl
    rw [findOrCreateObjNode_existing hl1 hn1]
    have hqp : q ≠ p := by
      intro e
      subst e
      rw [hn1] at hn
      cases hn
      exact hne (ha1.symm.trans ha)
    simp only [List.getElem?_set_ne hqp, hm]
  | none =>
    rw [findOrCreateObjNode_new hl1]
    simp only [List.getElem?_append_left (getElem?_lt hm), hm]

/-! ## Rounding errors and exact scalings -/

/-- Rounding to the nearest integer moves a number by at most one half. -/
theorem roundHalfEven_abs_sub_le (x : ℚ) : |(roundHalfEven x : ℚ) - x| ≤ 1 / 2 := by
  have h1 : (⌊x⌋ : ℚ) ≤ x := Int.floor_le x
  have h2 : x < (⌊x⌋ : ℚ) + 1 := Int.lt_floor_add_one x
  unfold roundHalfEven
  rw [abs_le]
  split_ifs with a b c
  · constructor <;> linarith
  · push_cast; constructor <;> linarith
  · have : x - ⌊x⌋ = 1 / 2 := le_antisymm (not_lt.mp b) (not_lt.mp a)
    constructor <;> linarith
  · have : x - ⌊x⌋ = 1 / 2 := le_antisymm (not_lt.mp b) (not_lt.mp a)
    push_cast; constructor <;> linarith

/-- A number nearer than one half to an integer rounds to that integer. -/
theorem roundHalfEven_eq_of_lt {x : ℚ} {m : ℤ} (h : |x - m| < 1 / 2) : roundHalfEven x = m := by
  have h0 := roundHalfEven_abs_sub_le x
  rw [abs_lt] at h
  rw [abs_le] at h0
  have h3 : |((roundHalfEven x - m : ℤ) : ℚ)| < 1 := by
    rw [abs_lt]; push_cast; constructor <;> linarith
  have h4 : |roundHalfEven x - m| < 1 := by exact_mod_cast h3
  have := Int.abs_lt_one_iff.mp h4
  omega

/-- A tie rounds to the even neighbour. -/
theorem roundHalfEven_tie (m : ℤ) :
    roundHalfEven ((m : ℚ) + 1 / 2) = if m % 2 = 0 then m else m + 1 := by
  have hf : ⌊(m : ℚ) + 1 / 2⌋ = m := by
    rw [Int.floor_eq_iff]; constructor <;> norm_num
  unfold roundHalfEven
  rw [hf]
  have e : (m : ℚ) + 1 / 2 - m = 1 / 2 := by ring
  rw [e]
  simp

theorem f64Exp_of_pos {x : ℚ} (hx : 0 < x) : f64Exp x = max (Int.log 2 x) (-1022) - 52 := by
  unfold f64Exp; rw [abs_of_pos hx]

/-- The quotient of a positive number by its last place is below 2^53. -/
theorem mantissa_lt {x : ℚ} (hx : 0 < x) : x / 2 ^ f64Exp x < 2 ^ (53 : ℕ) := by
  have hlt : x < (2 : ℚ) ^ (Int.log 2 x + 1) := by
    simpa using Int.lt_zpow_succ_log_self (b := 2) (by norm_num) x
  have pe : (0 : ℚ) < 2 ^ f64Exp x := by positivity
  rw [div_lt_iff₀ pe]
  have hge : Int.log 2 x - 52 ≤ f64Exp x := by
    rw [f64Exp_of_pos hx]
    have := le_max_left (Int.log 2 x) (-1022)
    omega
  have h1 : (2 : ℚ) ^ (Int.log 2 x - 52) ≤ 2 ^ f64Exp x := zpow_le_zpow_right₀ (by norm_num) hge
  have h2 : (2 : ℚ) ^ (53 : ℕ) * 2 ^ (Int.log 2 x - 52) = 2 ^ (Int.log 2 x + 1) := by
    rw [← zpow_natCast, ← zpow_add₀ (by norm_num : (2 : ℚ) ≠ 0)]
    congr 1
    push_cast
    ring
  have h3 : (2 : ℚ) ^ (53 : ℕ) * 2 ^ (Int.log 2 x - 52) ≤ 2 ^ (53 : ℕ) * 2 ^ f64Exp x :=
    mul_le_mul_of_nonneg_left h1 (by positivity)
  linarith

/-- A multiple `m * 2 ^ E` with `m` below 2^53 and `E` at least -1074 is a
binary64 value. -/
theorem f64Nearest_fix (m : ℕ) (E : ℤ) (hm : m < 2 ^ 53) (hE : -1074 ≤ E) :
    f64Nearest ((m : ℚ) * 2 ^ E) = (m : ℚ) * 2 ^ E := by
  rcases Nat.eq_zero_or_pos m with h0 | hpos
  · subst h0; simp [f64Nearest_zero]
  have pE : (0 : ℚ) < 2 ^ E := by positivity
  have hx : (0 : ℚ) < (m : ℚ) * 2 ^ E := by positivity
  have hlt : (m : ℚ) * 2 ^ E < 2 ^ (52 + E + 1) := by
    have h1 : (m : ℚ) < 2 ^ (53 : ℕ) := by exact_mod_cast hm
    have h2 : (2 : ℚ) ^ (52 + E + 1) = 2 ^ (53 : ℕ) * 2 ^ E := by
      rw [← zpow_natCast, ← zpow_add₀ (by norm_num : (2 : ℚ) ≠ 0)]
      congr 1
      push_cast
      ring
    rw [h2]
    exact mul_lt_mul_of_pos_right h1 pE
  have hlog : Int.log 2 ((m : ℚ) * 2 ^ E) < 52 + E + 1 := by
    rw [← Int.lt_zpow_iff_log_lt (b := 2) (by norm_num) hx]; simpa using hlt
  have he : f64Exp ((m : ℚ) * 2 ^ E) ≤ E := by
    rw [f64Exp_of_pos hx]
    have := max_le (by omega : Int.log 2 ((m : ℚ) * 2 ^ E) ≤ 52 + E) (by omega : -1022 ≤ 52 + E)
    omega
  obtain ⟨d, hd⟩ := Int.eq_ofNat_of_zero_le (by omega : 0 ≤ E - f64Exp ((m : ℚ) * 2 ^ E))
  have hE2 : E = f64Exp ((m : ℚ) * 2 ^ E) + d := by omega
  have pe : (0 : ℚ) < 2 ^ f64Exp ((m : ℚ) * 2 ^ E) := by positivity
  have hq : (m : ℚ) * 2 ^ E / 2 ^ f64Exp ((m : ℚ) * 2 ^ E) = (((m * 2 ^ d : ℕ) : ℤ) : ℚ) := by
    rw [div_eq_iff pe.ne']
    conv_lhs => rw [hE2]
    rw [zpow_add₀ (by norm_num : (2 : ℚ) ≠ 0), zpow_natCast]
    push_cast
    ring
  unfold f64Nearest
  rw [hq, roundHalfEven_intCast, ← hq, div_mul_cancel₀ _ pe.ne']

/-- The nearest binary64 value of a non-negative number is a multiple of its
last place by at most 2^53. -/
theorem f64Nearest_repr {x : ℚ} (hx : 0 ≤ x) :
    ∃ m : ℕ, m ≤ 2 ^ 53 ∧ f64Nearest x = (m : ℚ) * 2 ^ f64Exp x := by
  have pe : (0 : ℚ) < 2 ^ f64Exp x := by positivity
  have h0 : 0 ≤ x / 2 ^ f64Exp x := div_nonneg hx pe.le
  have hr0 := roundHalfEven_nonneg h0
  have hle : x / 2 ^ f64Exp x ≤ (((2 ^ 53 : ℕ) : ℤ) : ℚ) := by
    rcases hx.lt_or_eq with hpos | hz
    · have := mantissa_lt hpos
      push_cast
      exact this.le
    · rw [← hz]; simp
  have hr1 := roundHalfEven_mono hle
  rw [roundHalfEven_intCast] at hr1
  obtain ⟨m, hm⟩ := Int.eq_ofNat_of_zero_le hr0
  refine ⟨m, by exact_mod_cast (hm ▸ hr1), ?_⟩
  unfold f64Nearest
  rw [hm]
  simp

theorem f64Exp_ge (x : ℚ) : -1074 ≤ f64Exp x := by
  unfold f64Exp
  have := le_max_right (Int.log 2 |x|) (-1022)
  omega

/-- A binary64 value times a power of two is a binary64 value, as long as the
last place stays at or above 2^-1074. -/
theorem f64Nearest_scale {x : ℚ} (hx : 0 ≤ x) (j : ℤ) (hj : -1074 ≤ f64Exp x + j) :
    f64Nearest (f64Nearest x * 2 ^ j) = f64Nearest x * 2 ^ j := by
  obtain ⟨m, hm, e⟩ := f64Nearest_repr hx
  rw [e]
  rcases hm.lt_or_eq with hlt | heq
  · have := f64Nearest_fix m (f64Exp x + j) hlt hj
    rw [zpow_add₀ (by norm_num : (2 : ℚ) ≠ 0), ← mul_assoc] at this
    exact this
  · have := f64Nearest_fix 1 (f64Exp x + j + 53) (by norm_num) (by omega)
    have e2 : ((1 : ℕ) : ℚ) * 2 ^ (f64Exp x + j + 53) = (m : ℚ) * 2 ^ f64Exp x * 2 ^ j := by
      rw [heq, zpow_add₀ (by norm_num : (2 : ℚ) ≠ 0), zpow_add₀ (by norm_num : (2 : ℚ) ≠ 0)]
      push_cast
      norm_num
      ring
    rw [e2] at this
    exact this

/-- The rounding error of a normal number is at most 2^-53 of the number. -/
theorem f64Nearest_err {x : ℚ} (hx : 0 < x) (hn : (2 : ℚ) ^ (-1022 : ℤ) ≤ x) :
    |f64Nearest x - x| ≤ x * 2 ^ (-53 : ℤ) := by
  have hlog : -1022 ≤ Int.log 2 x := by
    rw [← Int.zpow_le_iff_le_log (b := 2) (by norm_num) hx]; simpa using hn
  have he : f64Exp x = Int.log 2 x - 52 := by
    rw [f64Exp_of_pos hx, max_eq_left hlog]
  have hself : (2 : ℚ) ^ Int.log 2 x ≤ x := by
    simpa using Int.zpow_log_le_self (b := 2) (by norm_num) hx
  have pe : (0 : ℚ) < 2 ^ f64Exp x := by positivity
  have hr := roundHalfEven_abs_sub_le (x / 2 ^ f64Exp x)
  have e1 : f64Nearest x - x =
      ((roundHalfEven (x / 2 ^ f64Exp x) : ℚ) - x / 2 ^ f64Exp x) * 2 ^ f64Exp x := by
    unfold f64Nearest
    rw [sub_mul, div_mul_cancel₀ _ pe.ne']
  rw [e1, abs_mul, abs_of_pos pe]
  have h1 : |(roundHalfEven (x / 2 ^ f64Exp x) : ℚ) - x / 2 ^ f64Exp x| * 2 ^ f64Exp x ≤
      1 / 2 * 2 ^ f64Exp x := mul_le_mul_of_nonneg_right hr pe.le
  have h2 : (1 : ℚ) / 2 * 2 ^ f64Exp x = 2 ^ Int.log 2 x * 2 ^ (-53 : ℤ) := by
    rw [he, ← zpow_add₀ (by norm_num : (2 : ℚ) ≠ 0)]
    have : Int.log 2 x - 52 = (Int.log 2 x + -53) + 1 := by ring
    rw [this, zpow_add₀ (by norm_num : (2 : ℚ) ≠ 0) (Int.log 2 x + -53) 1]
    norm_num
    ring
  have h3 : (2 : ℚ) ^ Int.log 2 x * 2 ^ (-53 : ℤ) ≤ x * 2 ^ (-53 : ℤ) :=
    mul_le_mul_of_nonneg_right hself (by positivity)
  linarith

/-- The nearest binary64 value of a number of the binade `2 ^ L` is the
multiple of `2 ^ (L - 52)` by the integer nearest to the quotient. -/
theorem f64Nearest_eval {x : ℚ} {L : ℤ} (m : ℤ) (hx : 0 < x) (h1 : (2 : ℚ) ^ L ≤ x)
    (h2 : x < (2 : ℚ) ^ (L + 1)) (hL : -1022 ≤ L) (hm : |x / 2 ^ (L - 52) - m| < 1 / 2) :
    f64Nearest x = (m : ℚ) * 2 ^ (L - 52) := by
  have hlog := int_log_two_eq hx h1 h2
  have he : f64Exp x = L - 52 := by
    rw [f64Exp_of_pos hx, hlog, max_eq_left hL]
  unfold f64Nearest
  rw [he, roundHalfEven_eq_of_lt hm]

/-! ## The byte-size codec -/

theorem lastIndexFrom_none (f : Char → Bool) : ∀ (s : List Char) (i last : Int),
    (∀ c ∈ s, f c = false) → lastIndexFrom f s i last = last
  | [], _, _, _ => rfl
  | c :: rest, i, last, h => by
    have hc := h c (List.mem_cons_self _ _)
    simp only [lastIndexFrom, hc, Bool.false_eq_true, if_false]
    exact lastIndexFrom_none f rest (i + 1) last (fun x hx => h x (List.mem_cons_of_mem _ hx))

theorem lastIndexFrom_split (f : Char → Bool) : ∀ (pre suf : List Char) (d : Char) (i last : Int),
    f d = true → (∀ c ∈ suf, f c = false) →
    lastIndexFrom f (pre ++ d :: suf) i last = i + pre.length
  | [], suf, d, i, last, hd, hs => by
    simp only [List.nil_append, lastIndexFrom, hd, if_true]
    rw [lastIndexFrom_none f suf _ _ hs]
    simp
  | c :: pre, suf, d, i, last, hd, hs => by
    have e : (c :: pre) ++ d :: suf = c :: (pre ++ d :: suf) := rfl
    rw [e, lastIndexFrom, lastIndexFrom_split f pre suf d (i + 1) _ hd hs]
    simp only [List.length_cons]
    push_cast
    ring

theorem lastIndexFrom_bounds (f : Char → Bool) : ∀ (s : List Char) (i last : Int),
    lastIndexFrom f s i last = last ∨
      (i ≤ lastIndexFrom f s i last ∧ lastIndexFrom f s i last < i + s.length)
  | [], _, _ => Or.inl rfl
  | c :: rest, i, last => by
    simp only [lastIndexFrom, List.length_cons]
    rcases lastIndexFrom_bounds f rest (i + 1) (if f c then i else last) with h | ⟨h1, h2⟩
    · rw [h]
      by_cases hc : f c = true
      · right
        simp only [hc, if_true]
        constructor
        · exact le_refl i
        · push_cast; omega
      · left
        simp [hc]
    · right
      constructor
      · omega
      · push_cast; omega

theorem mem_of_mem_trimSpace {s : List Char} {c : Char} (h : c ∈ trimSpace s) : c ∈ s := by
  unfold trimSpace at h
  rw [List.mem_reverse] at h
  have h1 := (List.dropWhile_sublist isSpace).mem h
  rw [List.mem_reverse] at h1
  exact (List.dropWhile_sublist isSpace).mem h1

/-- What `ParseByteSize` does once the trimmed text is cut after its last
digit. -/
theorem ParseByteSize_split (lib : GoLib) (s : String) (pre suf : List Char) (d : Char)
    (hs : trimSpace s.toList = pre ++ d :: suf) (hd : isDigit d = true)
    (hsuf : ∀ c ∈ suf, isDigit c = false) :
    ParseByteSize lib s =
      match lib.parseFloat (String.mk (pre ++ [d])) with
      | none => .error ("invalid number: " ++ String.mk (pre ++ [d]))
      | some number =>
        if suf.map lib.toUpper = "B".toList then .ok (toInt64 lib number)
        else if suf.map lib.toUpper = "KB".toList then .ok (toInt64 lib (F64.mul number KB))
        else if suf.map lib.toUpper = "MB".toList then .ok (toInt64 lib (F64.mul number MB))
        else if suf.map lib.toUpper = "GB".toList then .ok (toInt64 lib (F64.mul number GB))
        else if suf.map lib.toUpper = "TB".toList then .ok (toInt64 lib (F64.mul number TB))
        else if suf.map lib.toUpper = "PB".toList then .ok (toInt64 lib (F64.mul number PB))
        else if suf.map lib.toUpper = "EB".toList then .ok (toInt64 lib (F64.mul number EB))
        else .error ("unrecognized unit: " ++ String.mk (suf.map lib.toUpper)) := by
  have hidx : lastIndexFunc isDigit (pre ++ d :: suf) = pre.length := by
    unfold lastIndexFunc
    rw [lastIndexFrom_split isDigit pre suf d 0 (-1) hd hsuf]
    simp
  have hne : ((pre.length : Int) = -1) = False := by
    apply eq_false
    omega
  have h1 : sliceTo (pre ++ d :: suf) ((pre.length : Int) + 1) = some (pre ++ [d]) := by
    unfold sliceTo
    have e : ((pre.length : Int) + 1).toNat = pre.length + 1 := by omega
    rw [if_pos ⟨by omega, by simp⟩, e]
    simp [List.take_append_eq_append_take]
  have h2 : sliceFrom (pre ++ d :: suf) ((pre.length : Int) + 1) = some suf := by
    unfold sliceFrom
    have e : ((pre.length : Int) + 1).toNat = pre.length + 1 := by omega
    rw [if_pos ⟨by omega, by simp⟩, e]
    simp [List.drop_append_eq_append_drop]
  unfold ParseByteSize
  simp only [hs, hidx, hne, if_false, h1, h2]

theorem takeWhile_append_stop {p : Char → Bool} : ∀ (l rest : List Char),
    (∀ c ∈ l, p c = true) → rest.head?.all (fun c => !p c) = true →
    (l ++ rest).takeWhile p = l ∧ (l ++ rest).dropWhile p = rest
  | [], rest, _, hr => by
    cases rest with
    | nil => simp
    | cons c r =>
      simp only [List.head?_cons, Option.all_some, Bool.not_eq_true'] at hr
      simp [List.takeWhile_cons, List.dropWhile_cons, hr]
  | a :: l, rest, hl, hr => by
    have ha := hl a (List.mem_cons_self _ _)
    have ih := takeWhile_append_stop l rest (fun c hc => hl c (List.mem_cons_of_mem _ hc)) hr
    simp [List.takeWhile_cons, List.dropWhile_cons, ha, ih.1, ih.2]

theorem head_digit_not_sign {ip rest : List Char} (hne : ip ≠ []) (hd : ∀ c ∈ ip, isDigit c = true) :
    ¬ ((ip ++ rest).head? = some '-' ∨ (ip ++ rest).head? = some '+') ∧
    ((ip ++ rest).head? = some '-') = False := by
  cases ip with
  | nil => exact absurd rfl hne
  | cons a l =>
    have ha := hd a (List.mem_cons_self _ _)
    have h1 : a ≠ '-' := by
      intro e; subst e; revert ha; decide
    have h2 : a ≠ '+' := by
      intro e; subst e; revert ha; decide
    simp [h1, h2]

theorem parseDecimal_integer (ip : List Char) (hne : ip ≠ []) (hd : ∀ c ∈ ip, isDigit c = true) :
    parseDecimal (String.mk ip) = parsedValue (decValue ip : ℚ) := by
  have hs := @head_digit_not_sign ip [] hne hd
  simp only [List.append_nil] at hs
  have ht := takeWhile_append_stop ip [] hd (by simp)
  simp only [List.append_nil] at ht
  have e1 : (if ip.head? = some '-' ∨ ip.head? = some '+' then ip.drop 1 else ip) = ip :=
    if_neg hs.1
  unfold parseDecimal
  simp only [String.toList, e1]
  simp only [ht.1, ht.2, hs.2, List.head?_nil, if_false]
  simp [hne, decValue]

theorem parseDecimal_decimal (ip fp : List Char) (hne : ip ≠ [])
    (hd : ∀ c ∈ ip, isDigit c = true) (hfd : ∀ c ∈ fp, isDigit c = true) :
    parseDecimal (String.mk (ip ++ '.' :: fp)) =
      parsedValue ((decValue ip : ℚ) + (decValue fp : ℚ) / 10 ^ fp.length) := by
  have hs := @head_digit_not_sign ip ('.' :: fp) hne hd
  have ht := takeWhile_append_stop ip ('.' :: fp) hd (by simp; decide)
  have e1 : (if (ip ++ '.' :: fp).head? = some '-' ∨ (ip ++ '.' :: fp).head? = some '+' then
      (ip ++ '.' :: fp).drop 1 else ip ++ '.' :: fp) = ip ++ '.' :: fp := if_neg hs.1
  have hall : fp.all isDigit = true := List.all_eq_true.mpr hfd
  unfold parseDecimal
  simp only [String.toList, e1]
  simp only [ht.1, ht.2, hs.2, List.head?_cons, if_true, if_false,
    List.drop_succ_cons, List.drop_zero]
  simp [hall, hne]

theorem goLib_standard : goLib.Standard where
  upper := fun _ _ => rfl
  integer := parseDecimal_integer
  decimal := fun ip fp hne hd _ hfd => parseDecimal_decimal ip fp hne hd hfd

theorem digitChar_facts (k : Nat) (hk : k < 10) :
    (Nat.digitChar k).toNat - 48 = k ∧ isDigit (Nat.digitChar k) = true := by
  interval_cases k <;> exact ⟨by decide, by decide⟩

theorem foldl_digits_toDigitsCore : ∀ (fuel n : Nat) (ds : List Char), n < fuel →
    (Nat.toDigitsCore 10 fuel n ds).foldl (fun a c => 10 * a + (c.toNat - 48)) 0 =
      ds.foldl (fun a c => 10 * a + (c.toNat - 48)) n
  | 0, n, ds, h => by omega
  | fuel + 1, n, ds, h => by
    have hd := (digitChar_facts (n % 10) (Nat.mod_lt _ (by norm_num))).1
    rw [Nat.toDigitsCore]
    split_ifs with h0
    · simp only [List.foldl_cons, Nat.mul_zero, Nat.zero_add, hd]
      have : n % 10 = n := by omega
      rw [this]
    · rw [foldl_digits_toDigitsCore fuel (n / 10) _ (by omega)]
      simp only [List.foldl_cons, hd]
      have : 10 * (n / 10) + n % 10 = n := Nat.div_add_mod n 10
      rw [this]

theorem decValue_toDigits (n : Nat) : decValue (Nat.toDigits 10 n) = n := by
  unfold decValue Nat.toDigits
  rw [foldl_digits_toDigitsCore (n + 1) n [] (by omega)]
  rfl

theorem isDigit_toDigitsCore : ∀ (fuel n : Nat) (ds : List Char),
    (∀ c ∈ ds, isDigit c = true) → ∀ c ∈ Nat.toDigitsCore 10 fuel n ds, isDigit c = true
  | 0, n, ds, h => by simpa [Nat.toDigitsCore] using h
  | fuel + 1, n, ds, h => by
    have hd := (digitChar_facts (n % 10) (Nat.mod_lt _ (by norm_num))).2
    have h2 : ∀ c ∈ Nat.digitChar (n % 10) :: ds, isDigit c = true := by
      intro c hc
      rcases List.mem_cons.mp hc with rfl | hc
      · exact hd
      · exact h c hc
    rw [Nat.toDigitsCore]
    split_ifs with h0
    · exact h2
    · exact isDigit_toDigitsCore fuel (n / 10) _ h2

theorem isDigit_toDigits (n : Nat) : ∀ c ∈ Nat.toDigits 10 n, isDigit c = true :=
  isDigit_toDigitsCore (n + 1) n [] (by simp)

theorem toDigitsCore_ne_nil : ∀ (fuel n : Nat) (ds : List Char), (0 < fuel ∨ ds ≠ []) →
    Nat.toDigitsCore 10 fuel n ds ≠ []
  | 0, n, ds, h => by
    rcases h with h | h
    · omega
    · simpa [Nat.toDigitsCore] using h
  | fuel + 1, n, ds, _ => by
    rw [Nat.toDigitsCore]
    split_ifs with h0
    · simp
    · exact toDigitsCore_ne_nil fuel (n / 10) _ (Or.inr (by simp))

theorem toDigits_ne_nil (n : Nat) : Nat.toDigits 10 n ≠ [] :=
  toDigitsCore_ne_nil (n + 1) n [] (Or.inl (by omega))

theorem decValue_twoDigits (n : Nat) (hn : n < 100) :
    decValue (twoDigits n) = n ∧ (∀ c ∈ twoDigits n, isDigit c = true) ∧
      (twoDigits n).length = 2 := by
  have h1 := digitChar_facts (n / 10) (by omega)
  have h2 := digitChar_facts (n % 10) (by omega)
  refine ⟨?_, ?_, rfl⟩
  · simp only [decValue, twoDigits, List.foldl_cons, List.foldl_nil, h1.1, h2.1]
    omega
  · intro c hc
    simp only [twoDigits, List.mem_cons, List.mem_singleton, List.not_mem_nil, or_false] at hc
    rcases hc with rfl | rfl
    · exact h1.2
    · exact h2.2

theorem f64Round_fix (m : ℕ) (E : ℤ) (hm : m < 2 ^ 53) (hE : -1074 ≤ E)
    (hlt : (m : ℚ) * 2 ^ E < 2 ^ 1024) : f64Round ((m : ℚ) * 2 ^ E) = .fin ((m : ℚ) * 2 ^ E) := by
  have h0 : (0 : ℚ) ≤ (m : ℚ) * 2 ^ E :=
    mul_nonneg (Nat.cast_nonneg m) (zpow_pos (by norm_num) E).le
  have hp : (0 : ℚ) < 2 ^ 1024 := pow_pos (by norm_num) 1024
  unfold f64Round
  rw [f64Nearest_fix m E hm hE, if_neg (not_le.mpr hlt), if_neg]
  linarith

theorem parsedValue_of_fin {q x : ℚ} (h : f64Round q = .fin x) : parsedValue q = some (.fin x) := by
  unfold parsedValue
  rw [h]

theorem parsedValue_natCast (n : ℕ) (hn : n < 2 ^ 53) : parsedValue (n : ℚ) = some (.fin n) :=
  parsedValue_of_fin (f64Round_natCast n hn)

theorem truncate_nonneg {q : ℚ} (h : 0 ≤ q) : truncate q = ⌊q⌋ := by
  unfold truncate
  rw [if_pos h]

theorem toInt64_inRange (lib : GoLib) {q : ℚ} (h0 : 0 ≤ q) (h1 : q < 2 ^ 63) :
    toInt64 lib (.fin q) = ⌊q⌋ := by
  have hf0 : 0 ≤ ⌊q⌋ := Int.floor_nonneg.mpr h0
  have hf1 : ⌊q⌋ < (2 : Int) ^ 63 := by
    rw [Int.floor_lt]
    exact_mod_cast h1
  unfold toInt64
  simp only [truncate_nonneg h0]
  rw [if_pos ⟨by omega, hf1⟩]

/-- A character whose ASCII upper case is a letter of a unit text is an ASCII
character, no digit and no space. -/
theorem unit_letter_facts (c : Char) (h : c.toUpper ∈ "BKMGTPE".toList) :
    c.toNat < 128 ∧ isDigit c = false ∧ isSpace c = false := by
  have hcases : c.toUpper = c ∨ (97 ≤ c.toNat ∧ c.toNat ≤ 122) := by
    show (if c.toNat ≥ 97 ∧ c.toNat ≤ 122 then Char.ofNat (c.toNat - 32) else c) = c ∨ _
    split_ifs with hc
    · right
      exact ⟨hc.1, hc.2⟩
    · left; rfl
  rcases hcases with e | ⟨h1, h2⟩
  · rw [e] at h
    simp only [String.toList, List.mem_cons, List.mem_singleton, List.not_mem_nil,
      or_false] at h
    rcases h with rfl | rfl | rfl | rfl | rfl | rfl | rfl <;> exact ⟨by decide, by decide, by decide⟩
  · refine ⟨by omega, ?_, ?_⟩
    · unfold isDigit
      have : ¬ (c ≤ '9') := by
        intro hle
        have : c.toNat ≤ '9'.toNat := hle
        have e9 : '9'.toNat = 57 := by decide
        omega
      simp [this]
    · unfold isSpace
      have e1 : ¬ (c.toNat ≤ 13) := by omega
      simp only [Bool.or_eq_false_iff, Bool.and_eq_false_iff, decide_eq_false_iff_not]
      refine ⟨⟨⟨⟨⟨⟨⟨⟨⟨⟨?_, ?_⟩, ?_⟩, ?_⟩, ?_⟩, ?_⟩, ?_⟩, ?_⟩, ?_⟩, ?_⟩, ?_⟩ <;> omega

theorem dropWhile_of_head {p : Char → Bool} : ∀ (l : List Char),
    (∀ a, l.head? = some a → p a = false) → l.dropWhile p = l
  | [], _ => rfl
  | a :: l, h => by
    have := h a rfl
    simp [List.dropWhile_cons, this]

/-- A text that neither begins nor ends with a space is left as it is. -/
theorem trimSpace_eq_self {s : List Char} (h1 : ∀ a, s.head? = some a → isSpace a = false)
    (h2 : ∀ z, s.getLast? = some z → isSpace z = false) : trimSpace s = s := by
  unfold trimSpace
  rw [dropWhile_of_head s h1, dropWhile_of_head s.reverse (by
    intro a ha
    rw [List.head?_reverse] at ha
    exact h2 a ha), List.reverse_reverse]

/-- The letters of a text that reads as a unit text in upper case. -/
theorem unit_suffix_facts {suffix : List Char} {k : Nat} (hk : k ≤ 6)
    (h : suffix.map Char.toUpper = (unitName k).toList) :
    suffix ≠ [] ∧ ∀ c ∈ suffix, c.toUpper ∈ "BKMGTPE".toList := by
  have hall : ∀ x ∈ (unitName k).toList, x ∈ "BKMGTPE".toList := by
    interval_cases k <;> decide
  have hne : (unitName k).toList ≠ [] := by
    interval_cases k <;> decide
  constructor
  · intro e
    rw [e] at h
    exact hne h.symm
  · intro c hc
    apply hall
    rw [← h]
    exact List.mem_map_of_mem _ hc

/-- The switch of `ParseByteSize` on the text of the unit number `k`. -/
theorem unit_switch (lib : GoLib) (number : F64) {u : List Char} {k : Nat} (hk : k ≤ 6)
    (hu : u = (unitName k).toList) :
    (if u = "B".toList then ParseResult.ok (toInt64 lib number)
      else if u = "KB".toList then .ok (toInt64 lib (F64.mul number KB))
      else if u = "MB".toList then .ok (toInt64 lib (F64.mul number MB))
      else if u = "GB".toList then .ok (toInt64 lib (F64.mul number GB))
      else if u = "TB".toList then .ok (toInt64 lib (F64.mul number TB))
      else if u = "PB".toList then .ok (toInt64 lib (F64.mul number PB))
      else if u = "EB".toList then .ok (toInt64 lib (F64.mul number EB))
      else .error ("unrecognized unit: " ++ String.mk u)) =
    .ok (toInt64 lib (if k = 0 then number else F64.mul number (unitValue k))) := by
  subst hu
  interval_cases k <;> simp [unitName, KB, MB, GB, TB, PB, EB]

theorem mul_unitValue (f : ℚ) (k : Nat) :
    F64.mul (.fin f) (unitValue k) = f64Round (f * 2 ^ (10 * k)) := rfl

theorem f64Round_of_fixed {x : ℚ} (h0 : 0 ≤ x) (hfix : f64Nearest x = x)
    (hlt : x < 2 ^ 1024) : f64Round x = .fin x := by
  have hp : (0 : ℚ) < 2 ^ 1024 := pow_pos (by norm_num) 1024
  unfold f64Round
  rw [hfix, if_neg (not_le.mpr hlt), if_neg]
  linarith

theorem f64Round_fin_eq {x f : ℚ} (h0 : 0 ≤ x) (h : f64Round x = .fin f) :
    f = f64Nearest x ∧ 0 ≤ f := by
  rcases f64Round_cases h0 with ⟨e, _⟩ | ⟨e, _⟩
  · rw [e] at h; cases h
  · rw [e] at h
    cases h
    exact ⟨rfl, f64Nearest_nonneg h0⟩

theorem decValue_nil : decValue [] = 0 := rfl

/-- `ParseByteSize` on a decimal numeral followed by a unit text in any letter
case: the conversion of the parsed value, scaled by the unit. -/
theorem parseByteSize_numeral (lib : GoLib) (hlib : lib.Standard) (s : String)
    (ip fp suffix : List Char) (k : Nat) (f : ℚ) (hip : ip ≠ [])
    (hipd : ∀ c ∈ ip, isDigit c = true) (hfpd : ∀ c ∈ fp, isDigit c = true)
    (hs : trimSpace s.toList = (if fp = [] then ip else ip ++ '.' :: fp) ++ suffix)
    (hk : k ≤ 6) (hsuf : suffix.map Char.toUpper = (unitName k).toList)
    (hf : f64Round ((decValue ip : ℚ) + (decValue fp : ℚ) / 10 ^ fp.length) = .fin f) :
    ParseByteSize lib s =
      .ok (toInt64 lib (if k = 0 then .fin f else F64.mul (.fin f) (unitValue k))) := by
  obtain ⟨hsne, hsl⟩ := unit_suffix_facts hk hsuf
  have hnodigit : ∀ c ∈ suffix, isDigit c = false := fun c hc =>
    (unit_letter_facts c (hsl c hc)).2.1
  have hup : suffix.map lib.toUpper = (unitName k).toList := by
    rw [← hsuf]
    apply List.map_congr_left
    intro c hc
    exact hlib.upper c (unit_letter_facts c (hsl c hc)).1
  have key : ∃ (pre : List Char) (d : Char),
      (if fp = [] then ip else ip ++ '.' :: fp) = pre ++ [d] ∧ isDigit d = true ∧
      lib.parseFloat (String.mk (pre ++ [d])) = some (.fin f) := by
    by_cases hfp : fp = []
    · subst hfp
      refine ⟨ip.dropLast, ip.getLast hip, ?_, hipd _ (List.getLast_mem hip), ?_⟩
      · simp [List.dropLast_append_getLast]
      · rw [List.dropLast_append_getLast, hlib.integer ip hip hipd]
        apply parsedValue_of_fin
        simpa [decValue_nil] using hf
    · refine ⟨ip ++ '.' :: fp.dropLast, fp.getLast hfp, ?_, hfpd _ (List.getLast_mem hfp), ?_⟩
      · simp [hfp, List.dropLast_append_getLast]
      · have e : ip ++ '.' :: fp.dropLast ++ [fp.getLast hfp] = ip ++ '.' :: fp := by
          simp [List.dropLast_append_getLast]
        rw [e, hlib.decimal ip fp hip hipd hfp hfpd]
        exact parsedValue_of_fin hf
  obtain ⟨pre, d, hnum, hd, hparse⟩ := key
  have hs2 : trimSpace s.toList = pre ++ d :: suffix := by
    rw [hs, hnum]
    simp
  rw [ParseByteSize_split lib s pre suffix d hs2 hd hnodigit, hparse]
  exact unit_switch lib (.fin f) hk hup

/-- The same with the float64 product worked out: the nearest float64 of the
number the numeral denotes, times the unit, truncated, when that is below
2^63. -/
theorem parseByteSize_numeral_exact (lib : GoLib) (hlib : lib.Standard) (s : String)
    (ip fp suffix : List Char) (k : Nat) (f : ℚ) (hip : ip ≠ [])
    (hipd : ∀ c ∈ ip, isDigit c = true) (hfpd : ∀ c ∈ fp, isDigit c = true)
    (hs : trimSpace s.toList = (if fp = [] then ip else ip ++ '.' :: fp) ++ suffix)
    (hk : k ≤ 6) (hsuf : suffix.map Char.toUpper = (unitName k).toList)
    (hf : f64Round ((decValue ip : ℚ) + (decValue fp : ℚ) / 10 ^ fp.length) = .fin f)
    (hrange : f * 1024 ^ k < 2 ^ 63) :
    ParseByteSize lib s = .ok ⌊f * 1024 ^ k⌋ := by
  have hv : (0 : ℚ) ≤ (decValue ip : ℚ) + (decValue fp : ℚ) / 10 ^ fp.length := by positivity
  obtain ⟨ef, hf0⟩ := f64Round_fin_eq hv hf
  have e1024 : (1024 : ℚ) ^ k = 2 ^ (10 * k) := by
    rw [pow_mul]; norm_num
  have h0 : 0 ≤ f * 1024 ^ k := by positivity
  rw [parseByteSize_numeral lib hlib s ip fp suffix k f hip hipd hfpd hs hk hsuf hf]
  congr 1
  by_cases hk0 : k = 0
  · subst hk0
    simp only [if_true]
    rw [toInt64_inRange lib hf0 (by simpa using hrange)]
    simp
  · rw [if_neg hk0, mul_unitValue, ← e1024]
    have hfix : f64Nearest (f * 1024 ^ k) = f * 1024 ^ k := by
      have := f64Nearest_scale hv (10 * k : ℕ) (by
        have := f64Exp_ge ((decValue ip : ℚ) + (decValue fp : ℚ) / 10 ^ fp.length)
        omega)
      rw [zpow_natCast, ← ef, ← e1024] at this
      exact this
    have hlt : f * 1024 ^ k < 2 ^ 1024 := by
      have : (2 : ℚ) ^ 63 < 2 ^ 1024 := by norm_num
      linarith
    rw [f64Round_of_fixed h0 hfix hlt, toInt64_inRange lib h0 hrange]

theorem div_unitValue (a : ℚ) (k : Nat) :
    F64.div (.fin a) (unitValue k) = f64Round (a / 2 ^ (10 * k)) := by
  have : (2 : ℚ) ^ (10 * k) ≠ 0 := pow_ne_zero _ (by norm_num)
  simp [F64.div, unitValue, this]

/-- The unit that `String` picks for a finite value from 0 to below `ZB`. -/
theorem byteSize_string_fin (b : ℚ) (hlt : b < 2 ^ 70) :
    ByteSize.String (.fin b) =
      fmtF2 (if unitIndex b = 0 then .fin b else F64.div (.fin b) (unitValue (unitIndex b))) ++
        unitName (unitIndex b) := by
  have h80 : ¬ ((2 : ℚ) ^ 80 ≤ b) := by
    have : (2 : ℚ) ^ 70 < 2 ^ 80 := by norm_num
    intro h; linarith
  have h70 : ¬ ((2 : ℚ) ^ 70 ≤ b) := by
    intro h; linarith
  unfold ByteSize.String unitIndex
  simp only [F64.le, YB, ZB, EB, PB, TB, GB, MB, KB, unitValue, decide_eq_true_eq,
    Nat.reduceMul, h80, h70, if_false]
  split_ifs <;> simp_all [unitName, unitValue]

/-- `%.2f` of a finite value that is not negative. -/
theorem fmtF2_nonneg (q : ℚ) (h0 : 0 ≤ q) :
    fmtF2 (.fin q) =
      String.mk (Nat.toDigits 10 ((roundHalfEven (q * 100)).toNat / 100) ++ '.' ::
        twoDigits ((roundHalfEven (q * 100)).toNat % 100)) := by
  unfold fmtF2
  simp only [abs_of_nonneg h0, if_neg (not_lt.mpr h0)]
  rfl

theorem f64Round_eval {x : ℚ} {L : ℤ} (m : ℕ) (hx : 0 < x) (h1 : (2 : ℚ) ^ L ≤ x)
    (h2 : x < (2 : ℚ) ^ (L + 1)) (hL : -1022 ≤ L) (hL2 : L ≤ 1000)
    (hm : |x / 2 ^ (L - 52) - m| < 1 / 2) :
    f64Round x = .fin ((m : ℚ) * 2 ^ (L - 52)) := by
  have e := f64Nearest_eval (m : ℤ) hx h1 h2 hL (by simpa using hm)
  have hmono := f64Nearest_mono hx.le h2.le
  have hpow : f64Nearest ((2 : ℚ) ^ (L + 1)) = 2 ^ (L + 1) := by
    have := f64Nearest_fix 1 (L + 1) (by norm_num) (by omega)
    simpa using this
  have hlt : f64Nearest x < 2 ^ 1024 := by
    have h3 : (2 : ℚ) ^ (L + 1) < 2 ^ ((1024 : ℕ) : ℤ) :=
      zpow_lt_zpow_right₀ (by norm_num) (by omega)
    rw [zpow_natCast] at h3
    rw [hpow] at hmono
    exact lt_of_le_of_lt hmono h3
  rcases f64Round_cases hx.le with ⟨_, b⟩ | ⟨e1, _⟩
  · linarith
  · rw [e1, e]
    simp

theorem unitIndex_spec (b : ℚ) :
    unitIndex b ≤ 6 ∧ (unitIndex b = 0 → b < 2 ^ 10) ∧
    (1 ≤ unitIndex b → (2 : ℚ) ^ (10 * unitIndex b) ≤ b) ∧
    (unitIndex b < 6 → b < 2 ^ (10 * (unitIndex b + 1))) := by
  unfold unitIndex
  split_ifs with h6 h5 h4 h3 h2 h1
  · refine ⟨by norm_num, by norm_num, fun _ => by simpa using h6, by norm_num⟩
  · refine ⟨by norm_num, by norm_num, fun _ => by simpa using h5, fun _ => by
      simpa using not_le.mp h6⟩
  · refine ⟨by norm_num, by norm_num, fun _ => by simpa using h4, fun _ => by
      simpa using not_le.mp h5⟩
  · refine ⟨by norm_num, by norm_num, fun _ => by simpa using h3, fun _ => by
      simpa using not_le.mp h4⟩
  · refine ⟨by norm_num, by norm_num, fun _ => by simpa using h2, fun _ => by
      simpa using not_le.mp h3⟩
  · refine ⟨by norm_num, by norm_num, fun _ => by simpa using h1, fun _ => by
      simpa using not_le.mp h2⟩
  · refine ⟨by norm_num, fun _ => not_le.mp h1, by norm_num, fun _ => by
      simpa using not_le.mp h1⟩

theorem f64Nearest_two_pow (j : ℕ) (hj : j ≤ 1000) : f64Nearest ((2 : ℚ) ^ j) = 2 ^ j := by
  have := f64Nearest_fix 1 (j : ℤ) (by norm_num) (by omega)
  simpa using this

/-- The conversion of a non-negative `int64`: finite, not negative, at most
2^63. -/
theorem ofInt_int64 {n : Int} (h0 : 0 ≤ n) (hn : n ≤ 2 ^ 63) :
    F64.ofInt n = .fin (f64Nearest n) ∧ 0 ≤ f64Nearest (n : ℚ) ∧ f64Nearest (n : ℚ) ≤ 2 ^ 63 := by
  have hq0 : (0 : ℚ) ≤ (n : ℚ) := by exact_mod_cast h0
  have hq1 : (n : ℚ) ≤ 2 ^ 63 := by exact_mod_cast hn
  have hm := f64Nearest_mono hq0 hq1
  rw [f64Nearest_two_pow 63 (by norm_num)] at hm
  refine ⟨?_, f64Nearest_nonneg hq0, hm⟩
  unfold F64.ofInt
  rcases f64Round_cases hq0 with ⟨_, b⟩ | ⟨e, _⟩
  · have : (2 : ℚ) ^ 63 < 2 ^ 1024 := by norm_num
    linarith
  · exact e

theorem f64Exp_of_one_le {x : ℚ} (hx : 1 ≤ x) : -52 ≤ f64Exp x := by
  have hpos : 0 < x := by linarith
  have hlog : 0 ≤ Int.log 2 x := by
    rw [← Int.zpow_le_iff_le_log (b := 2) (by norm_num) hpos]; simpa using hx
  rw [f64Exp_of_pos hpos]
  have := le_max_left (Int.log 2 x) (-1022)
  omega

/-- The quotient of the conversion of an integer by a unit is exact. -/
theorem div_unit_exact {x : ℚ} (hx : 1 ≤ x) (hle : f64Nearest x ≤ 2 ^ 63) (k : Nat) (hk : k ≤ 6) :
    F64.div (.fin (f64Nearest x)) (unitValue k) = .fin (f64Nearest x / 2 ^ (10 * k)) := by
  have hpos : (0 : ℚ) ≤ x := by linarith
  have h0 := f64Nearest_nonneg hpos
  have hfix := f64Nearest_scale hpos (-(10 * k : ℕ) : ℤ) (by
    have := f64Exp_of_one_le hx
    push_cast
    omega)
  have e : f64Nearest x * 2 ^ (-((10 * k : ℕ) : ℤ)) = f64Nearest x / 2 ^ (10 * k) := by
    rw [zpow_neg, zpow_natCast, div_eq_mul_inv]
  rw [e] at hfix
  rw [div_unitValue]
  apply f64Round_of_fixed (div_nonneg h0 (by positivity)) hfix
  have h1 : f64Nearest x / 2 ^ (10 * k) ≤ f64Nearest x :=
    div_le_self h0 (one_le_pow₀ (by norm_num))
  have h2 : (2 : ℚ) ^ 63 < 2 ^ 1024 := by norm_num
  linarith

/-- The hundredths of `%.2f`: a natural number within one half of a hundred
times the value. -/
theorem hundredths_spec {v : ℚ} (hv : 0 ≤ v) :
    ((roundHalfEven (v * 100)).toNat : ℚ) = (roundHalfEven (v * 100) : ℚ) ∧
    |((roundHalfEven (v * 100)).toNat : ℚ) / 100 - v| ≤ 1 / 200 := by
  have h0 : 0 ≤ roundHalfEven (v * 100) := roundHalfEven_nonneg (by positivity)
  have e : ((roundHalfEven (v * 100)).toNat : ℚ) = (roundHalfEven (v * 100) : ℚ) := by
    have : ((roundHalfEven (v * 100)).toNat : ℤ) = roundHalfEven (v * 100) := Int.toNat_of_nonneg h0
    exact_mod_cast this
  refine ⟨e, ?_⟩
  rw [e]
  have h := roundHalfEven_abs_sub_le (v * 100)
  rw [abs_le] at h ⊢
  constructor <;> linarith

theorem decimal_value (K : ℕ) :
    ((K / 100 : ℕ) : ℚ) + ((K % 100 : ℕ) : ℚ) / 10 ^ 2 = (K : ℚ) / 100 := by
  have h : K = 100 * (K / 100) + K % 100 := (Nat.div_add_mod K 100).symm
  have hq : (K : ℚ) = 100 * ((K / 100 : ℕ) : ℚ) + ((K % 100 : ℕ) : ℚ) := by
    exact_mod_cast h
  rw [hq]
  norm_num
  ring

theorem isSpace_of_isDigit {c : Char} (h : isDigit c = true) : isSpace c = false := by
  unfold isDigit at h
  simp only [Bool.and_eq_true, decide_eq_true_eq] at h
  have h1 : '0'.toNat ≤ c.toNat := h.1
  have h2 : c.toNat ≤ '9'.toNat := h.2
  have e0 : '0'.toNat = 48 := by decide
  have e9 : '9'.toNat = 57 := by decide
  unfold isSpace
  simp only [Bool.or_eq_false_iff, Bool.and_eq_false_iff, decide_eq_false_iff_not]
  refine ⟨⟨⟨⟨⟨⟨⟨⟨⟨⟨?_, ?_⟩, ?_⟩, ?_⟩, ?_⟩, ?_⟩, ?_⟩, ?_⟩, ?_⟩, ?_⟩, ?_⟩ <;> omega

/-- What `FormatBytes` writes for a non-negative `int64`: the hundredths of the
value scaled by the unit, as digits, a point and two digits, and the text of
the unit. -/
theorem formatBytes_shape {n : Int} (h0 : 0 ≤ n) (hn : n ≤ 2 ^ 63) :
    FormatBytes n =
      String.mk (Nat.toDigits 10
          ((roundHalfEven (f64Nearest n / 2 ^ (10 * unitIndex (f64Nearest n)) * 100)).toNat / 100)
        ++ '.' :: twoDigits
          ((roundHalfEven (f64Nearest n / 2 ^ (10 * unitIndex (f64Nearest n)) * 100)).toNat %
            100)) ++
      unitName (unitIndex (f64Nearest n)) := by
  obtain ⟨e, b0, b1⟩ := ofInt_int64 h0 hn
  obtain ⟨_, _, u2, _⟩ := unitIndex_spec (f64Nearest (n : ℚ))
  have hlt : f64Nearest (n : ℚ) < 2 ^ 70 := by
    have : (2 : ℚ) ^ 63 < 2 ^ 70 := by norm_num
    linarith
  unfold FormatBytes
  rw [e, byteSize_string_fin _ hlt]
  congr 1
  by_cases hk : unitIndex (f64Nearest (n : ℚ)) = 0
  · rw [if_pos hk, hk]
    simp only [Nat.mul_zero, pow_zero, div_one]
    exact fmtF2_nonneg _ b0
  · rw [if_neg hk]
    have hk1 : 1 ≤ unitIndex (f64Nearest (n : ℚ)) := Nat.one_le_iff_ne_zero.mpr hk
    have hb := u2 hk1
    have hn1 : (1 : ℚ) ≤ (n : ℚ) := by
      rcases h0.lt_or_eq with hpos | hz
      · exact_mod_cast hpos
      · exfalso
        rw [← hz] at hb
        simp only [Int.cast_zero, f64Nearest_zero] at hb
        have : (0 : ℚ) < 2 ^ (10 * unitIndex (f64Nearest ((0 : ℤ) : ℚ))) := by positivity
        simp only [Int.cast_zero, f64Nearest_zero] at this
        linarith
    rw [div_unit_exact hn1 b1 _ (unitIndex_spec _).1]
    exact fmtF2_nonneg _ (div_nonneg b0 (by positivity))

theorem f64Nearest_domain_edge :
    f64Nearest (9217607429331741184 : ℚ) = 9217607429331740672 := by
  have hx : (0 : ℚ) < 9217607429331741184 := by norm_num
  have hlog := int_log_two_eq (x := (9217607429331741184 : ℚ)) (L := 62) hx (by norm_num)
    (by norm_num)
  have he : f64Exp (9217607429331741184 : ℚ) = 10 := by
    rw [f64Exp_of_pos hx, hlog]
    norm_num
  unfold f64Nearest
  rw [he]
  have e : (9217607429331741184 : ℚ) / 2 ^ (10 : ℤ) = ((9001569755206778 : ℤ) : ℚ) + 1 / 2 := by
    norm_num
  rw [e, roundHalfEven_tie]
  norm_num

theorem unitName_facts {k : Nat} (hk : k ≤ 6) :
    (unitName k).toList.map Char.toUpper = (unitName k).toList ∧
    (unitName k).toList.getLast? = some 'B' ∧ (unitName k).toList ≠ [] := by
  interval_cases k <;> exact ⟨by decide, by decide, by decide⟩

/-- The text that `FormatBytes` writes is left as it is by `TrimSpace`. -/
theorem trimSpace_formatted (ip fp : List Char) (k : Nat) (hk : k ≤ 6) (hip : ip ≠ [])
    (hipd : ∀ c ∈ ip, isDigit c = true) :
    trimSpace (String.mk (ip ++ '.' :: fp) ++ unitName k).toList =
      (ip ++ '.' :: fp) ++ (unitName k).toList := by
  obtain ⟨_, hlast, hne⟩ := unitName_facts hk
  have e : (String.mk (ip ++ '.' :: fp) ++ unitName k).toList =
      (ip ++ '.' :: fp) ++ (unitName k).toList := by
    simp [String.toList, String.data_append]
  rw [e]
  apply trimSpace_eq_self
  · intro a ha
    cases ip with
    | nil => exact absurd rfl hip
    | cons x rest =>
      simp only [List.cons_append, List.head?_cons, Option.some.injEq] at ha
      subst ha
      exact isSpace_of_isDigit (hipd _ (List.mem_cons_self _ _))
  · intro z hz
    rw [List.getLast?_append_of_ne_nil _ hne, hlast] at hz
    cases hz
    decide

/-- The hundredths of a value of at most 1024 are at most 102400. -/
theorem hundredths_le {v : ℚ} (hv : v ≤ 1024) : roundHalfEven (v * 100) ≤ 102400 := by
  have h : v * 100 ≤ ((102400 : ℤ) : ℚ) := by
    push_cast
    linarith
  have := roundHalfEven_mono h
  rwa [roundHalfEven_intCast] at this

/-- At the upper end of the domain the hundredths stay below 800. -/
theorem hundredths_le_799 {b : ℚ} (hb : b ≤ 9217607429331740672) :
    roundHalfEven (b / 2 ^ 60 * 100) ≤ 799 := by
  have h : b / 2 ^ 60 * 100 ≤ (9217607429331740672 : ℚ) / 2 ^ 60 * 100 := by
    apply mul_le_mul_of_nonneg_right _ (by norm_num)
    exact div_le_div_of_nonneg_right hb (by positivity)
  have h2 := roundHalfEven_mono h
  have h3 : roundHalfEven ((9217607429331740672 : ℚ) / 2 ^ 60 * 100) = 799 := by
    apply roundHalfEven_eq_of_lt
    rw [abs_lt]
    constructor <;> norm_num
  rwa [h3] at h2

/-- The round trip on a non-negative `int64` up to the last one that
`FormatBytes` writes as less than "8.00EB": with `b` the conversion of `n`,
`k` the unit and `K` the hundredths, the text is `K / 100` with two decimals and
the unit, and `ParseByteSize` returns the nearest float64 of `K / 100`, times
the unit, truncated. -/
theorem round_trip_core (lib : GoLib) (hlib : lib.Standard) (n : Int) (h0 : 0 ≤ n)
    (hn : n ≤ 9217607429331741184) :
    ∃ (K : ℕ),
      FormatBytes n = String.mk (Nat.toDigits 10 (K / 100) ++ '.' :: twoDigits (K % 100)) ++
        unitName (unitIndex (f64Nearest n)) ∧
      ParseByteSize lib (FormatBytes n) =
        .ok ⌊f64Nearest ((K : ℚ) / 100) * 1024 ^ unitIndex (f64Nearest n)⌋ ∧
      |(K : ℚ) / 100 - f64Nearest n / 2 ^ (10 * unitIndex (f64Nearest n))| ≤ 1 / 200 ∧
      (K : ℚ) ≤ 102400 ∧
      f64Nearest ((K : ℚ) / 100) * 1024 ^ unitIndex (f64Nearest n) < 2 ^ 63 ∧
      (K : ℚ) = roundHalfEven (f64Nearest n / 2 ^ (10 * unitIndex (f64Nearest n)) * 100) := by
  have hn63 : n ≤ 2 ^ 63 := le_trans hn (by norm_num)
  obtain ⟨_, b0, b1⟩ := ofInt_int64 h0 hn63
  have hq0 : (0 : ℚ) ≤ (n : ℚ) := by exact_mod_cast h0
  have hbN : f64Nearest (n : ℚ) ≤ 9217607429331740672 := by
    have h1 : (n : ℚ) ≤ 9217607429331741184 := by exact_mod_cast hn
    have := f64Nearest_mono hq0 h1
    rwa [f64Nearest_domain_edge] at this
  have hshape := formatBytes_shape h0 hn63
  generalize f64Nearest (n : ℚ) = b at b0 b1 hbN hshape
  obtain ⟨k6, u0, u1, u2⟩ := unitIndex_spec b
  generalize hk : unitIndex b = k at k6 u0 u1 u2 hshape
  have pk : (0 : ℚ) < 2 ^ (10 * k) := by positivity
  have hv0 : 0 ≤ b / 2 ^ (10 * k) := div_nonneg b0 pk.le
  have hv1 : b / 2 ^ (10 * k) ≤ 1024 := by
    rw [div_le_iff₀ pk]
    rcases Nat.lt_or_ge k 6 with hlt | hge
    · have := u2 hlt
      have e : (2 : ℚ) ^ (10 * (k + 1)) = 1024 * 2 ^ (10 * k) := by
        rw [Nat.mul_add, pow_add]; norm_num; ring
      linarith
    · have hk6 : k = 6 := le_antisymm k6 hge
      subst hk6
      have : (2 : ℚ) ^ 63 ≤ 1024 * 2 ^ (10 * 6) := by norm_num
      linarith
  obtain ⟨eK, hKv⟩ := hundredths_spec hv0
  have hKle := hundredths_le hv1
  generalize hKdef : (roundHalfEven (b / 2 ^ (10 * k) * 100)).toNat = K at eK hKv hshape
  have hKq : (K : ℚ) ≤ 102400 := by
    rw [eK]; exact_mod_cast hKle
  have hKn : K ≤ 102400 := by exact_mod_cast hKq
  have ha0 : (0 : ℚ) ≤ (K : ℚ) / 100 := by positivity
  have ha1 : (K : ℚ) / 100 ≤ 1024 := by linarith
  have hf1024 : f64Nearest ((K : ℚ) / 100) ≤ 1024 := by
    have := f64Nearest_mono ha0 ha1
    have e : f64Nearest (1024 : ℚ) = 1024 := by
      have := f64Nearest_two_pow 10 (by norm_num)
      norm_num at this
      exact this
    rwa [e] at this
  have hf0 : 0 ≤ f64Nearest ((K : ℚ) / 100) := f64Nearest_nonneg ha0
  have hrange : f64Nearest ((K : ℚ) / 100) * 1024 ^ k < 2 ^ 63 := by
    rcases Nat.lt_or_ge k 6 with hlt | hge
    · have h5 : (1024 : ℚ) ^ k ≤ 1024 ^ 5 := pow_le_pow_right₀ (by norm_num) (by omega)
      have : f64Nearest ((K : ℚ) / 100) * 1024 ^ k ≤ 1024 * 1024 ^ 5 :=
        mul_le_mul hf1024 h5 (by positivity) (by norm_num)
      have : (1024 : ℚ) * 1024 ^ 5 < 2 ^ 63 := by norm_num
      linarith
    · have hk6 : k = 6 := le_antisymm k6 hge
      subst hk6
      have h799 := hundredths_le_799 hbN
      have hK799 : (K : ℚ) ≤ 799 := by
        rw [eK]; exact_mod_cast h799
      have hle : (K : ℚ) / 100 ≤ ((1023 : ℕ) : ℚ) / 2 ^ 7 := by
        norm_num
        linarith
      have := f64Nearest_mono ha0 hle
      rw [f64Nearest_dyadic 1023 7 (by norm_num) (by norm_num)] at this
      have h2 : ((1023 : ℕ) : ℚ) / 2 ^ 7 * 1024 ^ 6 < 2 ^ 63 := by norm_num
      have h3 : f64Nearest ((K : ℚ) / 100) * 1024 ^ 6 ≤ ((1023 : ℕ) : ℚ) / 2 ^ 7 * 1024 ^ 6 :=
        mul_le_mul_of_nonneg_right this (by norm_num)
      linarith
  refine ⟨K, hshape, ?_, hKv, hKq, hrange, eK⟩
  have hfin : f64Round ((K : ℚ) / 100) = .fin (f64Nearest ((K : ℚ) / 100)) := by
    rcases f64Round_cases ha0 with ⟨_, bb⟩ | ⟨e, _⟩
    · have : (1024 : ℚ) < 2 ^ 1024 := by norm_num
      linarith
    · exact e
  obtain ⟨d1, d2, d3⟩ := decValue_twoDigits (K % 100) (Nat.mod_lt _ (by norm_num))
  have hfp : twoDigits (K % 100) ≠ [] := by simp [twoDigits]
  have hval : ((decValue (Nat.toDigits 10 (K / 100)) : ℕ) : ℚ) +
      ((decValue (twoDigits (K % 100)) : ℕ) : ℚ) / 10 ^ (twoDigits (K % 100)).length =
      (K : ℚ) / 100 := by
    rw [decValue_toDigits, d1, d3]
    exact decimal_value K
  obtain ⟨hsuf, _, _⟩ := unitName_facts k6
  rw [hshape]
  apply parseByteSize_numeral_exact lib hlib _ (Nat.toDigits 10 (K / 100))
    (twoDigits (K % 100)) (unitName k).toList k _ (toDigits_ne_nil _) (isDigit_toDigits _) d2
    ?_ k6 hsuf (by rw [hval]; exact hfin) hrange
  rw [if_neg hfp]
  exact trimSpace_formatted _ _ k k6 (toDigits_ne_nil _) (isDigit_toDigits _)

/-- The rounding error of the conversion of a non-negative number, also for
zero. -/
theorem f64Nearest_err_nat {x : ℚ} (hx : 0 ≤ x) (h1 : x = 0 ∨ 1 / 100 ≤ x) :
    |f64Nearest x - x| ≤ x * 2 ^ (-53 : ℤ) := by
  rcases h1 with hz | h1
  · subst hz
    simp [f64Nearest_zero]
  · have hpos : 0 < x := by linarith
    apply f64Nearest_err hpos
    have : (2 : ℚ) ^ (-1022 : ℤ) ≤ 2 ^ (-7 : ℤ) := zpow_le_zpow_right₀ (by norm_num) (by norm_num)
    have h7 : (2 : ℚ) ^ (-7 : ℤ) ≤ 1 / 100 := by norm_num
    exact le_trans this (le_trans h7 h1)

/-! ## Claims about the records -/

mutual
/-- Every record of a tree is the record of one of its nodes: the path down to
the node and the size of the node less what the call returned for its
children. -/
theorem printRefPath_leftovers : ∀ (t : Tree) (isPrint : Char → Bool) (path : List String)
    (total : Int) (mw : F64) (pa : Bool) (r : String),
      r ∈ (printRefPath isPrint path total mw pa t).1 →
      ∃ (segs : List String) (target : Tree), PathTo pa t segs target ∧
        r = record isPrint (path ++ segs)
          (target.size - (printRefs isPrint (path ++ segs) total mw pa target.refs).2)
  | .mk addr name size refs, isPrint, path, total, mw, pa, r, hr => by
    have ih := printRefs_leftovers refs isPrint (path ++ [nodeLabel pa name addr]) total mw pa r
    have fromRefs : r ∈ (printRefs isPrint (path ++ [nodeLabel pa name addr]) total mw pa
        refs).1 → ∃ (segs : List String) (target : Tree),
        PathTo pa (.mk addr name size refs) segs target ∧
        r = record isPrint (path ++ segs)
          (target.size - (printRefs isPrint (path ++ segs) total mw pa target.refs).2) := by
      intro h
      obtain ⟨link, c, segs, target, hm, hp, e⟩ := ih h
      refine ⟨_, target, PathTo.down addr name size refs link c segs target hm hp, ?_⟩
      rw [e]
      simp [List.append_assoc]
    simp only [printRefPath] at hr
    split_ifs at hr with h1 h2
    · simp at hr
    · exact fromRefs hr
    · rw [List.mem_append] at hr
      rcases hr with hr | hr
      · exact fromRefs hr
      · simp only [List.mem_singleton] at hr
        exact ⟨_, _, PathTo.here (.mk addr name size refs), by
          rw [hr]; simp [Tree.name, Tree.addr, Tree.size, Tree.refs]⟩
theorem printRefs_leftovers : ∀ (refs : List (String × Tree)) (isPrint : Char → Bool)
    (path : List String) (total : Int) (mw : F64) (pa : Bool) (r : String),
      r ∈ (printRefs isPrint path total mw pa refs).1 →
      ∃ (link : String) (c : Tree) (segs : List String) (target : Tree), (link, c) ∈ refs ∧
        PathTo pa c segs target ∧
        r = record isPrint (path ++ ((if link ≠ "" then [link] else []) ++ segs))
          (target.size - (printRefs isPrint
            (path ++ ((if link ≠ "" then [link] else []) ++ segs)) total mw pa target.refs).2)
  | [], isPrint, path, total, mw, pa, r, hr => by simp [printRefs] at hr
  | (link, t) :: rest, isPrint, path, total, mw, pa, r, hr => by
    simp only [printRefs] at hr
    rw [List.mem_append] at hr
    rcases hr with hr | hr
    · obtain ⟨segs, target, hp, e⟩ := printRefPath_leftovers t isPrint _ total mw pa r hr
      refine ⟨link, t, segs, target, List.mem_cons_self _ _, hp, ?_⟩
      rw [e]
      by_cases hl : link = "" <;> simp [hl]
    · obtain ⟨l2, c, segs, target, hm, hp, e⟩ :=
        printRefs_leftovers rest isPrint path total mw pa r hr
      exact ⟨l2, c, segs, target, List.mem_cons_of_mem _ hm, hp, e⟩
end

/-- The characters of a newline-joined list: the first string, then every
other one after a newline. -/
theorem intercalate_go_toList (s : String) : ∀ (l : List String) (acc : String),
    (String.intercalate.go acc s l).toList =
      acc.toList ++ l.flatMap (fun a => s.toList ++ a.toList)
  | [], acc => by simp [String.intercalate.go]
  | a :: rest, acc => by
    rw [String.intercalate.go, intercalate_go_toList s rest]
    simp [String.toList, String.data_append, List.append_assoc]

theorem count_newline_intercalate : ∀ (l : List String), (∀ x ∈ l, '\n' ∉ x.toList) →
    ("\n".intercalate l).toList.count '\n' = l.length - 1
  | [], _ => by simp [String.intercalate]
  | a :: rest, h => by
    have ha : a.toList.count '\n' = 0 := List.count_eq_zero.mpr (h a (List.mem_cons_self _ _))
    have hrest : ∀ l : List String, (∀ x ∈ l, '\n' ∉ x.toList) →
        (l.flatMap (fun a => "\n".toList ++ a.toList)).count '\n' = l.length := by
      intro l
      induction l with
      | nil => simp
      | cons b l ih =>
        intro hl
        have hb : b.toList.count '\n' = 0 :=
          List.count_eq_zero.mpr (hl b (List.mem_cons_self _ _))
        have := ih (fun x hx => hl x (List.mem_cons_of_mem _ hx))
        simp only [List.flatMap_cons, List.count_append, this, hb, List.length_cons]
        have : "\n".toList.count '\n' = 1 := by decide
        omega
    rw [String.intercalate, intercalate_go_toList, List.count_append, ha,
      hrest rest (fun x hx => h x (List.mem_cons_of_mem _ hx))]
    simp

/-- The mapping of `genRefPath` keeps the printable characters in order and
writes a dot for a plus or a question mark. -/
theorem sanitize_eq (isPrint : Char → Bool) (hplus : isPrint '+' = true)
    (hquest : isPrint '?' = true) (seg : String) :
    sanitize isPrint seg =
      String.mk ((seg.toList.filter isPrint).map
        (fun c => if c = '+' ∨ c = '?' then '.' else c)) := by
  unfold sanitize
  congr 1
  induction seg.toList with
  | nil => simp
  | cons c rest ih =>
    by_cases h1 : c = '+'
    · subst h1
      simp [List.filterMap_cons, sanitizeRune, hplus, ih]
    · by_cases h2 : c = '?'
      · subst h2
        simp [List.filterMap_cons, sanitizeRune, hquest, ih]
      · by_cases h3 : isPrint c = true
        · simp [List.filterMap_cons, sanitizeRune, h1, h2, h3, ih]
        · simp [List.filterMap_cons, sanitizeRune, h1, h2, h3, ih]

theorem sanitize_no_newline (isPrint : Char → Bool) (hnl : isPrint '\n' = false) (seg : String) :
    '\n' ∉ (sanitize isPrint seg).toList := by
  unfold sanitize
  show '\n' ∉ seg.toList.filterMap (sanitizeRune isPrint)
  simp only [List.mem_filterMap, not_exists, not_and]
  intro c _ hc
  unfold sanitizeRune at hc
  split_ifs at hc with h1 h2
  · simp at hc
  · simp only [Option.some.injEq] at hc
    subst hc
    rw [hnl] at h2
    simp at h2

/-- C12: `genRefPath` renders every segment with the non-printable characters
removed, a dot for every plus and every question mark, and the other printable
characters kept in order; the output is the newline-joined list of these
renderings, one per segment (the segment `i` is the line `len - 1 - i`), none
of which holds a newline, so the output has one newline less than there are
segments.  `isPrint` is `unicode.IsPrint`, for which plus and question mark
are printable and the newline is not. -/
theorem C12_path_sanitisation (isPrint : Char → Bool) (hplus : isPrint '+' = true)
    (hquest : isPrint '?' = true) (hnl : isPrint '\n' = false) (slice : List String) :
    ∃ lines : List String, lines.length = slice.length ∧
      genRefPath isPrint slice = "\n".intercalate lines ∧
      (∀ (i : Nat) (seg : String), slice[i]? = some seg →
        lines[slice.length - 1 - i]? = some (String.mk ((seg.toList.filter isPrint).map
          (fun c => if c = '+' ∨ c = '?' then '.' else c)))) ∧
      (∀ l ∈ lines, '\n' ∉ l.toList) ∧
      (genRefPath isPrint slice).toList.count '\n' = slice.length - 1 := by
  have hno : ∀ l ∈ (slice.map (sanitize isPrint)).reverse, '\n' ∉ l.toList := by
    intro l hl
    simp only [List.mem_reverse, List.mem_map] at hl
    obtain ⟨seg, _, rfl⟩ := hl
    exact sanitize_no_newline isPrint hnl seg
  refine ⟨(slice.map (sanitize isPrint)).reverse, by simp, rfl, ?_, hno, ?_⟩
  · intro i seg hi
    have hlt : i < slice.length := by
      rcases Nat.lt_or_ge i slice.length with h | h
      · exact h
      · rw [List.getElem?_eq_none h] at hi; cases hi
    rw [List.getElem?_reverse (by simp; omega)]
    simp only [List.length_map]
    have : slice.length - 1 - (slice.length - 1 - i) = i := by omega
    rw [this, List.getElem?_map, hi]
    simp [sanitize_eq isPrint hplus hquest]
  · have := count_newline_intercalate _ hno
    simpa [genRefPath] using this

theorem C12_path_sanitisation_witness :
    isPrintAscii '+' = true ∧ isPrintAscii '?' = true ∧ isPrintAscii '\n' = false ∧
    ∃ lines : List String, lines.length = ["a+b", "c\nd?"].length ∧
      genRefPath isPrintAscii ["a+b", "c\nd?"] = "\n".intercalate lines ∧
      (∀ (i : Nat) (seg : String), ["a+b", "c\nd?"][i]? = some seg →
        lines[["a+b", "c\nd?"].length - 1 - i]? =
          some (String.mk ((seg.toList.filter isPrintAscii).map
            (fun c => if c = '+' ∨ c = '?' then '.' else c)))) ∧
      (∀ l ∈ lines, '\n' ∉ l.toList) ∧
      (genRefPath isPrintAscii ["a+b", "c\nd?"]).toList.count '\n' =
        ["a+b", "c\nd?"].length - 1 :=
  ⟨by decide, by decide, by decide,
    C12_path_sanitisation isPrintAscii (by decide) (by decide) (by decide) ["a+b", "c\nd?"]⟩

/-- C14: after any sequence of `findOrCreateObjNode` calls from the start
state, the node map has one entry per address of the calls, and the store holds
the nodes of the map and no others.  A further call for an address that was
registered before returns the node of the map with `true`, leaves the map and
the number of nodes as they are, keeps the size of the first call for the
address in the node, and writes exactly one size-mismatch line to stderr when
its size differs from the stored one and nothing when it is equal. -/
theorem C14_registration_idempotent (calls : List (String × Nat × Int)) (name : String)
    (addr : Nat) (size : Int) (first : String × Nat × Int) (st : State)
    (hst : st = registerAll calls State.init)
    (hfirst : calls.find? (fun c => decide (c.2.1 = addr)) = some first) :
    (∀ a, a ∈ st.allNodes.map Prod.fst ↔ a ∈ calls.map (fun c => c.2.1)) ∧
    (st.allNodes.map Prod.fst).Nodup ∧ st.mem.length = st.allNodes.length ∧
    ∃ (p : Nat) (node : ObjNode), st.allNodes.lookup addr = some p ∧ st.mem[p]? = some node ∧
      node.addr = addr ∧ node.size = first.2.2 ∧
      (findOrCreateObjNode st name addr size).2 = (p, true) ∧
      (findOrCreateObjNode st name addr size).1.allNodes = st.allNodes ∧
      (findOrCreateObjNode st name addr size).1.mem.length = st.mem.length ∧
      (∃ node1, (findOrCreateObjNode st name addr size).1.mem[p]? = some node1 ∧
        node1.addr = addr ∧ node1.size = first.2.2) ∧
      (findOrCreateObjNode st name addr size).1.stderr = st.stderr ++
        (if size ≠ first.2.2 then
          ["same address: " ++ toString addr ++ ", old size: " ++ toString first.2.2 ++
            ", new size: " ++ toString size ++ "\n"]
        else []) := by
  have hreg : Registered calls st := by
    have := registerAll_registered calls [] State.init registered_init
    rw [hst]
    simpa using this
  have hmem : addr ∈ calls.map (fun c => c.2.1) := by
    have h1 := List.mem_of_find?_eq_some hfirst
    have h2 := List.find?_some hfirst
    simp only [decide_eq_true_eq] at h2
    exact List.mem_map.mpr ⟨first, h1, h2⟩
  obtain ⟨p, hl⟩ := lookup_isSome_iff.mpr ((hreg.keys addr).mpr hmem)
  obtain ⟨node, c, hm, ha, hc, hs⟩ := hreg.node addr p hl
  rw [hfirst] at hc
  cases hc
  refine ⟨hreg.keys, hreg.nodup, hreg.count, p, node, hl, hm, ha, hs, ?_⟩
  rw [findOrCreateObjNode_existing hl hm, ← hs]
  refine ⟨rfl, rfl, by simp, ⟨_, List.getElem?_set_self (getElem?_lt hm), ?_, ?_⟩, rfl⟩
  · split_ifs <;> exact ha
  · split_ifs <;> rfl

theorem C14_registration_idempotent_witness :
    registerAll [("unk", 7, 8), ("T", 9, 1)] State.init =
      registerAll [("unk", 7, 8), ("T", 9, 1)] State.init ∧
    [("unk", 7, (8 : Int)), ("T", 9, 1)].find? (fun c => decide (c.2.1 = 7)) =
      some ("unk", 7, 8) ∧
    ∃ (p : Nat) (node : ObjNode),
      (registerAll [("unk", 7, 8), ("T", 9, 1)] State.init).allNodes.lookup 7 = some p ∧
      (registerAll [("unk", 7, 8), ("T", 9, 1)] State.init).mem[p]? = some node ∧
      node.addr = 7 ∧ node.size = 8 ∧
      (findOrCreateObjNode (registerAll [("unk", 7, 8), ("T", 9, 1)] State.init) "T" 7 9).1.stderr
        = (registerAll [("unk", 7, 8), ("T", 9, 1)] State.init).stderr ++
          (if (9 : Int) ≠ 8 then
            ["same address: " ++ toString 7 ++ ", old size: " ++ toString (8 : Int) ++
              ", new size: " ++ toString (9 : Int) ++ "\n"]
          else []) := by
  obtain ⟨_, _, _, p, node, h1, h2, h3, h4, _, _, _, _, h5⟩ :=
    C14_registration_idempotent [("unk", 7, 8), ("T", 9, 1)] "T" 7 9 ("unk", 7, 8) _ rfl rfl
  exact ⟨rfl, rfl, p, node, h1, h2, h3, h4, h5⟩

/-- C15: a call of `findOrCreateObjNode` for a registered address leaves in the
node the new name when the stored name begins with "unk" and the new name does
not, and the stored name in every other case.  Hence a stored name that does
not begin with "unk" is still the name of the address after any sequence of
further calls. -/
theorem C15_name_upgrade_only (st : State) (hin : Ingested st) (addr p : Nat) (node : ObjNode)
    (hl : st.allNodes.lookup addr = some p) (hm : st.mem[p]? = some node) :
    (∀ (name : String) (size : Int),
      (findOrCreateObjNode st name addr size).1.allNodes.lookup addr = some p ∧
      ∃ node1, (findOrCreateObjNode st name addr size).1.mem[p]? = some node1 ∧
        node1.name =
          if hasPrefixUnk node.name = true ∧ hasPrefixUnk name = false then name
          else node.name) ∧
    (hasPrefixUnk node.name = false → ∀ calls : List (String × Nat × Int),
      (registerAll calls st).allNodes.lookup addr = some p ∧
      ∃ node2, (registerAll calls st).mem[p]? = some node2 ∧ node2.name = node.name) := by
  constructor
  · intro name size
    refine ⟨findOrCreateObjNode_lookup_keep st name addr size hl, ?_⟩
    rw [findOrCreateObjNode_existing hl hm]
    refine ⟨_, List.getElem?_set_self (getElem?_lt hm), ?_⟩
    split_ifs <;> rfl
  · intro hconc calls
    induction calls generalizing st node with
    | nil => exact ⟨hl, node, hm, rfl⟩
    | cons c rest ih =>
      obtain ⟨name, addr1, size⟩ := c
      have hl1 := findOrCreateObjNode_lookup_keep st name addr1 size hl
      have hin1 := Ingested.register st name addr1 size hin
      by_cases he : addr1 = addr
      · subst he
        have hm1 : (findOrCreateObjNode st name addr1 size).1.mem[p]? = some node := by
          rw [findOrCreateObjNode_existing hl hm]
          simp only [hconc, Bool.false_eq_true, false_and, if_false]
          rw [List.getElem?_set_self (getElem?_lt hm)]
        exact ih _ hin1 node hl1 hm1 hconc
      · have hm1 := findOrCreateObjNode_other hin.canon hl hm name addr1 size he
        exact ih _ hin1 node hl1 hm1 hconc

theorem C15_name_upgrade_only_witness :
    ∃ node : ObjNode,
      (registerAll [("T", 7, 8)] State.init).allNodes.lookup 7 = some 0 ∧
      (registerAll [("T", 7, 8)] State.init).mem[0]? = some node ∧ hasPrefixUnk node.name = false ∧
      ∀ calls : List (String × Nat × Int),
        (registerAll calls (registerAll [("T", 7, 8)] State.init)).allNodes.lookup 7 = some 0 ∧
        ∃ node2, (registerAll calls (registerAll [("T", 7, 8)] State.init)).mem[0]? =
          some node2 ∧ node2.name = node.name :=
  ⟨{ addr := 7, name := "T", size := 8, refs := [] }, rfl, rfl, by decide,
    (C15_name_upgrade_only (registerAll [("T", 7, 8)] State.init)
      (registerAll_ingested _ _ Ingested.init) 7 0
      { addr := 7, name := "T", size := 8, refs := [] } rfl rfl).2 (by decide)⟩

/-! ## Totality of tree building -/

/-- The nodes that one expansion passes on are in the store with a visited
address, and the state it leaves is safe for the next expansion. -/
theorem expandNodes_next {u : List Nat} {f f1 : List Nat} {s s1 : State} (hs : PassSafe u s)
    (he : expandNodes f s [] = .ok (s1, f1)) :
    PassSafe u s1 ∧ ∀ q ∈ f1, ∃ n, s1.mem[q]? = some n ∧ n.addr ∈ s1.visitedNodes := by
  have g := expandNodes_grows f s s1 [] f1 he
  obtain ⟨news, e, hm⟩ := expandNodes_cnodes f s s1 [] f1 he
  simp at e
  subst e
  refine ⟨passSafe_of_grows hs g, ?_⟩
  intro q hq
  obtain ⟨hq1, hq2⟩ := (hm q).mp hq
  have hv : s1.mem[q]? = some (s1.mem[q]) := List.getElem?_eq_getElem hq2
  exact ⟨_, hv, (g.fresh q _ hq1 hv).1⟩

/-- A pass on a safe state with a visited frontier stops with a fault only
when the fuel of the model runs out. -/
theorem genUniqueRefTree_no_fault {u : List Nat} : ∀ (fuel : Nat) (s : State) (f : List Nat)
    (e : Fault), PassSafe u s →
    (∀ q ∈ f, ∃ n, s.mem[q]? = some n ∧ n.addr ∈ s.visitedNodes) →
    genUniqueRefTree fuel s f = .error e → e = .outOfFuel
  | 0, s, f, e, _, _, h => by
    simp only [genUniqueRefTree] at h
    cases h
    rfl
  | fuel + 1, s, f, e, hs, hf, h => by
    obtain ⟨s1, f1, he⟩ := expandNodes_total f s [] hs hf
    obtain ⟨hs1, hf1⟩ := expandNodes_next hs he
    simp only [genUniqueRefTree, he] at h
    split_ifs at h with hl
    exact genUniqueRefTree_no_fault fuel s1 f1 e hs1 hf1 h

/-- Every call of the recursion is made on a safe state with a frontier of
visited nodes. -/
theorem layer_safe {u : List Nat} {st : State} {nodes : List Nat} (hs : PassSafe u st)
    (hf : ∀ q ∈ nodes, ∃ n, st.mem[q]? = some n ∧ n.addr ∈ st.visitedNodes) :
    ∀ {d : Nat} {s : State} {f : List Nat}, Layer st nodes d s f →
      PassSafe u s ∧ ∀ q ∈ f, ∃ n, s.mem[q]? = some n ∧ n.addr ∈ s.visitedNodes := by
  intro d s f hL
  induction hL with
  | zero => exact ⟨hs, hf⟩
  | succ _ he _ ih => exact expandNodes_next ih.1 he

/-- C20: on a store that is closed and whose nodes all have an address in the
node map, for a frontier of nodes with visited addresses, `genUniqueRefTree`
returns once the recursion bound exceeds the number of addresses not visited
yet; it stops with no fault other than the bound of the model (not with the
panic "add children for not visited node", not with a nil dereference); and
every frontier it passes to a recursive call holds nodes of the store with
visited addresses. -/
theorem C20_tree_building_total (st : State) (nodes : List Nat)
    (hs : PassSafe (storeAddrs st) st)
    (hf : ∀ q ∈ nodes, ∃ n, st.mem[q]? = some n ∧ n.addr ∈ st.visitedNodes) :
    (∀ fuel, unvisitedCount (storeAddrs st) st < fuel →
      ∃ sF, genUniqueRefTree fuel st nodes = .ok sF) ∧
    (∀ fuel e, genUniqueRefTree fuel st nodes = .error e → e = .outOfFuel) ∧
    (∀ d s f, Layer st nodes d s f →
      ∀ q ∈ f, ∃ n, s.mem[q]? = some n ∧ n.addr ∈ s.visitedNodes) :=
  ⟨fun fuel h => genUniqueRefTree_total fuel st nodes hs hf h,
    fun fuel e h => genUniqueRefTree_no_fault fuel st nodes e hs hf h,
    fun _ _ _ hL => (layer_safe hs hf hL).2⟩

theorem C20_tree_building_total_witness :
    PassSafe (storeAddrs (ingest cycleCore)) (ingest cycleCore) ∧
    (∀ q ∈ (ingest cycleCore).globalVarNodes,
      ∃ n, (ingest cycleCore).mem[q]? = some n ∧ n.addr ∈ (ingest cycleCore).visitedNodes) ∧
    unvisitedCount (storeAddrs (ingest cycleCore)) (ingest cycleCore) < 3 ∧
    ∃ sF, genUniqueRefTree 3 (ingest cycleCore) (ingest cycleCore).globalVarNodes = .ok sF :=
  have hs : PassSafe (storeAddrs (ingest cycleCore)) (ingest cycleCore) :=
    (ingest_ingested cycleCore).passSafe
  have hf : ∀ q ∈ (ingest cycleCore).globalVarNodes,
      ∃ n, (ingest cycleCore).mem[q]? = some n ∧ n.addr ∈ (ingest cycleCore).visitedNodes := by
    intro q hq
    obtain ⟨n, hn, _, hv, _⟩ := (ingest_ingested cycleCore).wf.roots q
      ((ingest_ingested cycleCore).wf.globals q hq)
    exact ⟨n, hn, hv⟩
  have hc : unvisitedCount (storeAddrs (ingest cycleCore)) (ingest cycleCore) < 3 := by decide
  ⟨hs, hf, hc, (C20_tree_building_total (ingest cycleCore) (ingest cycleCore).globalVarNodes
    hs hf).1 3 hc⟩

/-! ## Accounting of the printed bytes -/

theorem toString_int_toList (i : Int) :
    (toString i).toList =
      if i < 0 then '-' :: Nat.toDigits 10 i.natAbs else Nat.toDigits 10 i.natAbs := by
  cases i with
  | ofNat m =>
    have : ¬ ((Int.ofNat m) < 0) := by simp
    rw [if_neg this]
    rfl
  | negSucc m =>
    have : (Int.negSucc m) < 0 := Int.negSucc_lt_zero m
    rw [if_pos this]
    rfl

theorem readInt_toString (i : Int) : readInt (toString i).toList = some i := by
  rw [toString_int_toList]
  have hd := isDigit_toDigits i.natAbs
  have hne := toDigits_ne_nil i.natAbs
  have hall : (Nat.toDigits 10 i.natAbs).all isDigit = true := List.all_eq_true.mpr hd
  have hv := decValue_toDigits i.natAbs
  by_cases hneg : i < 0
  · rw [if_pos hneg]
    unfold readInt
    simp only [List.head?_cons, if_true, List.tail_cons, hall, hv, ne_eq, hne, not_false_eq_true,
      and_self]
    congr 1
    omega
  · rw [if_neg hneg]
    have hhead : ¬ ((Nat.toDigits 10 i.natAbs).head? = some '-') := by
      intro h
      cases hl : Nat.toDigits 10 i.natAbs with
      | nil => exact hne hl
      | cons a l =>
        rw [hl] at h hd
        simp only [List.head?_cons, Option.some.injEq] at h
        have := hd a (List.mem_cons_self _ _)
        rw [h] at this
        revert this
        decide
    unfold readInt
    rw [if_neg hhead]
    simp only [hall, hv, ne_eq, hne, not_false_eq_true, and_self, if_true]
    congr 1
    omega

theorem toString_int_no_tab (i : Int) : ∀ c ∈ (toString i).toList, (c != '\t') = true := by
  intro c hc
  rw [toString_int_toList] at hc
  have hd := isDigit_toDigits i.natAbs
  have key : ∀ x : Char, isDigit x = true → (x != '\t') = true := by
    intro x hx
    by_contra hcon
    simp only [bne_iff_ne, ne_eq, not_not] at hcon
    rw [hcon] at hx
    revert hx
    decide
  split_ifs at hc
  · rcases List.mem_cons.mp hc with rfl | h
    · decide
    · exact key c (hd c h)
  · exact key c (hd c hc)

/-- The count read from a record is the count the record was written with. -/
theorem recordCount_record (isPrint : Char → Bool) (path : List String) (l : Int) :
    recordCount (record isPrint path l) = some l := by
  have e : (record isPrint path l).toList =
      (genRefPath isPrint path).toList ++ '\n' :: '\t' :: ((toString l).toList ++ ['\n']) := by
    simp [record, String.toList, String.data_append]
  have hrev : (record isPrint path l).toList.reverse =
      ('\n' :: (toString l).toList.reverse) ++
        '\t' :: ('\n' :: (genRefPath isPrint path).toList.reverse) := by
    rw [e]
    simp
  have htw : (record isPrint path l).toList.reverse.takeWhile (fun c => c != '\t') =
      '\n' :: (toString l).toList.reverse := by
    rw [hrev]
    have hall : ∀ c ∈ '\n' :: (toString l).toList.reverse, (c != '\t') = true := by
      intro c hc
      rcases List.mem_cons.mp hc with rfl | h
      · decide
      · exact toString_int_no_tab l c (List.mem_reverse.mp h)
    have := takeWhile_append_stop (p := fun c => c != '\t') _
      ('\t' :: ('\n' :: (genRefPath isPrint path).toList.reverse)) hall (by simp)
    exact this.1
  unfold recordCount
  simp only [htw]
  have e2 : ('\n' :: (toString l).toList.reverse).reverse = (toString l).toList ++ ['\n'] := by
    simp
  rw [e2]
  have e3 : ((toString l).toList ++ ['\n']).getLast? = some '\n' := by simp
  have e4 : ((toString l).toList ++ ['\n']).dropLast = (toString l).toList := by simp
  rw [e3, e4, if_pos rfl]
  exact readInt_toString l

mutual
/-- The value that `printRefPath` returns is the sum of the counts of the
records it wrote. -/
theorem printRefPath_counts : ∀ (t : Tree) (isPrint : Char → Bool) (path : List String)
    (total : Int) (mw : F64) (pa : Bool),
      ∃ counts : List Int,
        (printRefPath isPrint path total mw pa t).1.map recordCount = counts.map some ∧
        (printRefPath isPrint path total mw pa t).2 = counts.sum
  | .mk addr name size refs, isPrint, path, total, mw, pa => by
    obtain ⟨cs, h1, h2⟩ :=
      printRefs_counts refs isPrint (path ++ [nodeLabel pa name addr]) total mw pa
    simp only [printRefPath]
    split_ifs with c1 c2
    · exact ⟨[], by simp, by simp⟩
    · exact ⟨cs, h1, h2⟩
    · refine ⟨cs ++ [size - (printRefs isPrint (path ++ [nodeLabel pa name addr]) total mw pa
        refs).2], ?_, ?_⟩
      · simp [h1, recordCount_record]
      · simp [← h2]
theorem printRefs_counts : ∀ (refs : List (String × Tree)) (isPrint : Char → Bool)
    (path : List String) (total : Int) (mw : F64) (pa : Bool),
      ∃ counts : List Int,
        (printRefs isPrint path total mw pa refs).1.map recordCount = counts.map some ∧
        (printRefs isPrint path total mw pa refs).2 = counts.sum
  | [], isPrint, path, total, mw, pa => ⟨[], by simp [printRefs], by simp [printRefs]⟩
  | (link, t) :: rest, isPrint, path, total, mw, pa => by
    obtain ⟨c1, a1, a2⟩ := printRefPath_counts t isPrint
      (if link ≠ "" then path ++ [link] else path) total mw pa
    obtain ⟨c2, b1, b2⟩ := printRefs_counts rest isPrint path total mw pa
    refine ⟨c1 ++ c2, ?_, ?_⟩
    · simp only [printRefs, List.map_append, a1, b1]
    · simp only [printRefs, List.sum_append, a2, b2]
end

theorem formatBytes_tie : FormatBytes 36169534507319296 = "32.12PB" := by
  have hs := formatBytes_shape (n := 36169534507319296) (by norm_num) (by norm_num)
  have e1 : ((36169534507319296 : ℤ) : ℚ) = ((257 : ℕ) : ℚ) * 2 ^ (47 : ℤ) := by norm_num
  have hb : f64Nearest ((36169534507319296 : ℤ) : ℚ) = 36169534507319296 := by
    rw [e1, f64Nearest_fix 257 47 (by norm_num) (by norm_num)]
    norm_num
  have hi : unitIndex (36169534507319296 : ℚ) = 5 := by
    unfold unitIndex
    norm_num
  have hr : roundHalfEven ((36169534507319296 : ℚ) / 2 ^ (10 * 5) * 100) = 3212 := by
    have : (36169534507319296 : ℚ) / 2 ^ (10 * 5) * 100 = ((3212 : ℤ) : ℚ) + 1 / 2 := by norm_num
    rw [this, roundHalfEven_tie]
    norm_num
  rw [hb, hi, hr] at hs
  rw [hs]
  decide

theorem parse_tie : ParseByteSize goLib "32.12PB" = .ok 36163905007785080 := by
  have hf : f64Round ((decValue ['3', '2'] : ℚ) + (decValue ['1', '2'] : ℚ) /
      10 ^ ['1', '2'].length) = .fin ((4520488125973135 : ℕ) * 2 ^ ((5 : ℤ) - 52)) := by
    have a0 : decValue ['3', '2'] = 32 := by rfl
    have a1 : decValue ['1', '2'] = 12 := by rfl
    rw [a0, a1]
    have e : ((32 : ℕ) : ℚ) + ((12 : ℕ) : ℚ) / 10 ^ ['1', '2'].length = 803 / 25 := by
      norm_num
    rw [e]
    apply f64Round_eval 4520488125973135 (by norm_num) (by norm_num) (by norm_num)
      (by norm_num) (by norm_num)
    rw [abs_lt]
    constructor <;> norm_num
  have h := parseByteSize_numeral_exact goLib goLib_standard "32.12PB" ['3', '2'] ['1', '2']
    ['P', 'B'] 5 _ (by simp) (by decide) (by decide) (by decide) (by norm_num) (by decide) hf
    (by norm_num)
  rw [h]
  congr 1
  rw [Int.floor_eq_iff]
  constructor <;> norm_num

/-- C16 as stated fails: 36169534507319296 is 32.125 PB, which `FormatBytes`
writes as "32.12PB" (a tie, rounded to even).  The float64 nearest to 32.12 is
below 32.12, so `ParseByteSize` returns 36163905007785080, which is
5629499534216 less, and 0.005 x 2^50 + 1 is only 5629499534214.12. -/
theorem C16_bound_exceeded :
    FormatBytes 36169534507319296 = "32.12PB" ∧
    ParseByteSize goLib (FormatBytes 36169534507319296) = .ok 36163905007785080 ∧
    ¬ (|((36163905007785080 : ℤ) : ℚ) - ((36169534507319296 : ℤ) : ℚ)| <
      5 / 1000 * 1024 ^ 5 + 1) := by
  refine ⟨formatBytes_tie, by rw [formatBytes_tie]; exact parse_tie, ?_⟩
  rw [abs_lt]
  norm_num

/-- Above the domain of the round trip: the greatest `int64` is written as
"8.00EB", and 8 x 2^60 is 2^63, which `int64` cannot represent; the conversion
of line 83 then gives what the platform gives, the least `int64` on x86-64. -/
theorem formatBytes_maxInt64 :
    FormatBytes 9223372036854775807 = "8.00EB" ∧
    ParseByteSize goLib "8.00EB" = .ok (-9223372036854775808) := by
  constructor
  · have hs := formatBytes_shape (n := 9223372036854775807) (by norm_num) (by norm_num)
    have hb : f64Nearest ((9223372036854775807 : ℤ) : ℚ) = 9223372036854775808 := by
      have := f64Nearest_eval (x := ((9223372036854775807 : ℤ) : ℚ)) (L := 62)
        9007199254740992 (by norm_num) (by norm_num) (by norm_num) (by norm_num) (by
          rw [abs_lt]
          constructor <;> norm_num)
      rw [this]
      norm_num
    have hi : unitIndex (9223372036854775808 : ℚ) = 6 := by
      unfold unitIndex
      norm_num
    have hr : roundHalfEven ((9223372036854775808 : ℚ) / 2 ^ (10 * 6) * 100) = 800 := by
      have : (9223372036854775808 : ℚ) / 2 ^ (10 * 6) * 100 = ((800 : ℤ) : ℚ) := by norm_num
      rw [this, roundHalfEven_intCast]
    rw [hb, hi, hr] at hs
    rw [hs]
    decide
  · have hf : f64Round ((decValue ['8'] : ℚ) + (decValue ['0', '0'] : ℚ) /
        10 ^ ['0', '0'].length) = .fin ((8 : ℕ) : ℚ) := by
      have a0 : decValue ['8'] = 8 := by rfl
      have a1 : decValue ['0', '0'] = 0 := by rfl
      rw [a0, a1]
      have e : ((8 : ℕ) : ℚ) + ((0 : ℕ) : ℚ) / 10 ^ ['0', '0'].length = ((8 : ℕ) : ℚ) := by
        norm_num
      rw [e, f64Round_natCast 8 (by norm_num)]
    have h := parseByteSize_numeral goLib goLib_standard "8.00EB" ['8'] ['0', '0']
      ['E', 'B'] 6 _ (by simp) (by decide) (by decide) (by decide) (by norm_num) (by decide) hf
    rw [h, if_neg (by norm_num), mul_unitValue]
    have e2 : ((8 : ℕ) : ℚ) * 2 ^ (10 * 6) = ((1 : ℕ) : ℚ) * 2 ^ (63 : ℤ) := by norm_num
    rw [e2, f64Round_fix 1 63 (by norm_num) (by norm_num) (by norm_num)]
    have e3 : truncate (((1 : ℕ) : ℚ) * 2 ^ (63 : ℤ)) = 2 ^ 63 := by
      rw [truncate_nonneg (by norm_num), Int.floor_eq_iff]
      constructor <;> norm_num
    unfold toInt64
    simp only [e3]
    rw [if_neg (by norm_num)]
    rfl

/-- C16 (amended): for every `n` from 0 to 9217607429331741184, the last
`int64` that `FormatBytes` writes as less than "8.00EB", `FormatBytes(n)` is a
numeral of digits and a point followed by the text of a unit of the ladder from
B to EB, `ParseByteSize` succeeds on it, and the value it returns differs from
`n` by less than `(0.005 + 2^-40) x U + 1`, `U` being the byte value of that
unit; for `n < 1024` it returns `n`. -/
theorem C16_round_trip_bound (lib : GoLib) (hlib : lib.Standard) (n : Int) (h0 : 0 ≤ n)
    (hn : n ≤ 9217607429331741184) :
    ∃ (k : Nat) (num : List Char) (r : Int), k ≤ 6 ∧
      (∀ c ∈ num, isDigit c = true ∨ c = '.') ∧
      FormatBytes n = String.mk num ++ unitName k ∧
      ParseByteSize lib (FormatBytes n) = .ok r ∧
      |(r : ℚ) - n| < (5 / 1000 + 1 / 2 ^ 40) * 1024 ^ k + 1 ∧
      (n < 1024 → r = n) := by
  obtain ⟨K, hshape, hparse, hKv, hKq, hrange, eK⟩ := round_trip_core lib hlib n h0 hn
  have hn63 : n ≤ 2 ^ 63 := le_trans hn (by norm_num)
  have hq0 : (0 : ℚ) ≤ (n : ℚ) := by exact_mod_cast h0
  have hq63 : (n : ℚ) ≤ 2 ^ 63 := by exact_mod_cast hn63
  obtain ⟨k6, u0, u1, u2⟩ := unitIndex_spec (f64Nearest (n : ℚ))
  have hbn : |f64Nearest (n : ℚ) - n| ≤ (n : ℚ) * 2 ^ (-53 : ℤ) := by
    apply f64Nearest_err_nat hq0
    rcases h0.lt_or_eq with hpos | hz
    · right
      have : (1 : ℚ) ≤ (n : ℚ) := by exact_mod_cast hpos
      linarith
    · left
      rw [← hz]; simp
  have hexact : n < 1024 → f64Nearest (n : ℚ) = n := by
    intro hlt
    obtain ⟨m, rfl⟩ := Int.eq_ofNat_of_zero_le h0
    have hm : m < 2 ^ 53 := by
      have : (m : ℤ) < 1024 := hlt
      have : m < 1024 := by exact_mod_cast this
      omega
    have := f64Nearest_dyadic m 0 hm (by norm_num)
    simpa using this
  generalize hb : f64Nearest (n : ℚ) = b at *
  generalize hk : unitIndex b = k at *
  have pU : (0 : ℚ) < 2 ^ (10 * k) := by positivity
  have eU : (1024 : ℚ) ^ k = 2 ^ (10 * k) := by
    rw [pow_mul]; norm_num
  have hnU : (n : ℚ) ≤ 1024 * 2 ^ (10 * k) := by
    rcases Nat.lt_or_ge k 6 with hlt | hge
    · by_contra hcon
      push_neg at hcon
      have e : (1024 : ℚ) * 2 ^ (10 * k) = 2 ^ (10 * (k + 1)) := by
        rw [Nat.mul_add, pow_add]; norm_num; ring
      rw [e] at hcon
      have hm := f64Nearest_mono (by positivity : (0 : ℚ) ≤ 2 ^ (10 * (k + 1))) hcon.le
      rw [f64Nearest_two_pow _ (by omega), hb] at hm
      have := u2 hlt
      linarith
    · have hk6 : k = 6 := le_antisymm k6 hge
      subst hk6
      have : (2 : ℚ) ^ 63 ≤ 1024 * 2 ^ (10 * 6) := by norm_num
      linarith
  have ha0 : (0 : ℚ) ≤ (K : ℚ) / 100 := by positivity
  have hfa : |f64Nearest ((K : ℚ) / 100) - (K : ℚ) / 100| ≤ (K : ℚ) / 100 * 2 ^ (-53 : ℤ) := by
    apply f64Nearest_err_nat ha0
    rcases Nat.eq_zero_or_pos K with hz | hpos
    · left; subst hz; simp
    · right
      have : (1 : ℚ) ≤ (K : ℚ) := by exact_mod_cast hpos
      linarith
  have hf0 : 0 ≤ f64Nearest ((K : ℚ) / 100) := f64Nearest_nonneg ha0
  have hfl1 : ((⌊f64Nearest ((K : ℚ) / 100) * 1024 ^ k⌋ : ℤ) : ℚ) ≤
      f64Nearest ((K : ℚ) / 100) * 1024 ^ k := Int.floor_le _
  have hfl2 : f64Nearest ((K : ℚ) / 100) * 1024 ^ k <
      ((⌊f64Nearest ((K : ℚ) / 100) * 1024 ^ k⌋ : ℤ) : ℚ) + 1 := Int.lt_floor_add_one _
  refine ⟨k, Nat.toDigits 10 (K / 100) ++ '.' :: twoDigits (K % 100),
    ⌊f64Nearest ((K : ℚ) / 100) * 1024 ^ k⌋, k6, ?_, hshape, hparse, ?_, ?_⟩
  · intro c hc
    rcases List.mem_append.mp hc with h | h
    · exact Or.inl (isDigit_toDigits _ c h)
    · rcases List.mem_cons.mp h with h | h
      · exact Or.inr h
      · exact Or.inl ((decValue_twoDigits (K % 100) (Nat.mod_lt _ (by norm_num))).2.1 c h)
  · generalize f64Nearest ((K : ℚ) / 100) = f at *
    generalize ((⌊f * 1024 ^ k⌋ : ℤ) : ℚ) = r at *
    rw [eU] at hfl1 hfl2 ⊢
    have e53 : (2 : ℚ) ^ (-53 : ℤ) = 1 / 2 ^ 53 := by norm_num
    rw [e53] at hfa hbn
    rw [abs_le] at hfa hbn hKv
    have t1 : (f - (K : ℚ) / 100) * 2 ^ (10 * k) ≤ (K : ℚ) / 100 * (1 / 2 ^ 53) * 2 ^ (10 * k) :=
      mul_le_mul_of_nonneg_right hfa.2 pU.le
    have t2 : -((K : ℚ) / 100 * (1 / 2 ^ 53)) * 2 ^ (10 * k) ≤ (f - (K : ℚ) / 100) * 2 ^ (10 * k) :=
      mul_le_mul_of_nonneg_right hfa.1 pU.le
    have t3 : ((K : ℚ) / 100 - b / 2 ^ (10 * k)) * 2 ^ (10 * k) ≤ 1 / 200 * 2 ^ (10 * k) :=
      mul_le_mul_of_nonneg_right hKv.2 pU.le
    have t4 : -(1 / 200) * 2 ^ (10 * k) ≤ ((K : ℚ) / 100 - b / 2 ^ (10 * k)) * 2 ^ (10 * k) :=
      mul_le_mul_of_nonneg_right hKv.1 pU.le
    have t5 : b / 2 ^ (10 * k) * 2 ^ (10 * k) = b := div_mul_cancel₀ _ pU.ne'
    have t6 : (K : ℚ) / 100 * (1 / 2 ^ 53) * 2 ^ (10 * k) ≤ 1024 * (1 / 2 ^ 53) * 2 ^ (10 * k) := by
      apply mul_le_mul_of_nonneg_right _ pU.le
      apply mul_le_mul_of_nonneg_right _ (by positivity)
      linarith
    have t7 : (n : ℚ) * (1 / 2 ^ 53) ≤ 1024 * 2 ^ (10 * k) * (1 / 2 ^ 53) :=
      mul_le_mul_of_nonneg_right hnU (by positivity)
    have t8 : (1024 : ℚ) * (1 / 2 ^ 53) * 2 ^ (10 * k) + 1024 * 2 ^ (10 * k) * (1 / 2 ^ 53) <
        1 / 2 ^ 40 * 2 ^ (10 * k) := by
      have : (1024 : ℚ) * (1 / 2 ^ 53) * 2 ^ (10 * k) + 1024 * 2 ^ (10 * k) * (1 / 2 ^ 53) =
          (2048 / 2 ^ 53) * 2 ^ (10 * k) := by ring
      rw [this]
      apply mul_lt_mul_of_pos_right _ pU
      norm_num
    generalize (2 : ℚ) ^ (10 * k) = U at *
    rw [abs_lt]
    have s1 : (f - (K : ℚ) / 100) * U = f * U - (K : ℚ) / 100 * U := by ring
    have s2 : ((K : ℚ) / 100 - b / U) * U = (K : ℚ) / 100 * U - b / U * U := by ring
    rw [s1] at t1 t2
    rw [s2, t5] at t3 t4
    constructor
    · linarith [hbn.1, hbn.2]
    · linarith [hbn.1, hbn.2]
  · intro hlt
    have hbe := hexact hlt
    have hnq : (n : ℚ) < 1024 := by exact_mod_cast hlt
    have hk0 : k = 0 := by
      by_contra hne
      have hk1 : 1 ≤ k := Nat.one_le_iff_ne_zero.mpr hne
      have h1 := u1 hk1
      have h2 : (2 : ℚ) ^ (10 * 1) ≤ 2 ^ (10 * k) :=
        pow_le_pow_right₀ (by norm_num) (by omega)
      rw [hbe] at h1
      norm_num at h2
      linarith
    subst hk0
    have eKn : (K : ℚ) = (n : ℚ) * 100 := by
      rw [eK, hbe]
      have : (n : ℚ) / 2 ^ (10 * 0) * 100 = ((n * 100 : ℤ) : ℚ) := by
        push_cast
        simp
      rw [this, roundHalfEven_intCast]
      push_cast
      ring
    have ea : (K : ℚ) / 100 = (n : ℚ) := by
      rw [eKn]; ring
    rw [ea, hb, hbe, pow_zero, mul_one, Int.floor_intCast]

theorem C16_round_trip_bound_witness :
    goLib.Standard ∧ (0 : Int) ≤ 2048 ∧ (2048 : Int) ≤ 9217607429331741184 ∧
    ∃ (k : Nat) (num : List Char) (r : Int), k ≤ 6 ∧
      (∀ c ∈ num, isDigit c = true ∨ c = '.') ∧
      FormatBytes 2048 = String.mk num ++ unitName k ∧
      ParseByteSize goLib (FormatBytes 2048) = .ok r ∧
      |(r : ℚ) - ((2048 : Int) : ℚ)| < (5 / 1000 + 1 / 2 ^ 40) * 1024 ^ k + 1 ∧
      ((2048 : Int) < 1024 → r = 2048) :=
  ⟨goLib_standard, by norm_num, by norm_num,
    C16_round_trip_bound goLib goLib_standard 2048 (by norm_num) (by norm_num)⟩

/-- C17, the general part as stated, fails: the nearest float64 of 0.1 is above
0.1, and times 2^60 it is 115292150460684704, while 0.1 x 1024^6 truncated is
115292150460684697. -/
theorem C17_float_rounding_changes_result :
    ParseByteSize goLib "0.1EB" = .ok 115292150460684704 ∧
    ⌊(1 / 10 : ℚ) * 1024 ^ 6⌋ = 115292150460684697 := by
  constructor
  · have hf : f64Round ((decValue ['0'] : ℚ) + (decValue ['1'] : ℚ) / 10 ^ ['1'].length) =
        .fin ((7205759403792794 : ℕ) * 2 ^ ((-4 : ℤ) - 52)) := by
      have e : ((decValue ['0'] : ℚ) + (decValue ['1'] : ℚ) / 10 ^ ['1'].length) = 1 / 10 := by
        have a0 : decValue ['0'] = 0 := by rfl
        have a1 : decValue ['1'] = 1 := by rfl
        rw [a0, a1]
        norm_num
      rw [e]
      apply f64Round_eval 7205759403792794 (by norm_num) (by norm_num) (by norm_num)
        (by norm_num) (by norm_num)
      rw [abs_lt]
      constructor <;> norm_num
    have h := parseByteSize_numeral_exact goLib goLib_standard "0.1EB" ['0'] ['1'] ['E', 'B'] 6 _
      (by simp) (by decide) (by decide) (by decide) (by norm_num) (by decide) hf (by norm_num)
    rw [h]
    congr 1
    rw [Int.floor_eq_iff]
    constructor <;> norm_num
  · rw [Int.floor_eq_iff]
    constructor <;> norm_num

theorem formatBytes_2048 : FormatBytes 2048 = "2.00KB" := by
  have hb : F64.ofInt 2048 = .fin 2048 := by
    have := ofInt_exact (i := 2048) (by norm_num) (by norm_num)
    simpa using this
  have hi : unitIndex 2048 = 1 := by
    unfold unitIndex
    norm_num
  have hd : F64.div (.fin 2048) (unitValue 1) = .fin 2 := by
    rw [div_unitValue]
    have : (2048 : ℚ) / 2 ^ (10 * 1) = ((2 : ℕ) : ℚ) := by norm_num
    rw [this, f64Round_natCast 2 (by norm_num)]
    simp
  have hr : roundHalfEven ((2 : ℚ) * 100) = 200 := by
    have : ((2 : ℚ) * 100) = ((200 : ℤ) : ℚ) := by norm_num
    rw [this, roundHalfEven_intCast]
  unfold FormatBytes
  rw [hb, byteSize_string_fin 2048 (by norm_num), hi, if_neg (by norm_num), hd,
    fmtF2_nonneg _ (by norm_num), hr]
  decide

theorem parse_2KB : ParseByteSize goLib "2KB" = .ok 2048 := by
  have hf : f64Round ((decValue ['2'] : ℚ) + (decValue ([] : List Char) : ℚ) /
      10 ^ ([] : List Char).length) = .fin ((2 : ℕ) : ℚ) := by
    have a0 : decValue ['2'] = 2 := by rfl
    rw [a0, decValue_nil]
    have : ((2 : ℕ) : ℚ) + ((0 : ℕ) : ℚ) / 10 ^ ([] : List Char).length = ((2 : ℕ) : ℚ) := by
      simp
    rw [this, f64Round_natCast 2 (by norm_num)]
  have h := parseByteSize_numeral_exact goLib goLib_standard "2KB" ['2'] [] ['K', 'B'] 1 _
    (by simp) (by decide) (by simp) (by decide) (by norm_num) (by decide) hf (by norm_num)
  rw [h]
  congr 1
  rw [Int.floor_eq_iff]
  constructor <;> norm_num

theorem parse_1_5MB : ParseByteSize goLib "1.5MB" = .ok 1572864 := by
  have hf : f64Round ((decValue ['1'] : ℚ) + (decValue ['5'] : ℚ) / 10 ^ ['5'].length) =
      .fin (((3 : ℕ) : ℚ) / 2 ^ 1) := by
    have a0 : decValue ['1'] = 1 := by rfl
    have a1 : decValue ['5'] = 5 := by rfl
    rw [a0, a1]
    have : ((1 : ℕ) : ℚ) + ((5 : ℕ) : ℚ) / 10 ^ ['5'].length = ((3 : ℕ) : ℚ) / 2 ^ 1 := by
      norm_num
    rw [this, f64Round_dyadic 3 1 (by norm_num) (by norm_num)]
  have h := parseByteSize_numeral_exact goLib goLib_standard "1.5MB" ['1'] ['5'] ['M', 'B'] 2 _
    (by simp) (by decide) (by decide) (by decide) (by norm_num) (by decide) hf (by norm_num)
  rw [h]
  congr 1
  rw [Int.floor_eq_iff]
  constructor <;> norm_num

/-- C17 (amended): `FormatBytes(2048)` is "2.00KB", `ParseByteSize("2KB")` is
2048 and `ParseByteSize("1.5MB")` is 1572864.  In general, for a text that,
trimmed, is a numeral of decimal digits, with or without a point followed by
more digits, and then a text that reads B, KB, MB, GB, TB, PB or EB in upper
case, `ParseByteSize` returns the nearest float64 `f` of the number the numeral
denotes, times 1024^k, truncated, whenever that is below 2^63; `k` is the
position of the unit in the ladder. -/
theorem C17_codec_values :
    FormatBytes 2048 = "2.00KB" ∧ ParseByteSize goLib "2KB" = .ok 2048 ∧
    ParseByteSize goLib "1.5MB" = .ok 1572864 ∧
    ∀ (lib : GoLib), lib.Standard → ∀ (s : String) (ip fp suffix : List Char) (k : Nat) (f : ℚ),
      ip ≠ [] → (∀ c ∈ ip, isDigit c = true) → (∀ c ∈ fp, isDigit c = true) →
      trimSpace s.toList = (if fp = [] then ip else ip ++ '.' :: fp) ++ suffix →
      k ≤ 6 → suffix.map Char.toUpper = (unitName k).toList →
      f64Round ((decValue ip : ℚ) + (decValue fp : ℚ) / 10 ^ fp.length) = .fin f →
      f * 1024 ^ k < 2 ^ 63 →
      ParseByteSize lib s = .ok ⌊f * 1024 ^ k⌋ :=
  ⟨formatBytes_2048, parse_2KB, parse_1_5MB,
    fun lib hlib s ip fp suffix k f hip hipd hfpd hs hk hsuf hf hr =>
      parseByteSize_numeral_exact lib hlib s ip fp suffix k f hip hipd hfpd hs hk hsuf hf hr⟩

theorem C17_codec_values_witness :
    goLib.Standard ∧ ['3'] ≠ [] ∧ (∀ c ∈ ['3'], isDigit c = true) ∧
    (∀ c ∈ ['2', '5'], isDigit c = true) ∧
    trimSpace " 3.25kb ".toList =
      (if ['2', '5'] = [] then ['3'] else ['3'] ++ '.' :: ['2', '5']) ++ ['k', 'b'] ∧
    1 ≤ 6 ∧ ['k', 'b'].map Char.toUpper = (unitName 1).toList ∧
    f64Round ((decValue ['3'] : ℚ) + (decValue ['2', '5'] : ℚ) / 10 ^ ['2', '5'].length) =
      .fin (((13 : ℕ) : ℚ) / 2 ^ 2) ∧
    ((13 : ℕ) : ℚ) / 2 ^ 2 * 1024 ^ 1 < 2 ^ 63 ∧
    ParseByteSize goLib " 3.25kb " = .ok ⌊((13 : ℕ) : ℚ) / 2 ^ 2 * 1024 ^ 1⌋ :=
  have hf : f64Round ((decValue ['3'] : ℚ) + (decValue ['2', '5'] : ℚ) /
      10 ^ ['2', '5'].length) = .fin (((13 : ℕ) : ℚ) / 2 ^ 2) := by
    have a0 : decValue ['3'] = 3 := by rfl
    have a1 : decValue ['2', '5'] = 25 := by rfl
    rw [a0, a1]
    have : ((3 : ℕ) : ℚ) + ((25 : ℕ) : ℚ) / 10 ^ ['2', '5'].length = ((13 : ℕ) : ℚ) / 2 ^ 2 := by
      norm_num
    rw [this, f64Round_dyadic 13 2 (by norm_num) (by norm_num)]
  ⟨goLib_standard, by simp, by decide, by decide, by decide, by norm_num, by decide, hf,
    by norm_num,
    C17_codec_values.2.2.2 goLib goLib_standard " 3.25kb " ['3'] ['2', '5'] ['k', 'b'] 1 _
      (by simp) (by decide) (by decide) (by decide) (by norm_num) (by decide) hf (by norm_num)⟩

/-- C18: `ParseByteSize` never panics: the two slice expressions of line 61 are
in range for every input.  For an input without a decimal digit it returns the
error "invalid size".  For an input whose trimmed text is cut after its last
digit into a part that `strconv.ParseFloat` accepts and a rest that, in upper
case, is none of B, KB, MB, GB, TB, PB and EB, it returns the error
"unrecognized unit"; "5XB" is such an input. -/
theorem C18_parse_failure (lib : GoLib) (s : String) :
    ParseByteSize lib s ≠ .panics ∧
    ((∀ c ∈ s.toList, isDigit c = false) →
      ParseByteSize lib s = .error ("invalid size: " ++ String.mk (trimSpace s.toList))) ∧
    (∀ (pre suf : List Char) (d : Char) (v : F64),
      trimSpace s.toList = pre ++ d :: suf → isDigit d = true →
      (∀ c ∈ suf, isDigit c = false) → lib.parseFloat (String.mk (pre ++ [d])) = some v →
      suf.map lib.toUpper ∉ knownUnits →
      ParseByteSize lib s = .error ("unrecognized unit: " ++ String.mk (suf.map lib.toUpper))) ∧
    ParseByteSize goLib "5XB" = .error "unrecognized unit: XB" := by
  refine ⟨?_, ?_, ?_, ?_⟩
  · unfold ParseByteSize
    simp only
    split_ifs with h
    · simp
    · rcases lastIndexFrom_bounds isDigit (trimSpace s.toList) 0 (-1) with hb | ⟨hb1, hb2⟩
      · exact absurd hb h
      · have hb1' : 0 ≤ lastIndexFunc isDigit (trimSpace s.toList) := hb1
        have hb2' : lastIndexFunc isDigit (trimSpace s.toList) <
            0 + ((trimSpace s.toList).length : Int) := hb2
        have e1 : sliceTo (trimSpace s.toList) (lastIndexFunc isDigit (trimSpace s.toList) + 1) =
            some ((trimSpace s.toList).take
              (lastIndexFunc isDigit (trimSpace s.toList) + 1).toNat) := by
          unfold sliceTo
          rw [if_pos ⟨by omega, by omega⟩]
        have e2 : sliceFrom (trimSpace s.toList)
            (lastIndexFunc isDigit (trimSpace s.toList) + 1) =
            some ((trimSpace s.toList).drop
              (lastIndexFunc isDigit (trimSpace s.toList) + 1).toNat) := by
          unfold sliceFrom
          rw [if_pos ⟨by omega, by omega⟩]
        rw [e1, e2]
        simp only
        split
        · simp
        · split_ifs <;> simp
  · intro hno
    have hidx : lastIndexFunc isDigit (trimSpace s.toList) = -1 :=
      lastIndexFrom_none isDigit _ 0 (-1) (fun c hc => hno c (mem_of_mem_trimSpace hc))
    unfold ParseByteSize
    simp only [hidx, if_true]
  · intro pre suf d v hs hd hsuf hv hunit
    rw [ParseByteSize_split lib s pre suf d hs hd hsuf, hv]
    simp only [knownUnits, List.mem_cons, List.mem_singleton, not_or, List.not_mem_nil,
      or_false] at hunit
    obtain ⟨u1, u2, u3, u4, u5, u6, u7⟩ := hunit
    simp only [u1, u2, u3, u4, u5, u6, u7, if_false]
  · have hp : goLib.parseFloat (String.mk ([] ++ ['5'])) = some (.fin 5) := by
      show parseDecimal (String.mk ['5']) = _
      rw [parseDecimal_integer ['5'] (by simp) (by decide)]
      have : ((decValue ['5'] : ℕ) : ℚ) = ((5 : ℕ) : ℚ) := by rfl
      rw [this, parsedValue_natCast 5 (by norm_num)]
      simp
    rw [ParseByteSize_split goLib "5XB" [] ['X', 'B'] '5' (by decide) (by decide) (by decide), hp]
    decide

theorem C18_parse_failure_witness :
    (∀ c ∈ "KB".toList, isDigit c = false) ∧
    ParseByteSize goLib "KB" = .error ("invalid size: " ++ String.mk (trimSpace "KB".toList)) :=
  ⟨by decide, (C18_parse_failure goLib "KB").2.1 (by decide)⟩

end Objref
